import Mathlib

/-!
Verification of the structural-editor core of the Note Assembler plugin
(`src/main.ts`).  Documents are modelled as lists of characters; the
JavaScript operations `split("\n")`, `join`, `trim`, `trimEnd`,
`replace(/\n{3,}/g, "\n\n")` and the parsing loops are translated
line-for-line into executable Lean definitions, and the specification's
claims are settled against them.
-/

namespace NA

/-- A JavaScript string, modelled as its list of characters. -/
abbrev Str := List Char

/-- Characters matched by JavaScript `\s` (the set relevant to `trim`,
`trimEnd` and blank-line tests). -/
def isWs (c : Char) : Bool :=
  c = ' ' || c = '\t' || c = '\n' || c = '\r' ||
  c = '\u000b' || c = '\u000c' || c = '\u00a0' || c = '\u1680' ||
  ('\u2000' ≤ c && c ≤ '\u200a') || c = '\u2028' || c = '\u2029' ||
  c = '\u202f' || c = '\u205f' || c = '\u3000' || c = '\ufeff'

/-- JavaScript `s.trimStart()`. -/
def jsTrimStart (s : Str) : Str := s.dropWhile isWs

/-- JavaScript `s.trimEnd()`: drop trailing whitespace characters. -/
def jsTrimEnd (s : Str) : Str := (s.reverse.dropWhile isWs).reverse

/-- JavaScript `s.trim()`. -/
def jsTrim (s : Str) : Str := jsTrimEnd (jsTrimStart s)

/-- `line.trim() === ""`: the line consists of whitespace only. -/
def isBlankLine (l : Str) : Bool := l.all isWs

/-- JavaScript `content.split("\n")` (single-character separator). -/
def splitLines : Str → List Str
  | [] => [[]]
  | c :: rest =>
    let r := splitLines rest
    if c = '\n' then ([] : Str) :: r
    else (c :: r.headD ([] : Str)) :: r.tail

/-- JavaScript `parts.join(sep)`. -/
def joinSep (sep : Str) : List Str → Str
  | [] => []
  | [l] => l
  | l :: m :: rest => l ++ sep ++ joinSep sep (m :: rest)

/-- JavaScript `lines.join("\n")`. -/
def joinLines (ls : List Str) : Str := joinSep ['\n'] ls

/-- `/^## (.+)$/`: a level-2 heading line; returns the captured heading text. -/
def headingText? (l : Str) : Option Str :=
  match l with
  | '#' :: '#' :: ' ' :: rest => if rest = [] then none else some rest
  | _ => none

/-- A line matching `/^## (.+)$/`. -/
def isHeadingLine (l : Str) : Bool := (headingText? l).isSome

/-- `/^---+$/`: a horizontal-rule line (three or more hyphens, nothing else). -/
def isHR (l : Str) : Bool := decide (3 ≤ l.length) && l.all (fun c => c = '-')

/-- `line.startsWith("> ") || line === ">"`: a blockquote line. -/
def isQuoteLine (l : Str) : Bool :=
  match l with
  | '>' :: ' ' :: _ => true
  | ['>'] => true
  | _ => false

/-- `truncate(str, max)` from `main.ts`. -/
def truncate (s : Str) (max : Nat) : Str :=
  if max < s.length then s.take (max - 1) ++ ['…'] else s

/-- `replace(/\n{3,}/g, "\n\n")`, processed as runs of newline characters:
a maximal run of three or more newlines becomes exactly two. -/
def collapseGo (n : Nat) : Str → Str
  | [] => List.replicate (if 3 ≤ n then 2 else n) '\n'
  | c :: rest =>
    if c = '\n' then collapseGo (n + 1) rest
    else List.replicate (if 3 ≤ n then 2 else n) '\n' ++ c :: collapseGo 0 rest

/-- JavaScript `s.replace(/\n{3,}/g, "\n\n")`. -/
def collapseNL (s : Str) : Str := collapseGo 0 s

/-- A parsed `h2` section (`interface Section` in `main.ts`). -/
structure Section where
  heading : Str
  startLine : Nat
  endLine : Nat
  pinned : Bool
deriving Repr, DecidableEq

/-- The scanning loop of `parseSections`: `total` is `lines.length`, `i` the
current line index, `cur` the currently open section. -/
def sectionsGo (pin : Str) (total : Nat) : List Str → Nat → Option Section → List Section
  | [], _, none => []
  | [], _, some cur => [{ cur with endLine := total }]
  | l :: rest, i, cur =>
    match headingText? l with
    | some h =>
      let newCur : Section := ⟨h, i, total, jsTrim h == pin⟩
      match cur with
      | some c => { c with endLine := i } :: sectionsGo pin total rest (i + 1) (some newCur)
      | none => sectionsGo pin total rest (i + 1) (some newCur)
    | none => sectionsGo pin total rest (i + 1) cur

/-- `parseSections(content)` from `main.ts`; `pin` is the configured
`pinnedSectionName`. -/
def parseSections (pin : Str) (content : Str) : List Section :=
  let lines := splitLines content
  sectionsGo pin lines.length lines 0 none

/-- Block kinds (`type` field of `interface ContentBlock`). -/
inductive BlockType where
  | heading
  | blockquote
  | prose
deriving Repr, DecidableEq

/-- `interface ContentBlock` from `main.ts`. -/
structure ContentBlock where
  type : BlockType
  startLine : Nat
  endLine : Nat
  preview : Str
  source : Option Str := none
  headText : Option Str := none
deriving Repr, DecidableEq

/-- A heading line whose trimmed text equals the pinned-section name. -/
def isPinnedHead (pin : Str) (l : Str) : Bool :=
  match headingText? l with
  | some h => jsTrim h == pin
  | none => false

/-- Index of the first element satisfying `p`, or the length of the list when
none does. -/
def firstIdxP (p : Str → Bool) : List Str → Nat
  | [] => 0
  | l :: rest => if p l then 0 else firstIdxP p rest + 1

/-- The `pinnedStart` scan of `parseBlocks`: first line whose heading matches
the pinned name, else `lines.length`. -/
def findPinnedStart (pin : Str) (lines : List Str) : Nat :=
  firstIdxP (isPinnedHead pin) lines

/-- The `effectiveEnd` computation of `parseBlocks`: back up over at most one
blank line, one horizontal rule, and one more blank line directly before the
pinned section. -/
def effectiveEnd (pin : Str) (lines : List Str) : Nat :=
  let e0 := findPinnedStart pin lines
  let e1 := if decide (0 < e0) && isBlankLine (lines.getD (e0 - 1) []) then e0 - 1 else e0
  let e2 := if decide (0 < e1) && isHR (lines.getD (e1 - 1) []) then e1 - 1 else e1
  if decide (0 < e2) && isBlankLine (lines.getD (e2 - 1) []) then e2 - 1 else e2

/-- `while (i < effEnd && p(lines[i])) i++` — returns the index where the run
of `p`-lines starting at `i` ends.  `fuel` bounds the iteration count. -/
def runEnd (p : Str → Bool) (lines : List Str) (effEnd : Nat) : Nat → Nat → Nat
  | 0, i => i
  | fuel + 1, i =>
    if decide (i < effEnd) && p (lines.getD i []) then runEnd p lines effEnd fuel (i + 1)
    else i

/-- The prose-loop condition of `parseBlocks`: not blank, not a heading, not a
quote line, not a horizontal rule. -/
def isProseLine (l : Str) : Bool :=
  !isBlankLine l && !isHeadingLine l && !isQuoteLine l && !isHR l

/-- `replace(/^>\s*/, "")` on a quote line. -/
def stripQuoteMarker (l : Str) : Str :=
  match l with
  | '>' :: rest => rest.dropWhile isWs
  | _ => l

/-- `replace(/^[“"']/, "")`: drop one leading smart-quote glyph. -/
def stripSmartQuote (l : Str) : Str :=
  match l with
  | c :: rest => if c = '“' || c = '"' || c.toNat = 39 then rest else l
  | [] => []

/-- Attribution pattern `/\[\[([^\]|]+)\|\*]]/` matched at the head of `s`. -/
def matchAttrName? (s : Str) : Option Str :=
  match s with
  | '[' :: '[' :: rest =>
    let run := rest.takeWhile (fun c => !(c = ']' || c = '|'))
    if run = [] then none
    else
      match rest.drop run.length with
      | '|' :: '*' :: ']' :: ']' :: _ => some run
      | _ => none
  | _ => none

/-- First attribution match anywhere in the line (JS `line.match(...)`). -/
def findAttr : Str → Option Str
  | [] => none
  | c :: rest =>
    match matchAttrName? (c :: rest) with
    | some n => some n
    | none => findAttr rest

/-- The main scanning loop of `parseBlocks`.  `fuel` bounds iterations; it is
instantiated with `effEnd`, which always suffices since the cursor advances by
at least one line per step. -/
def scanBlocks (lines : List Str) (effEnd : Nat) : Nat → Nat → List ContentBlock
  | 0, _ => []
  | fuel + 1, i =>
    if decide (i < effEnd) then
      let line := lines.getD i []
      if isBlankLine line then scanBlocks lines effEnd fuel (i + 1)
      else if isHR line then scanBlocks lines effEnd fuel (i + 1)
      else
        match headingText? line with
        | some ht =>
          ⟨BlockType.heading, i, i + 1, ht, none, some ht⟩ :: scanBlocks lines effEnd fuel (i + 1)
        | none =>
          if isQuoteLine line then
            let j := runEnd isQuoteLine lines effEnd (effEnd - i) i
            let lastQ := lines.getD (j - 1) []
            let first := stripSmartQuote (stripQuoteMarker (lines.getD i []))
            ⟨BlockType.blockquote, i, j, truncate first 50, findAttr lastQ, none⟩ ::
              scanBlocks lines effEnd fuel j
          else
            let j := runEnd isProseLine lines effEnd (effEnd - i) i
            ⟨BlockType.prose, i, j, truncate (lines.getD i []) 50, none, none⟩ ::
              scanBlocks lines effEnd fuel j
    else []

/-- `parseBlocks(content)` from `main.ts`. -/
def parseBlocks (pin : Str) (content : Str) : List ContentBlock :=
  let lines := splitLines content
  let effEnd := effectiveEnd pin lines
  scanBlocks lines effEnd effEnd 0

/-- `interface HeadingGroup` from `main.ts`. -/
structure HeadingGroup where
  heading : ContentBlock
  children : List ContentBlock
  headingIndex : Nat
  childIndices : List Nat
deriving Repr, DecidableEq

/-- The loop of `groupBlocks`: `i` is the index of the head of the remaining
block list, `cur` the currently accumulating group. -/
def groupGo : List ContentBlock → Nat → Option HeadingGroup → List Nat × List HeadingGroup
  | [], _, none => ([], [])
  | [], _, some g => ([], [g])
  | b :: rest, i, cur =>
    if b.type = BlockType.heading then
      let r := groupGo rest (i + 1) (some ⟨b, [], i, []⟩)
      match cur with
      | some g => (r.1, g :: r.2)
      | none => r
    else
      match cur with
      | some g =>
        groupGo rest (i + 1)
          (some { g with children := g.children ++ [b], childIndices := g.childIndices ++ [i] })
      | none =>
        let r := groupGo rest (i + 1) none
        (i :: r.1, r.2)

/-- `groupBlocks(blocks)` from `main.ts`. -/
def groupBlocks (blocks : List ContentBlock) : List Nat × List HeadingGroup :=
  groupGo blocks 0 none

/-- Result of a structural operation: an early validation `return` (`noop`),
a thrown `TypeError` from an `undefined` index access (`crash`, nothing is
committed), or a committed replacement text. -/
inductive OpResult where
  | noop
  | crash
  | commit (text : Str)
deriving Repr, DecidableEq

/-- The document text after an operation: the committed text, or the original
document when nothing was committed. -/
def outText (r : OpResult) (orig : Str) : Str :=
  match r with
  | OpResult.commit t => t
  | _ => orig

/-- JavaScript `l[i]` for a possibly negative or out-of-range index:
`none` models `undefined`. -/
def getI? (l : List α) (i : Int) : Option α :=
  if h : 0 ≤ i ∧ i.toNat < l.length then some (l.get ⟨i.toNat, h.2⟩) else none

/-- `Array.prototype.splice(start, count)` leftover: the array with the
removed range excised (`count` is truncated at zero as in JS). -/
def spliceOut (lines : List Str) (start stop : Nat) : List Str :=
  lines.take start ++ lines.drop (start + (stop - start))

/-- `Array.prototype.slice(start, stop)`. -/
def sliceLines (lines : List Str) (start stop : Nat) : List Str :=
  (lines.drop start).take (stop - start)

/-- `while (a.length > 0 && a[a.length-1].trim() === "") a.pop()`. -/
def dropTrailingBlanks (ls : List Str) : List Str :=
  (ls.reverse.dropWhile isBlankLine).reverse

/-- `while (a.length > 0 && a[0].trim() === "") a.shift()`. -/
def dropLeadingBlanks (ls : List Str) : List Str := ls.dropWhile isBlankLine

/-- `while (k > 0 && lines[k-1].trim() === "") k--`. -/
def skipBlanksBack (lines : List Str) : Nat → Nat
  | 0 => 0
  | k + 1 => if isBlankLine (lines.getD k []) then skipBlanksBack lines k else k + 1

/-- The insert-at-end scan shared by `moveBlock` and `moveBlockGroup`: find the
pinned heading, then back over blank lines, one horizontal rule, and blank
lines again; `lines.length` when no pinned heading exists. -/
def insertAtEndPos (pin : Str) (lines : List Str) : Nat :=
  let j := findPinnedStart pin lines
  if j = lines.length then lines.length
  else
    let a := skipBlanksBack lines j
    let b := if decide (0 < a) && isHR (lines.getD (a - 1) []) then a - 1 else a
    skipBlanksBack lines b

/-- The shared tail of the three move operations: trim the payload's trailing
blank lines, split the remainder at `insertLine`, trim blank lines at the
seam, and rejoin the parts with one blank line of separation. -/
def reassemble (rem : List Str) (insertLine : Nat) (payload : List Str) : Str :=
  let before := dropTrailingBlanks (rem.take insertLine)
  let after := dropLeadingBlanks (rem.drop insertLine)
  let parts :=
    (if before = [] then [] else [joinLines before]) ++ [joinLines payload] ++
      (if after = [] then [] else [joinLines after])
  joinSep "\n\n".data parts ++ "\n".data

/-- `moveSection(project, fromIndex, toIndex)` from `main.ts`. -/
def moveSection (pin : Str) (content : Str) (fromIndex toIndex : Int) : OpResult :=
  if fromIndex = toIndex then OpResult.noop
  else
    let allSections := parseSections pin content
    let draggable := allSections.filter (fun s => !s.pinned)
    if decide ((draggable.length : Int) ≤ fromIndex) || decide ((draggable.length : Int) ≤ toIndex) then
      OpResult.noop
    else
      match getI? draggable fromIndex with
      | none => OpResult.crash
      | some sec =>
        let lines := splitLines content
        let sectionLines := sliceLines lines sec.startLine sec.endLine
        let rem := spliceOut lines sec.startLine sec.endLine
        let afterRemoval := joinLines rem
        let remainingSections := (parseSections pin afterRemoval).filter (fun s => !s.pinned)
        let insertLine? : Option Nat :=
          if decide ((remainingSections.length : Int) ≤ toIndex) then
            match (parseSections pin afterRemoval).find? (fun s => s.pinned) with
            | some p => some p.startLine
            | none => some rem.length
          else (getI? remainingSections toIndex).map (fun s => s.startLine)
        match insertLine? with
        | none => OpResult.crash
        | some insertLine =>
          -- `moveSection` trims the leading blanks of `after` inside the
          -- `after.length > 0` check, so an all-blank `after` still pushes an
          -- empty part (unlike `moveBlock`, which trims before the check).
          let payload := dropTrailingBlanks sectionLines
          let before := dropTrailingBlanks (rem.take insertLine)
          let after0 := rem.drop insertLine
          let parts :=
            (if before = [] then [] else [joinLines before]) ++ [joinLines payload] ++
              (if after0 = [] then [] else [joinLines (dropLeadingBlanks after0)])
          OpResult.commit (joinSep "\n\n".data parts ++ "\n".data)

/-- `removeSection(project, sectionIndex)` from `main.ts`. -/
def removeSection (pin : Str) (content : Str) (sectionIndex : Int) : OpResult :=
  let draggable := (parseSections pin content).filter (fun s => !s.pinned)
  if decide ((draggable.length : Int) ≤ sectionIndex) then OpResult.noop
  else
    match getI? draggable sectionIndex with
    | none => OpResult.crash
    | some sec =>
      let lines := splitLines content
      let rem := spliceOut lines sec.startLine sec.endLine
      OpResult.commit (jsTrimEnd (collapseNL (joinLines rem)) ++ "\n".data)

/-- `moveBlock(project, fromIndex, toIndex)` from `main.ts`. -/
def moveBlock (pin : Str) (content : Str) (fromIndex toIndex : Int) : OpResult :=
  if fromIndex = toIndex then OpResult.noop
  else
    let blocks := parseBlocks pin content
    if decide ((blocks.length : Int) ≤ fromIndex) || decide ((blocks.length : Int) ≤ toIndex) then
      OpResult.noop
    else
      match getI? blocks fromIndex with
      | none => OpResult.crash
      | some block =>
        let lines := splitLines content
        let blockLines := sliceLines lines block.startLine block.endLine
        let rem := spliceOut lines block.startLine block.endLine
        let afterRemoval := joinLines rem
        let remainingBlocks := parseBlocks pin afterRemoval
        let insertLine? : Option Nat :=
          if decide ((remainingBlocks.length : Int) ≤ toIndex) then
            some (insertAtEndPos pin (splitLines afterRemoval))
          else (getI? remainingBlocks toIndex).map (fun b => b.startLine)
        match insertLine? with
        | none => OpResult.crash
        | some insertLine => OpResult.commit (reassemble rem insertLine (dropTrailingBlanks blockLines))

/-- `removeBlock(project, blockIndex)` from `main.ts`. -/
def removeBlock (pin : Str) (content : Str) (blockIndex : Int) : OpResult :=
  let blocks := parseBlocks pin content
  if decide ((blocks.length : Int) ≤ blockIndex) then OpResult.noop
  else
    match getI? blocks blockIndex with
    | none => OpResult.crash
    | some block =>
      let lines := splitLines content
      let rem := spliceOut lines block.startLine block.endLine
      OpResult.commit (jsTrimEnd (collapseNL (joinLines rem)) ++ "\n".data)

/-- `moveBlockGroup(project, fromIndices, toIndex)` from `main.ts`.  Note the
absence of any range check on `fromIndices` or `toIndex`. -/
def moveBlockGroup (pin : Str) (content : Str) (fromIndices : List Int) (toIndex : Int) :
    OpResult :=
  if fromIndices = [] then OpResult.noop
  else if fromIndices.contains toIndex then OpResult.noop
  else
    let blocks := parseBlocks pin content
    let lines := splitLines content
    match getI? blocks (fromIndices.headD 0), getI? blocks (fromIndices.getLastD 0) with
    | some firstB, some lastB =>
      let groupLines := sliceLines lines firstB.startLine lastB.endLine
      let rem := spliceOut lines firstB.startLine lastB.endLine
      let afterRemoval := joinLines rem
      let remainingBlocks := parseBlocks pin afterRemoval
      let insertLine? : Option Nat :=
        if decide ((remainingBlocks.length : Int) ≤ toIndex) then
          some (insertAtEndPos pin (splitLines afterRemoval))
        else (getI? remainingBlocks toIndex).map (fun b => b.startLine)
      match insertLine? with
      | none => OpResult.crash
      | some insertLine => OpResult.commit (reassemble rem insertLine (dropTrailingBlanks groupLines))
    | _, _ => OpResult.crash

/-- `addNoteToProject(project, sourceFile)` from `main.ts`, modelled from the
point where the stripped source text is quoted (lines 862-898); `sourceContent`
ranges over every possible output of the upstream frontmatter/heading strip,
and `basename` is the source file's basename (which contains no newline). -/
def addNoteToProject (pin : Str) (content sourceContent basename : Str) : Str :=
  let sections := parseSections pin content
  let quoted := joinLines ((splitLines sourceContent).map (fun l => "> ".data ++ l))
  let newBlock := quoted ++ "  [[".data ++ basename ++ "|*]]\n".data
  match sections.find? (fun s => s.pinned) with
  | some ss =>
    let lines := splitLines content
    let beforeSources := joinLines (lines.take ss.startLine)
    let sourcesText := joinLines (lines.drop ss.startLine)
    let updatedSources := jsTrimEnd sourcesText ++ "\n- [[".data ++ basename ++ "]]".data
    jsTrimEnd beforeSources ++ "\n\n".data ++ newBlock ++ "\n".data ++ updatedSources ++ "\n".data
  | none =>
    jsTrimEnd content ++ "\n\n".data ++ newBlock ++ "\n\n---\n\n## ".data ++ pin ++
      "\n\n".data ++ "- [[".data ++ basename ++ "]]".data ++ "\n".data

/-- Result of `extractSection`: validation failure, the `EmptyExtraction`
condition, the destination-exists condition, or success carrying the created
artifact text and the (possibly unchanged) essay text. -/
inductive ExtractResult where
  | invalid
  | emptyExtraction
  | destExists
  | done (artifact : Str) (newText : Str)
deriving Repr, DecidableEq

/-- JavaScript `s.includes(pat)`: contiguous substring test. -/
def strIncludes (pat : Str) : Str → Bool
  | [] => pat.isPrefixOf []
  | c :: rest => pat.isPrefixOf (c :: rest) || strIncludes pat rest

/-- `sanitizeFilename` from `main.ts`: strip filesystem-reserved characters,
then trim. -/
def sanitizeFilename (name : Str) : Str :=
  jsTrim (name.filter (fun c =>
    !(c = '/' || c = '\\' || c = ':' || c = '*' || c = '?' || c = '"' || c = '<' ||
      c = '>' || c = '|')))

/-- `extractSection(project, sectionIndex)` from `main.ts`.  `destExists`
models `vault.getAbstractFileByPath(targetPath)` being non-null. -/
def extractSection (pin : Str) (content : Str) (sectionIndex : Int) (destExists : Bool) :
    ExtractResult :=
  let allSections := parseSections pin content
  let draggable := allSections.filter (fun s => !s.pinned)
  if decide ((draggable.length : Int) ≤ sectionIndex) then ExtractResult.invalid
  else
    match getI? draggable sectionIndex with
    | none => ExtractResult.invalid
    | some sec =>
      let lines := splitLines content
      let body0 := sliceLines lines (sec.startLine + 1) sec.endLine
      let bodyLines := dropTrailingBlanks (dropLeadingBlanks body0)
      if bodyLines = [] then ExtractResult.emptyExtraction
      else if destExists then ExtractResult.destExists
      else
        let safeName := sanitizeFilename sec.heading
        let artifact := joinLines bodyLines ++ "\n".data
        match allSections.find? (fun x => x.pinned) with
        | some ss =>
          let sourcesBody := joinLines (sliceLines lines ss.startLine ss.endLine)
          if strIncludes ("[[".data ++ safeName ++ "]]".data) sourcesBody then
            ExtractResult.done artifact content
          else
            ExtractResult.done artifact
              (joinLines (lines.take ss.endLine ++
                ["- [[".data ++ safeName ++ "]]".data] ++ lines.drop ss.endLine))
        | none =>
          ExtractResult.done artifact
            (jsTrimEnd content ++ "\n\n---\n\n## ".data ++ pin ++ "\n\n".data ++
              "- [[".data ++ safeName ++ "]]".data ++ "\n".data)

/-- Generic left-to-right global regex replacement: `m` attempts a match at
the current position and returns the replacement text together with the
remainder after the match; on failure the scanner advances one character.
`fuel` bounds the iteration count and is instantiated with the input length,
which always suffices because a match consumes at least one character. -/
def scanRepl (m : Str → Option (Str × Str)) : Nat → Str → Str
  | 0, s => s
  | _ + 1, [] => []
  | fuel + 1, c :: rest =>
    match m (c :: rest) with
    | some (out, r) => out ++ scanRepl m fuel r
    | none => c :: scanRepl m fuel rest

/-- `/\[\[[^\]|]+\|\*]]/` matched at the head: an attribution sigil link,
replaced by the empty string. -/
def matchAttrRepl (s : Str) : Option (Str × Str) :=
  match s with
  | '[' :: '[' :: rest =>
    let run := rest.takeWhile (fun c => !(c = ']' || c = '|'))
    if run = [] then none
    else
      match rest.drop run.length with
      | '|' :: '*' :: ']' :: ']' :: r => some ([], r)
      | _ => none
  | _ => none

/-- `/\[\[([^\]|]+)\|([^\]]+)]]/` matched at the head: a piped wikilink,
replaced by its display text. -/
def matchPipedRepl (s : Str) : Option (Str × Str) :=
  match s with
  | '[' :: '[' :: rest =>
    let t := rest.takeWhile (fun c => !(c = ']' || c = '|'))
    if t = [] then none
    else
      match rest.drop t.length with
      | '|' :: rest2 =>
        let d := rest2.takeWhile (fun c => !(c = ']'))
        if d = [] then none
        else
          match rest2.drop d.length with
          | ']' :: ']' :: r => some (d, r)
          | _ => none
      | _ => none
  | _ => none

/-- `/\[\[([^\]]+)]]/` matched at the head: a bare wikilink, replaced by its
target text. -/
def matchBareRepl (s : Str) : Option (Str × Str) :=
  match s with
  | '[' :: '[' :: rest =>
    let t := rest.takeWhile (fun c => !(c = ']'))
    if t = [] then none
    else
      match rest.drop t.length with
      | ']' :: ']' :: r => some (t, r)
      | _ => none
  | _ => none

/-- `copyCleanExport(project)` from `main.ts`: `none` models the
"Nothing to export" early return, `some` the text placed on the clipboard. -/
def renderExport (pin : Str) (includeHeadings : Bool) (content : Str) : Option Str :=
  let draggable := (parseSections pin content).filter (fun s => !s.pinned)
  if draggable = [] then none
  else
    let lines := splitLines content
    let parts := draggable.map (fun s =>
      let sl := sliceLines lines s.startLine s.endLine
      let sl := if includeHeadings then sl else sl.filter (fun l => !isHeadingLine l)
      joinLines sl)
    let output := joinSep "\n\n".data parts
    let output := scanRepl matchAttrRepl output.length output
    let output := scanRepl matchPipedRepl output.length output
    let output := scanRepl matchBareRepl output.length output
    some (jsTrim (collapseNL output))

/-! ### Export link-grammar definitions -/

/-- Characters allowed in a well-formed link target, display, or name. -/
def okChar (c : Char) : Bool := !(c = '[' || c = ']' || c = '|')

/-- A token of the export-relevant link grammar: plain text, an attribution
sigil link, a piped wikilink, or a bare wikilink. -/
inductive ETok where
  | plain : Str → ETok
  | attr : Str → ETok
  | piped : Str → Str → ETok
  | bare : Str → ETok
deriving Repr, DecidableEq

def encTok : ETok → Str
  | ETok.plain s => s
  | ETok.attr n => "[[".data ++ n ++ "|*]]".data
  | ETok.piped t d => "[[".data ++ t ++ "|".data ++ d ++ "]]".data
  | ETok.bare t => "[[".data ++ t ++ "]]".data

def toksText (ts : List ETok) : Str := (ts.map encTok).flatten

/-- What each token becomes in the cleaned export. -/
def stripTok : ETok → Str
  | ETok.plain s => s
  | ETok.attr _ => []
  | ETok.piped _ d => d
  | ETok.bare t => t

def wfTok : ETok → Bool
  | ETok.plain s => s.all (fun c => !(c = '[' || c = ']'))
  | ETok.attr n => !n.isEmpty && n.all okChar
  | ETok.piped t d => !t.isEmpty && t.all okChar && !d.isEmpty && d.all okChar &&
      !(d = ['*'])
  | ETok.bare t => !t.isEmpty && t.all okChar

/-- The section-parts string that `copyCleanExport` joins before the three
link-stripping passes. -/
def exportParts (pin : Str) (includeHeadings : Bool) (content : Str) : Str :=
  joinSep "\n\n".data (((parseSections pin content).filter (fun s => !s.pinned)).map
    (fun s =>
      let sl := sliceLines (splitLines content) s.startLine s.endLine
      let sl := if includeHeadings then sl else sl.filter (fun l => !isHeadingLine l)
      joinLines sl))

def isAttrTok : ETok → Bool
  | ETok.attr _ => true
  | _ => false

def isPipedTok : ETok → Bool
  | ETok.piped _ _ => true
  | _ => false

def unPipe : ETok → ETok
  | ETok.piped _ d => ETok.plain d
  | tk => tk

def unBare : ETok → ETok
  | ETok.bare t => ETok.plain t
  | tk => tk

/-- Counterexample document: contains a piped link, a bare link, a quote
ending in the attribution sigil, and a stray unmatched close-bracket pair. -/
def cxDoc : Str :=
  "## A\n> q [[Src|*]]\nsee [[T|D]] and [[C]] but ]] stays\n\n## Sources\n- x".data

def wDoc : Str := "## A\nsee [[T|D]] and [[C]] x [[S|*]]\n\n## Sources\n- q".data

def wToks : List ETok :=
  [ETok.plain "## A\nsee ".data, ETok.piped "T".data "D".data,
   ETok.plain " and ".data, ETok.bare "C".data, ETok.plain " x ".data,
   ETok.attr "S".data, ETok.plain "\n".data]

def wOut : Str := "## A\nsee D and C x".data

/-! ### Structure of `parseSections` -/

/-- The heading lines of a line list, with their text, absolute position
(starting at `i`), and pinned flag. -/
def headTriples (pin : Str) : List Str → Nat → List (Str × Nat × Bool)
  | [], _ => []
  | l :: rest, i =>
    match headingText? l with
    | some h => (h, i, jsTrim h == pin) :: headTriples pin rest (i + 1)
    | none => headTriples pin rest (i + 1)

/-- The triples of the whole document, used to state section-level facts. -/
def docTriples (pin : Str) (content : Str) : List (Str × Nat × Bool) :=
  headTriples pin (splitLines content) 0

/-- Invariant carried for the currently open section of `sectionsGo`. -/
def OpenInv (lines : List Str) (i : Nat) (c : Section) : Prop :=
  c.startLine < i ∧ headingText? (lines.getD c.startLine []) = some c.heading ∧
    ∀ k, c.startLine < k → k < i → isHeadingLine (lines.getD k []) = false

/-- Per-section conclusion of the range lemma. -/
def SecRange (lines : List Str) (s : Section) : Prop :=
  headingText? (lines.getD s.startLine []) = some s.heading ∧
    s.startLine < s.endLine ∧ s.endLine ≤ lines.length ∧
    ∀ k, s.startLine < k → k < s.endLine → isHeadingLine (lines.getD k []) = false

/-! ### Claim C10: groupBlocks partitions the block indices -/

/-- Placeholder block used as the `getD` default for index lookups. -/
def dummyBlock : ContentBlock := ⟨BlockType.prose, 0, 0, [], none, none⟩

/-- The block at index `i` of a block list. -/
def blockAt (bs : List ContentBlock) (i : Nat) : ContentBlock := bs.getD i dummyBlock

/-- Flattened index list of a group: its heading index followed by its child
indices. -/
def groupIdxs (g : HeadingGroup) : List Nat := g.headingIndex :: g.childIndices

/-- Invariant for the open group of `groupGo`. -/
def GroupInv (full : List ContentBlock) (i : Nat) (g : HeadingGroup) : Prop :=
  g.headingIndex < i ∧ (blockAt full g.headingIndex).type = BlockType.heading ∧
    ∀ c ∈ g.childIndices, c < i ∧ (blockAt full c).type ≠ BlockType.heading

/-! ### runEnd and slice toolkit -/

/-- A line that belongs to some block: neither blank nor a horizontal rule. -/
def keepLine (l : Str) : Bool := !isBlankLine l && !isHR l

/-! ### The scanning invariant of `parseBlocks` -/

/-- Full specification of the block scanner on the region `[i, effEnd)`:
block ranges are within the region, ordered and non-overlapping, their
concatenated line slices are exactly the kept (non-blank, non-rule) lines of
the region in order, every line inside a block is kept, and every region line
outside all blocks is blank or a horizontal rule. -/
def ScanSpec (lines : List Str) (effEnd i : Nat) (bs : List ContentBlock) : Prop :=
  (∀ b ∈ bs, i ≤ b.startLine ∧ b.startLine < b.endLine ∧ b.endLine ≤ effEnd) ∧
  List.Chain' (fun b b' => b.endLine ≤ b'.startLine) bs ∧
  (bs.map (fun b => sliceLines lines b.startLine b.endLine)).flatten =
    (sliceLines lines i effEnd).filter keepLine ∧
  (∀ b ∈ bs, ∀ k, b.startLine ≤ k → k < b.endLine → keepLine (lines.getD k []) = true) ∧
  (∀ k, i ≤ k → k < effEnd → (∀ b ∈ bs, ¬(b.startLine ≤ k ∧ k < b.endLine)) →
    keepLine (lines.getD k []) = false)

/-- Number of draggable (non-pinned) sections. -/
def dragSecCount (pin content : Str) : Nat :=
  ((parseSections pin content).filter (fun s => !s.pinned)).length

/-- Maximal runs of non-newline characters, accumulated left to right
(`acc` is the current run, reversed). -/
def chunksGo (acc : Str) : Str → List Str
  | [] => if acc = [] then [] else [acc.reverse]
  | c :: rest =>
    if c = '\n' then
      (if acc = [] then [] else [acc.reverse]) ++ chunksGo [] rest
    else chunksGo (c :: acc) rest

/-- The non-empty lines of a string, in order. -/
def neLines (s : Str) : List Str := (splitLines s).filter (fun l => !l.isEmpty)

/-- The line-level effect of `jsTrimEnd`: drop trailing all-whitespace lines,
then trim trailing whitespace off the last remaining line (`[[]]` when the
whole text is whitespace). -/
def trimEndLines (ls : List Str) : List Str :=
  let d := ls.reverse.dropWhile isBlankLine
  if d = [] then [[]] else (jsTrimEnd (d.headD []) :: d.tail).reverse

/-! ### Heading lines under collapse and trimEnd -/

/-- The heading texts of a line list, in order. -/
def headsOf (ls : List Str) : List Str := ls.filterMap headingText?

/-- Decidable per-line check used to discharge the well-formed-headings
hypothesis on concrete documents. -/
def headOk (l : Str) : Bool :=
  (headingText? l).elim true (fun h => decide (jsTrim h ≠ []))

/-- All lines belonging to parsed blocks, in document order. -/
def blockLines (pin content : Str) : List Str :=
  ((parseBlocks pin content).map
    (fun b => sliceLines (splitLines content) b.startLine b.endLine)).flatten

/-- All lines belonging to parsed sections, in document order. -/
def sectionLines (pin content : Str) : List Str :=
  ((parseSections pin content).map
    (fun s => sliceLines (splitLines content) s.startLine s.endLine)).flatten

theorem splitLines_ne_nil (s : Str) : splitLines s ≠ [] := by
  cases s with
  | nil => simp [splitLines]
  | cons c rest =>
    simp only [splitLines]
    split <;> simp

/-! ### Split/join algebra -/

theorem splitLines_cons_headD_tail (s : Str) :
    splitLines s = (splitLines s).headD [] :: (splitLines s).tail := by
  cases h : splitLines s with
  | nil => exact absurd h (splitLines_ne_nil s)
  | cons a t => simp

theorem noNL_splitLines (s : Str) : ∀ l ∈ splitLines s, '\n' ∉ l := by
  induction s with
  | nil => intro l hl; simp [splitLines] at hl; simp [hl]
  | cons c rest ih =>
    intro l hl
    simp only [splitLines] at hl
    by_cases hc : c = '\n'
    · simp [hc] at hl
      rcases hl with h | h
      · simp [h]
      · exact ih l h
    · simp [hc] at hl
      rcases hl with h | h
      · subst h
        intro hmem
        rcases List.mem_cons.mp hmem with h1 | h1
        · exact hc h1.symm
        · cases hr : splitLines rest with
          | nil => exact absurd hr (splitLines_ne_nil rest)
          | cons a t =>
            apply ih a (by simp [hr])
            simpa [hr] using h1
      · exact ih l (List.mem_of_mem_tail h)

theorem joinLines_cons (l : Str) (ls : List Str) (h : ls ≠ []) :
    joinLines (l :: ls) = l ++ '\n' :: joinLines ls := by
  cases ls with
  | nil => exact absurd rfl h
  | cons m rest => simp [joinLines, joinSep]

theorem join_split (s : Str) : joinLines (splitLines s) = s := by
  induction s with
  | nil => simp [splitLines, joinLines, joinSep]
  | cons c rest ih =>
    simp only [splitLines]
    by_cases hc : c = '\n'
    · subst hc
      rw [if_pos rfl]
      rw [joinLines_cons _ _ (splitLines_ne_nil rest)]
      simp [ih]
    · simp only [if_neg hc]
      cases hr : splitLines rest with
      | nil => exact absurd hr (splitLines_ne_nil rest)
      | cons a t =>
        cases t with
        | nil =>
          have : joinLines [a] = a := by simp [joinLines, joinSep]
          rw [hr] at ih
          simp only [List.headD, List.tail]
          have h2 : joinLines [c :: a] = c :: a := by simp [joinLines, joinSep]
          rw [h2]
          rw [this] at ih
          simp [ih]
        | cons b t2 =>
          simp only [List.headD, List.tail]
          rw [joinLines_cons _ _ (by simp)]
          rw [hr] at ih
          rw [joinLines_cons _ _ (by simp)] at ih
          simp [← ih]

theorem splitLines_append (a b : Str) :
    splitLines (a ++ '\n' :: b) = splitLines a ++ splitLines b := by
  induction a with
  | nil => simp [splitLines]
  | cons c rest ih =>
    simp only [List.cons_append, splitLines, ih]
    by_cases hc : c = '\n'
    · simp [hc, ih]
    · simp only [if_neg hc]
      cases hr : splitLines rest with
      | nil => exact absurd hr (splitLines_ne_nil rest)
      | cons x t => simp [ih, hr]

theorem splitLines_noNL (l : Str) (h : '\n' ∉ l) : splitLines l = [l] := by
  induction l with
  | nil => simp [splitLines]
  | cons c rest ih =>
    have hc : c ≠ '\n' := fun hh => h (by simp [hh])
    have hr : '\n' ∉ rest := fun hh => h (by simp [hh])
    simp only [splitLines, if_neg hc, ih hr]
    simp

theorem split_join (ls : List Str) (hne : ls ≠ []) (h : ∀ l ∈ ls, '\n' ∉ l) :
    splitLines (joinLines ls) = ls := by
  induction ls with
  | nil => exact absurd rfl hne
  | cons l rest ih =>
    cases rest with
    | nil =>
      have : joinLines [l] = l := by simp [joinLines, joinSep]
      rw [this, splitLines_noNL l (h l (by simp))]
    | cons m t =>
      rw [joinLines_cons _ _ (by simp)]
      rw [splitLines_append, splitLines_noNL l (h l (by simp))]
      rw [ih (by simp) (fun x hx => h x (by simp [hx]))]
      simp

theorem sectionsGo_triples (pin : Str) (total : Nat) :
    ∀ (ls : List Str) (i : Nat) (cur : Option Section),
    (sectionsGo pin total ls i cur).map (fun s => (s.heading, s.startLine, s.pinned)) =
      (match cur with
       | some c => [(c.heading, c.startLine, c.pinned)]
       | none => []) ++ headTriples pin ls i := by
  intro ls
  induction ls with
  | nil => intro i cur; cases cur <;> simp [sectionsGo, headTriples]
  | cons l rest ih =>
    intro i cur
    simp only [sectionsGo, headTriples]
    cases hh : headingText? l with
    | none => cases cur <;> simp [ih]
    | some h => cases cur <;> simp [ih]

theorem parseSections_triples (pin : Str) (content : Str) :
    (parseSections pin content).map (fun s => (s.heading, s.startLine, s.pinned)) =
      docTriples pin content := by
  simpa [parseSections, docTriples] using
    sectionsGo_triples pin (splitLines content).length (splitLines content) 0 none

theorem getD_eq_headD_drop (lines : List Str) (i : Nat) :
    lines.getD i [] = (lines.drop i).headD [] := by
  induction lines generalizing i with
  | nil => cases i <;> simp
  | cons a t ih =>
    cases i with
    | zero => simp
    | succ n => simpa using ih n

theorem drop_succ_eq_tail_drop (lines : List Str) (i : Nat) :
    lines.drop (i + 1) = (lines.drop i).tail := by
  induction lines generalizing i with
  | nil => simp
  | cons a t ih =>
    cases i with
    | zero => simp
    | succ n => simpa using ih n

theorem getD_of_drop (lines : List Str) (i : Nat) (l : Str) (rest : List Str)
    (h : lines.drop i = l :: rest) : lines.getD i [] = l := by
  rw [getD_eq_headD_drop, h]; rfl

theorem lt_length_of_drop_cons (lines : List Str) (i : Nat) (l : Str) (rest : List Str)
    (h : lines.drop i = l :: rest) : i < lines.length := by
  by_contra hge
  push_neg at hge
  rw [List.drop_eq_nil_of_le hge] at h
  exact List.noConfusion h

theorem sectionsGo_ranges (pin : Str) (lines : List Str) :
    ∀ (ls : List Str) (i : Nat) (cur : Option Section),
      lines.drop i = ls → i ≤ lines.length →
      (∀ c, cur = some c → OpenInv lines i c) →
      ∀ s ∈ sectionsGo pin lines.length ls i cur, SecRange lines s := by
  intro ls
  induction ls with
  | nil =>
    intro i cur hdrop hle hinv s hs
    have hi : i = lines.length := by
      have := List.drop_eq_nil_iff_le.mp hdrop
      omega
    cases cur with
    | none => simp [sectionsGo] at hs
    | some c =>
      simp only [sectionsGo, List.mem_singleton] at hs
      subst hs
      obtain ⟨h1, h2, h3⟩ := hinv c rfl
      refine ⟨?_, ?_, ?_, ?_⟩ <;> dsimp only
      · exact h2
      · omega
      · exact le_rfl
      · intro k hk1 hk2
        exact h3 k hk1 (by omega)
  | cons l rest ih =>
    intro i cur hdrop hle hinv s hs
    have hgi : lines.getD i [] = l := getD_of_drop lines i l rest hdrop
    have hlt : i < lines.length := lt_length_of_drop_cons lines i l rest hdrop
    have hdrop' : lines.drop (i + 1) = rest := by
      rw [drop_succ_eq_tail_drop, hdrop]
      rfl
    simp only [sectionsGo] at hs
    cases hh : headingText? l with
    | some h =>
      rw [hh] at hs
      have hnewinv : ∀ c', some (⟨h, i, lines.length, jsTrim h == pin⟩ : Section) = some c' →
          OpenInv lines (i + 1) c' := by
        intro c' hc'
        injection hc' with hc'
        subst hc'
        refine ⟨?_, ?_, ?_⟩
        · show i < i + 1
          omega
        · show headingText? (lines.getD i []) = some h
          rw [hgi]; exact hh
        · intro k hk1 hk2
          have hk1' : i < k := hk1
          omega
      cases cur with
      | none =>
        exact ih (i + 1) _ hdrop' (by omega) hnewinv s hs
      | some c =>
        rcases List.mem_cons.mp hs with hs1 | hs1
        · subst hs1
          obtain ⟨h1, h2, h3⟩ := hinv c rfl
          refine ⟨?_, ?_, ?_, ?_⟩ <;> dsimp only
          · exact h2
          · exact h1
          · omega
          · intro k hk1 hk2
            exact h3 k hk1 hk2
        · exact ih (i + 1) _ hdrop' (by omega) hnewinv s hs1
    | none =>
      rw [hh] at hs
      have hcontinv : ∀ c, cur = some c → OpenInv lines (i + 1) c := by
        intro c hc
        obtain ⟨h1, h2, h3⟩ := hinv c hc
        refine ⟨by omega, h2, ?_⟩
        intro k hk1 hk2
        rcases Nat.lt_or_ge k i with hk | hk
        · exact h3 k hk1 hk
        · have hEq : lines.getD k [] = l := by
            have hki : k = i := by omega
            rw [hki]; exact hgi
          rw [hEq]
          simp [isHeadingLine, hh]
      exact ih (i + 1) cur hdrop' (by omega) hcontinv s hs

theorem parseSections_ranges (pin : Str) (content : Str) :
    ∀ s ∈ parseSections pin content, SecRange (splitLines content) s := by
  intro s hs
  exact sectionsGo_ranges pin (splitLines content) (splitLines content) 0 none (by simp)
    (by simp) (by simp) s hs

/-! ### firstIdxP facts -/

theorem firstIdxP_le (p : Str → Bool) (ls : List Str) : firstIdxP p ls ≤ ls.length := by
  induction ls with
  | nil => simp [firstIdxP]
  | cons l rest ih =>
    simp only [firstIdxP]
    split
    · simp
    · simpa using ih

theorem firstIdxP_lt (p : Str → Bool) (ls : List Str) (k : Nat) (h : k < firstIdxP p ls) :
    p (ls.getD k []) = false := by
  induction ls generalizing k with
  | nil => simp [firstIdxP] at h
  | cons l rest ih =>
    simp only [firstIdxP] at h
    by_cases hp : p l
    · simp [hp] at h
    · cases k with
      | zero => simpa using Bool.of_not_eq_true hp
      | succ n =>
        simp only [if_neg hp] at h
        simpa using ih n (by omega)

theorem firstIdxP_head (p : Str → Bool) (ls : List Str) (h : firstIdxP p ls < ls.length) :
    p (ls.getD (firstIdxP p ls) []) = true := by
  induction ls with
  | nil => simp [firstIdxP] at h
  | cons l rest ih =>
    simp only [firstIdxP] at h ⊢
    by_cases hp : p l
    · simpa [hp] using hp
    · simp only [if_neg hp] at h ⊢
      have h' : firstIdxP p rest < rest.length := by
        simp only [List.length_cons] at h
        omega
      simpa using ih h' 

theorem firstIdxP_eq_length (p : Str → Bool) (ls : List Str) (h : ∀ l ∈ ls, p l = false) :
    firstIdxP p ls = ls.length := by
  induction ls with
  | nil => simp [firstIdxP]
  | cons l rest ih =>
    simp only [firstIdxP, h l (by simp)]
    simp [ih (fun x hx => h x (by simp [hx]))]

theorem take_firstIdxP (p : Str → Bool) (ls : List Str) :
    ls.take (firstIdxP p ls) = ls.takeWhile (fun l => !p l) := by
  induction ls with
  | nil => simp [firstIdxP]
  | cons l rest ih =>
    simp only [firstIdxP, List.takeWhile]
    by_cases hp : p l
    · simp [hp]
    · simp only [if_neg hp, Bool.of_not_eq_true hp]
      simp [ih]

/-! ### Claim C5 -/

theorem headTriples_flag (pin : Str) :
    ∀ (ls : List Str) (i : Nat) (t : Str × Nat × Bool), t ∈ headTriples pin ls i →
      t.2.2 = (jsTrim t.1 == pin) := by
  intro ls
  induction ls with
  | nil => intro i t ht; simp [headTriples] at ht
  | cons l rest ih =>
    intro i t ht
    simp only [headTriples] at ht
    cases hh : headingText? l with
    | some h =>
      rw [hh] at ht
      rcases List.mem_cons.mp ht with h1 | h1
      · simp [h1]
      · exact ih (i + 1) t h1
    | none =>
      rw [hh] at ht
      exact ih (i + 1) t ht

/-- C5, amended: the `pinned` flag of every parsed section is exactly the test
"trimmed heading equals the configured pinned name"; consequently a document
with several matching headings yields several pinned sections (not at most
one), and callers using `find` get the first by scan order. -/
theorem pinned_flag_spec (pin content : Str) :
    ∀ s ∈ parseSections pin content, s.pinned = (jsTrim s.heading == pin) := by
  intro s hs
  have hm : (s.heading, s.startLine, s.pinned) ∈ docTriples pin content := by
    rw [← parseSections_triples pin content]
    exact List.mem_map_of_mem _ hs
  simpa using headTriples_flag pin (splitLines content) 0 _ hm

/-- C5 counterexample: a document with two `## Sources` headings produces two
sections flagged pinned, refuting "at most one Section has `pinned = true`". -/
theorem pinned_not_unique :
    ¬((parseSections "Sources".data "## Sources\nfirst\n## Sources\nsecond".data).countP
        (fun s => s.pinned) ≤ 1) := by decide

/-- C5 witness: the amended flag characterization evaluated on a concrete
section of a concrete document. -/
theorem pinned_flag_spec_witness :
    (⟨"Sources".data, 2, 4, true⟩ : Section) ∈
        parseSections "Sources".data "## A\nx\n## Sources\ny".data ∧
      (⟨"Sources".data, 2, 4, true⟩ : Section).pinned =
        (jsTrim (⟨"Sources".data, 2, 4, true⟩ : Section).heading ==
          "Sources".data) :=
  ⟨by decide,
    pinned_flag_spec "Sources".data "## A\nx\n## Sources\ny".data
      ⟨"Sources".data, 2, 4, true⟩ (by decide)⟩

theorem getD_of_drop_blocks (xs : List ContentBlock) (i : Nat) (x : ContentBlock)
    (rest : List ContentBlock) (h : xs.drop i = x :: rest) : blockAt xs i = x := by
  induction xs generalizing i with
  | nil => simp at h
  | cons a t ih =>
    cases i with
    | zero => simp at h; simp [blockAt, h.1]
    | succ n =>
      simp only [List.drop_succ_cons] at h
      simpa [blockAt] using ih n h

theorem drop_succ_blocks (xs : List ContentBlock) (i : Nat) :
    xs.drop (i + 1) = (xs.drop i).tail := by
  induction xs generalizing i with
  | nil => simp
  | cons a t ih =>
    cases i with
    | zero => simp
    | succ n => simpa using ih n

theorem groupGo_spec (full : List ContentBlock) :
    ∀ (bs : List ContentBlock) (i : Nat) (cur : Option HeadingGroup),
      full.drop i = bs →
      (∀ g, cur = some g → GroupInv full i g) →
      (groupGo bs i cur).1 ++ ((groupGo bs i cur).2.map groupIdxs).flatten =
          (match cur with
           | some g => groupIdxs g
           | none => []) ++ List.range' i bs.length ∧
        (∀ g, cur = some g → (groupGo bs i cur).1 = []) ∧
        (∀ o ∈ (groupGo bs i cur).1, (blockAt full o).type ≠ BlockType.heading) ∧
        (∀ g ∈ (groupGo bs i cur).2,
          (blockAt full g.headingIndex).type = BlockType.heading ∧
            ∀ c ∈ g.childIndices, (blockAt full c).type ≠ BlockType.heading) := by
  intro bs
  induction bs with
  | nil =>
    intro i cur hdrop hinv
    cases cur with
    | none => simp [groupGo]
    | some g =>
      obtain ⟨h1, h2, h3⟩ := hinv g rfl
      refine ⟨by simp [groupGo, groupIdxs], by simp [groupGo], by simp [groupGo], ?_⟩
      intro g' hg'
      simp only [groupGo, List.mem_singleton] at hg'
      subst hg'
      exact ⟨h2, fun c hc => (h3 c hc).2⟩
  | cons b rest ih =>
    intro i cur hdrop hinv
    have hbi : blockAt full i = b := getD_of_drop_blocks full i b rest hdrop
    have hdrop' : full.drop (i + 1) = rest := by
      rw [drop_succ_blocks, hdrop]
      rfl
    by_cases hbt : b.type = BlockType.heading
    · have hnewinv : ∀ g', some (⟨b, [], i, []⟩ : HeadingGroup) = some g' →
          GroupInv full (i + 1) g' := by
        intro g' hg'
        injection hg' with hg'
        subst hg'
        refine ⟨?_, ?_, ?_⟩
        · show i < i + 1
          omega
        · show (blockAt full i).type = BlockType.heading
          rw [hbi]; exact hbt
        · show ∀ c ∈ ([] : List Nat), c < i + 1 ∧ (blockAt full c).type ≠ BlockType.heading
          intro c hc
          simp at hc
      obtain ⟨ihA, ihB, ihC, ihD⟩ := ih (i + 1) (some ⟨b, [], i, []⟩) hdrop' hnewinv
      have hOrph : (groupGo rest (i + 1) (some ⟨b, [], i, []⟩)).1 = [] := ihB _ rfl
      cases cur with
      | none =>
        simp only [groupGo, if_pos hbt]
        refine ⟨?_, by simp [hOrph], ?_, ?_⟩
        · simpa [hOrph, groupIdxs, List.range'] using (by simpa [hOrph] using ihA)
        · intro o ho
          rw [hOrph] at ho
          simp at ho
        · exact ihD
      | some g =>
        obtain ⟨hg1, hg2, hg3⟩ := hinv g rfl
        simp only [groupGo, if_pos hbt]
        refine ⟨?_, by simp [hOrph], ?_, ?_⟩
        · have := ihA
          rw [hOrph] at this ⊢
          simp only [List.nil_append] at this ⊢
          simp only [List.map_cons, List.flatten_cons]
          rw [this]
          simp [groupIdxs, List.range']
        · intro o ho
          rw [hOrph] at ho
          simp at ho
        · intro g' hg'
          rcases List.mem_cons.mp hg' with h1 | h1
          · subst h1
            exact ⟨hg2, fun c hc => (hg3 c hc).2⟩
          · exact ihD g' h1
    · cases cur with
      | some g =>
        obtain ⟨hg1, hg2, hg3⟩ := hinv g rfl
        have hnewinv : ∀ g',
            some (⟨g.heading, g.children ++ [b], g.headingIndex, g.childIndices ++ [i]⟩ :
                HeadingGroup) = some g' →
            GroupInv full (i + 1) g' := by
          intro g' hg'
          injection hg' with hg'
          subst hg'
          refine ⟨?_, ?_, ?_⟩
          · show g.headingIndex < i + 1
            omega
          · show (blockAt full g.headingIndex).type = BlockType.heading
            exact hg2
          · show ∀ c ∈ g.childIndices ++ [i], c < i + 1 ∧ (blockAt full c).type ≠ BlockType.heading
            intro c hc
            rcases List.mem_append.mp hc with h1 | h1
            · obtain ⟨ha, hb2⟩ := hg3 c h1
              exact ⟨by omega, hb2⟩
            · have hci : c = i := by simpa using h1
              subst hci
              exact ⟨by omega, by rw [hbi]; exact hbt⟩
        obtain ⟨ihA, ihB, ihC, ihD⟩ := ih (i + 1) _ hdrop' hnewinv
        have hOrph := ihB _ rfl
        simp only [groupGo, if_neg hbt]
        refine ⟨?_, by simp [hOrph], ?_, ?_⟩
        · rw [hOrph] at ihA
          simp only [List.nil_append] at ihA
          rw [hOrph]
          simp only [List.nil_append]
          rw [ihA]
          simp [groupIdxs, List.range']
        · intro o ho
          rw [hOrph] at ho
          simp at ho
        · exact ihD
      | none =>
        have hnoinv : ∀ g, (none : Option HeadingGroup) = some g → GroupInv full (i + 1) g := by
          intro g hg
          exact Option.noConfusion hg
        obtain ⟨ihA, ihB, ihC, ihD⟩ := ih (i + 1) none hdrop' hnoinv
        simp only [groupGo, if_neg hbt]
        refine ⟨?_, ?_, ?_, ?_⟩
        · simp only [List.nil_append] at ihA
          simp only [List.cons_append]
          rw [ihA]
          simp [List.range']
        · intro g hg
          exact Option.noConfusion hg
        · intro o ho
          rcases List.mem_cons.mp ho with h1 | h1
          · subst h1
            rw [hbi]
            exact hbt
          · exact ihC o h1
        · exact ihD

/-- C10: the orphan list and the groups returned by `groupBlocks` partition
the block indices `0..n-1` in order (so each group's heading index followed by
its child indices is a contiguous increasing run), orphans and children are
non-heading blocks, and every group's heading index refers to a heading
block. -/
theorem groupBlocks_partition (blocks : List ContentBlock) :
    (groupBlocks blocks).1 ++ (((groupBlocks blocks).2.map groupIdxs).flatten) =
        List.range blocks.length ∧
      (∀ o ∈ (groupBlocks blocks).1, (blockAt blocks o).type ≠ BlockType.heading) ∧
      (∀ g ∈ (groupBlocks blocks).2,
        (blockAt blocks g.headingIndex).type = BlockType.heading ∧
          ∀ c ∈ g.childIndices, (blockAt blocks c).type ≠ BlockType.heading) := by
  have h := groupGo_spec blocks blocks 0 none (by simp) (fun g hg => Option.noConfusion hg)
  obtain ⟨hA, _, hC, hD⟩ := h
  refine ⟨?_, hC, hD⟩
  rw [List.range_eq_range']
  simpa using hA

/-- C10 witness: the partition property evaluated on a concrete block list. -/
theorem groupBlocks_partition_witness :
    (fun blocks =>
      (groupBlocks blocks).1 ++ (((groupBlocks blocks).2.map groupIdxs).flatten) =
          List.range blocks.length ∧
        (∀ o ∈ (groupBlocks blocks).1, (blockAt blocks o).type ≠ BlockType.heading) ∧
        (∀ g ∈ (groupBlocks blocks).2,
          (blockAt blocks g.headingIndex).type = BlockType.heading ∧
            ∀ c ∈ g.childIndices, (blockAt blocks c).type ≠ BlockType.heading))
      (parseBlocks "Sources".data "orphan\n\n## A\np1\n\n> q\n\n## B\np2".data) :=
  groupBlocks_partition (parseBlocks "Sources".data "orphan\n\n## A\np1\n\n> q\n\n## B\np2".data)

theorem runEnd_ge (p : Str → Bool) (lines : List Str) (effEnd : Nat) :
    ∀ fuel i, i ≤ runEnd p lines effEnd fuel i := by
  intro fuel
  induction fuel with
  | zero => intro i; simp [runEnd]
  | succ f ih =>
    intro i
    simp only [runEnd]
    split
    · exact le_trans (by omega) (ih (i + 1))
    · exact le_rfl

theorem runEnd_le (p : Str → Bool) (lines : List Str) (effEnd : Nat) :
    ∀ fuel i, i ≤ effEnd → runEnd p lines effEnd fuel i ≤ effEnd := by
  intro fuel
  induction fuel with
  | zero => intro i h; simpa [runEnd] using h
  | succ f ih =>
    intro i h
    simp only [runEnd]
    split
    · next hc =>
      have : i < effEnd := by
        rcases Bool.and_eq_true_iff.mp hc with ⟨h1, _⟩
        exact of_decide_eq_true h1
      exact ih (i + 1) (by omega)
    · exact h

theorem runEnd_gt (p : Str → Bool) (lines : List Str) (effEnd : Nat)
    (fuel i : Nat) (hi : i < effEnd) (hp : p (lines.getD i []) = true) :
    i + 1 ≤ runEnd p lines effEnd (fuel + 1) i := by
  simp only [runEnd]
  have hc : (decide (i < effEnd) && p (lines.getD i [])) = true := by
    rw [hp]
    simp [hi]
  rw [if_pos hc]
  exact runEnd_ge p lines effEnd fuel (i + 1)

theorem runEnd_in_run (p : Str → Bool) (lines : List Str) (effEnd : Nat) :
    ∀ fuel i k, i ≤ k → k < runEnd p lines effEnd fuel i →
      p (lines.getD k []) = true := by
  intro fuel
  induction fuel with
  | zero => intro i k h1 h2; simp [runEnd] at h2; omega
  | succ f ih =>
    intro i k h1 h2
    simp only [runEnd] at h2
    by_cases hc : (decide (i < effEnd) && p (lines.getD i [])) = true
    · rw [if_pos hc] at h2
      rcases Bool.and_eq_true_iff.mp hc with ⟨_, hp⟩
      rcases Nat.eq_or_lt_of_le h1 with he | hlt
      · subst he; exact hp
      · exact ih (i + 1) k hlt h2
    · rw [if_neg hc] at h2
      omega

theorem sliceLines_nil (lines : List Str) (i e : Nat) (h : e ≤ i) :
    sliceLines lines i e = [] := by
  simp [sliceLines, Nat.sub_eq_zero_of_le h]

theorem drop_eq_cons_getD (lines : List Str) (i : Nat) (h : i < lines.length) :
    lines.drop i = lines.getD i [] :: lines.drop (i + 1) := by
  cases hd : lines.drop i with
  | nil =>
    have := List.drop_eq_nil_iff.mp hd
    omega
  | cons a t =>
    have h1 : lines.getD i [] = a := getD_of_drop lines i a t hd
    have h2 : lines.drop (i + 1) = t := by
      rw [drop_succ_eq_tail_drop, hd]
      rfl
    rw [h1, h2]

theorem sliceLines_cons (lines : List Str) (i e : Nat) (hie : i < e)
    (hl : i < lines.length) :
    sliceLines lines i e = lines.getD i [] :: sliceLines lines (i + 1) e := by
  simp only [sliceLines]
  rw [drop_eq_cons_getD lines i hl]
  have : e - i = (e - (i + 1)) + 1 := by omega
  rw [this]
  simp

theorem sliceLines_split (lines : List Str) (i j e : Nat) (h1 : i ≤ j) (h2 : j ≤ e) :
    sliceLines lines i e = sliceLines lines i j ++ sliceLines lines j e := by
  simp only [sliceLines]
  have he : e - i = (j - i) + (e - j) := by omega
  rw [he, List.take_add, List.drop_drop]
  have h3 : i + (j - i) = j := by omega
  rw [h3]

theorem keep_of_head (c : Char) (rest : Str) (hws : isWs c = false) (hd : ¬c = '-') :
    keepLine (c :: rest) = true := by
  simp [keepLine, isBlankLine, isHR, hws, hd]

theorem heading_keep (l : Str) (h : isHeadingLine l = true) : keepLine l = true := by
  simp only [isHeadingLine, headingText?] at h
  split at h
  · next rest =>
    exact keep_of_head '#' _ (by decide) (by decide)
  · simp at h

theorem quote_keep (l : Str) (h : isQuoteLine l = true) : keepLine l = true := by
  simp only [isQuoteLine] at h
  split at h
  · next rest =>
    exact keep_of_head '>' _ (by decide) (by decide)
  · exact keep_of_head '>' _ (by decide) (by decide)
  · simp at h

theorem prose_keep (l : Str) (h : isProseLine l = true) : keepLine l = true := by
  simp only [isProseLine, Bool.and_eq_true, Bool.not_eq_true'] at h
  simp [keepLine, h.1.1.1, h.2]

theorem slice_all (lines : List Str) (P : Str → Bool) :
    ∀ (n i j : Nat), j - i ≤ n → j ≤ lines.length →
      (∀ k, i ≤ k → k < j → P (lines.getD k []) = true) →
      ∀ l ∈ sliceLines lines i j, P l = true := by
  intro n
  induction n with
  | zero =>
    intro i j h1 h2 h3 l hl
    rw [sliceLines_nil lines i j (by omega)] at hl
    simp at hl
  | succ n ih =>
    intro i j h1 h2 h3 l hl
    by_cases hij : i < j
    · rw [sliceLines_cons lines i j hij (by omega)] at hl
      rcases List.mem_cons.mp hl with h | h
      · subst h; exact h3 i le_rfl hij
      · exact ih (i + 1) j (by omega) h2 (fun k hk1 hk2 => h3 k (by omega) hk2) l h
    · rw [sliceLines_nil lines i j (by omega)] at hl
      simp at hl

theorem ScanSpec.ofNil (lines : List Str) (effEnd i : Nat) (h : effEnd ≤ i) :
    ScanSpec lines effEnd i [] := by
  refine ⟨by simp, by simp, ?_, by simp, ?_⟩
  · rw [sliceLines_nil lines i effEnd h]
    simp
  · intro k hk1 hk2 _
    omega

theorem ScanSpec.skip (lines : List Str) (effEnd i : Nat) (bs : List ContentBlock)
    (hE : effEnd ≤ lines.length) (hi : i < effEnd)
    (hkeep : keepLine (lines.getD i []) = false)
    (h : ScanSpec lines effEnd (i + 1) bs) : ScanSpec lines effEnd i bs := by
  obtain ⟨h1, h2, h3, h4, h5⟩ := h
  refine ⟨?_, h2, ?_, h4, ?_⟩
  · intro b hb
    obtain ⟨ha, hb2, hc⟩ := h1 b hb
    exact ⟨by omega, hb2, hc⟩
  · rw [sliceLines_cons lines i effEnd hi (by omega), List.filter_cons, hkeep]
    simpa using h3
  · intro k hk1 hk2 hnc
    rcases Nat.eq_or_lt_of_le hk1 with he | hlt
    · rw [← he]; exact hkeep
    · exact h5 k hlt hk2 hnc

theorem ScanSpec.block (lines : List Str) (effEnd i j : Nat) (b : ContentBlock)
    (bs : List ContentBlock) (hE : effEnd ≤ lines.length)
    (hb1 : b.startLine = i) (hb2 : b.endLine = j)
    (hij : i < j) (hje : j ≤ effEnd)
    (hkeep : ∀ k, i ≤ k → k < j → keepLine (lines.getD k []) = true)
    (h : ScanSpec lines effEnd j bs) : ScanSpec lines effEnd i (b :: bs) := by
  obtain ⟨h1, h2, h3, h4, h5⟩ := h
  refine ⟨?_, ?_, ?_, ?_, ?_⟩
  · intro b' hb'
    rcases List.mem_cons.mp hb' with he | he
    · subst he
      exact ⟨by omega, by omega, by omega⟩
    · obtain ⟨ha, hbb, hc⟩ := h1 b' he
      exact ⟨by omega, hbb, hc⟩
  · rw [List.chain'_cons']
    refine ⟨?_, h2⟩
    intro b' hb'
    have := h1 b' (List.mem_of_mem_head? hb')
    omega
  · simp only [List.map_cons, List.flatten_cons, hb1, hb2]
    rw [sliceLines_split lines i j effEnd (by omega) hje, List.filter_append]
    have hself : (sliceLines lines i j).filter keepLine = sliceLines lines i j := by
      rw [List.filter_eq_self]
      exact fun l hl => slice_all lines keepLine (j - i) i j le_rfl (by omega) hkeep l hl
    rw [hself, h3]
  · intro b' hb' k hk1 hk2
    rcases List.mem_cons.mp hb' with he | he
    · subst he
      rw [hb1] at hk1
      rw [hb2] at hk2
      exact hkeep k hk1 hk2
    · exact h4 b' he k hk1 hk2
  · intro k hk1 hk2 hnc
    by_cases hkj : k < j
    · exact absurd ⟨by omega, by omega⟩ (hnc b (by simp))
    · exact h5 k (by omega) hk2 (fun b' hb' => hnc b' (by simp [hb']))

theorem scanBlocks_spec (lines : List Str) (effEnd : Nat) (hE : effEnd ≤ lines.length) :
    ∀ fuel i, effEnd - i ≤ fuel →
      ScanSpec lines effEnd i (scanBlocks lines effEnd fuel i) := by
  intro fuel
  induction fuel with
  | zero =>
    intro i hfuel
    simp only [scanBlocks]
    exact ScanSpec.ofNil lines effEnd i (by omega)
  | succ fuel ih =>
    intro i hfuel
    by_cases hi : i < effEnd
    · by_cases hblank : isBlankLine (lines.getD i []) = true
      · have heq : scanBlocks lines effEnd (fuel + 1) i = scanBlocks lines effEnd fuel (i + 1) := by
          simp only [scanBlocks]
          rw [if_pos (by simpa using hi), if_pos hblank]
        rw [heq]
        exact ScanSpec.skip lines effEnd i _ hE hi
          (by simp only [keepLine, hblank, Bool.not_true, Bool.false_and])
          (ih (i + 1) (by omega))
      · by_cases hhr : isHR (lines.getD i []) = true
        · have heq : scanBlocks lines effEnd (fuel + 1) i =
              scanBlocks lines effEnd fuel (i + 1) := by
            simp only [scanBlocks]
            rw [if_pos (by simpa using hi), if_neg hblank, if_pos hhr]
          rw [heq]
          exact ScanSpec.skip lines effEnd i _ hE hi
            (by simp only [keepLine, hhr, Bool.not_true, Bool.and_false])
            (ih (i + 1) (by omega))
        · cases hht : headingText? (lines.getD i []) with
          | some ht =>
            have heq : scanBlocks lines effEnd (fuel + 1) i =
                ⟨BlockType.heading, i, i + 1, ht, none, some ht⟩ ::
                  scanBlocks lines effEnd fuel (i + 1) := by
              simp only [scanBlocks]
              rw [if_pos (by simpa using hi), if_neg hblank, if_neg hhr, hht]
            rw [heq]
            refine ScanSpec.block lines effEnd i (i + 1) _ _ hE rfl rfl (by omega)
              (by omega) ?_ (ih (i + 1) (by omega))
            intro k hk1 hk2
            have hk : k = i := by omega
            subst hk
            exact heading_keep _ (by simp only [isHeadingLine, hht, Option.isSome_some])
          | none =>
            by_cases hq : isQuoteLine (lines.getD i []) = true
            · have hfz : effEnd - i = (effEnd - i - 1) + 1 := by omega
              have hij : i < runEnd isQuoteLine lines effEnd (effEnd - i) i := by
                rw [hfz]
                exact runEnd_gt isQuoteLine lines effEnd _ i hi hq
              have hje : runEnd isQuoteLine lines effEnd (effEnd - i) i ≤ effEnd :=
                runEnd_le isQuoteLine lines effEnd _ i (by omega)
              have heq : scanBlocks lines effEnd (fuel + 1) i =
                  ⟨BlockType.blockquote, i, runEnd isQuoteLine lines effEnd (effEnd - i) i,
                    truncate (stripSmartQuote (stripQuoteMarker (lines.getD i []))) 50,
                    findAttr (lines.getD (runEnd isQuoteLine lines effEnd (effEnd - i) i - 1) []),
                    none⟩ ::
                    scanBlocks lines effEnd fuel (runEnd isQuoteLine lines effEnd (effEnd - i) i) := by
                simp only [scanBlocks]
                rw [if_pos (by simpa using hi), if_neg hblank, if_neg hhr, hht, if_pos hq]
              rw [heq]
              refine ScanSpec.block lines effEnd i
                (runEnd isQuoteLine lines effEnd (effEnd - i) i) _ _ hE rfl rfl hij hje ?_
                (ih (runEnd isQuoteLine lines effEnd (effEnd - i) i) (by omega))
              intro k hk1 hk2
              exact quote_keep _ (runEnd_in_run isQuoteLine lines effEnd _ i k hk1 hk2)
            · have hp : isProseLine (lines.getD i []) = true := by
                have hb1 := Bool.of_not_eq_true hblank
                have hb2 := Bool.of_not_eq_true hhr
                have hb3 := Bool.of_not_eq_true hq
                simp only [isProseLine, isHeadingLine, hht, hb1, hb2, hb3]
                simp
              have hfz : effEnd - i = (effEnd - i - 1) + 1 := by omega
              have hij : i < runEnd isProseLine lines effEnd (effEnd - i) i := by
                rw [hfz]
                exact runEnd_gt isProseLine lines effEnd _ i hi hp
              have hje : runEnd isProseLine lines effEnd (effEnd - i) i ≤ effEnd :=
                runEnd_le isProseLine lines effEnd _ i (by omega)
              have heq : scanBlocks lines effEnd (fuel + 1) i =
                  ⟨BlockType.prose, i, runEnd isProseLine lines effEnd (effEnd - i) i,
                    truncate (lines.getD i []) 50, none, none⟩ ::
                    scanBlocks lines effEnd fuel (runEnd isProseLine lines effEnd (effEnd - i) i) := by
                simp only [scanBlocks]
                rw [if_pos (by simpa using hi), if_neg hblank, if_neg hhr, hht, if_neg hq]
              rw [heq]
              refine ScanSpec.block lines effEnd i
                (runEnd isProseLine lines effEnd (effEnd - i) i) _ _ hE rfl rfl hij hje ?_
                (ih (runEnd isProseLine lines effEnd (effEnd - i) i) (by omega))
              intro k hk1 hk2
              exact prose_keep _ (runEnd_in_run isProseLine lines effEnd _ i k hk1 hk2)
    · have heq : scanBlocks lines effEnd (fuel + 1) i = [] := by
        simp only [scanBlocks]
        rw [if_neg (by simpa using hi)]
      rw [heq]
      exact ScanSpec.ofNil lines effEnd i (by omega)

theorem effectiveEnd_le_pinned (pin : Str) (lines : List Str) :
    effectiveEnd pin lines ≤ findPinnedStart pin lines := by
  have h1 : ∀ (e : Nat) (b : Bool), (if b then e - 1 else e) ≤ e := by
    intro e b
    cases b <;> simp <;> omega
  simp only [effectiveEnd]
  exact le_trans (h1 _ _) (le_trans (h1 _ _) (h1 _ _))

theorem findPinnedStart_le (pin : Str) (lines : List Str) :
    findPinnedStart pin lines ≤ lines.length :=
  firstIdxP_le (isPinnedHead pin) lines

/-- The master fact about `parseBlocks`. -/
theorem parseBlocks_spec (pin : Str) (content : Str) :
    ScanSpec (splitLines content) (effectiveEnd pin (splitLines content)) 0
      (parseBlocks pin content) := by
  have hE : effectiveEnd pin (splitLines content) ≤ (splitLines content).length :=
    le_trans (effectiveEnd_le_pinned pin (splitLines content))
      (findPinnedStart_le pin (splitLines content))
  exact scanBlocks_spec (splitLines content) (effectiveEnd pin (splitLines content)) hE
    (effectiveEnd pin (splitLines content)) 0 (by omega)

/-! ### Claim C2 -/

theorem keep_false_iff (l : Str) :
    keepLine l = false ↔ (isBlankLine l = true ∨ isHR l = true) := by
  cases hA : isBlankLine l <;> cases hB : isHR l <;> simp [keepLine, hA, hB]

/-- C2: `parseBlocks` returns ordered, pairwise non-overlapping ranges lying
before the pinned-section boundary; every region line outside all blocks is
blank or a horizontal rule; and the concatenation of the blocks' line slices
is exactly the region's non-separator lines in order (so reinserting the
skipped separator lines reproduces the scanned region). -/
theorem parseBlocks_round_trip (pin content : Str) :
    effectiveEnd pin (splitLines content) ≤ findPinnedStart pin (splitLines content) ∧
    (∀ b ∈ parseBlocks pin content,
      b.startLine < b.endLine ∧ b.endLine ≤ effectiveEnd pin (splitLines content)) ∧
    List.Chain' (fun b b' => b.endLine ≤ b'.startLine) (parseBlocks pin content) ∧
    (∀ k, k < effectiveEnd pin (splitLines content) →
      (∀ b ∈ parseBlocks pin content, ¬(b.startLine ≤ k ∧ k < b.endLine)) →
      isBlankLine ((splitLines content).getD k []) = true ∨
        isHR ((splitLines content).getD k []) = true) ∧
    ((parseBlocks pin content).map
        (fun b => sliceLines (splitLines content) b.startLine b.endLine)).flatten =
      (sliceLines (splitLines content) 0 (effectiveEnd pin (splitLines content))).filter
        keepLine := by
  obtain ⟨h1, h2, h3, h4, h5⟩ := parseBlocks_spec pin content
  refine ⟨effectiveEnd_le_pinned pin (splitLines content), ?_, h2, ?_, h3⟩
  · intro b hb
    exact ⟨(h1 b hb).2.1, (h1 b hb).2.2⟩
  · intro k hk hnc
    exact (keep_false_iff _).mp (h5 k (Nat.zero_le k) hk hnc)

/-- C2 witness: the round-trip conjunction evaluated on a concrete document. -/
theorem parseBlocks_round_trip_witness :
    (fun pin content =>
      effectiveEnd pin (splitLines content) ≤ findPinnedStart pin (splitLines content) ∧
      (∀ b ∈ parseBlocks pin content,
        b.startLine < b.endLine ∧ b.endLine ≤ effectiveEnd pin (splitLines content)) ∧
      List.Chain' (fun b b' => b.endLine ≤ b'.startLine) (parseBlocks pin content) ∧
      (∀ k, k < effectiveEnd pin (splitLines content) →
        (∀ b ∈ parseBlocks pin content, ¬(b.startLine ≤ k ∧ k < b.endLine)) →
        isBlankLine ((splitLines content).getD k []) = true ∨
          isHR ((splitLines content).getD k []) = true) ∧
      ((parseBlocks pin content).map
          (fun b => sliceLines (splitLines content) b.startLine b.endLine)).flatten =
        (sliceLines (splitLines content) 0 (effectiveEnd pin (splitLines content))).filter
          keepLine)
      "Sources".data "## A\n> q1\n> q2\nprose\n\n---\n\n## Sources\n- [[x]]".data :=
  parseBlocks_round_trip "Sources".data "## A\n> q1\n> q2\nprose\n\n---\n\n## Sources\n- [[x]]".data

/-! ### Claim C4: index validation -/

theorem getI?_neg {α : Type} (l : List α) (i : Int) (h : i < 0) : getI? l i = none := by
  simp only [getI?]
  rw [dif_neg]
  intro hc
  omega

theorem moveSection_self (pin content : Str) (i : Int) :
    moveSection pin content i i = OpResult.noop := by
  simp [moveSection]

theorem moveSection_oob (pin content : Str) (f t : Int)
    (h : (dragSecCount pin content : Int) ≤ f ∨ (dragSecCount pin content : Int) ≤ t) :
    moveSection pin content f t = OpResult.noop := by
  by_cases hft : f = t
  · subst hft
    simp [moveSection]
  · have hc : (decide ((((parseSections pin content).filter (fun s => !s.pinned)).length : Int) ≤ f) ||
        decide ((((parseSections pin content).filter (fun s => !s.pinned)).length : Int) ≤ t)) = true := by
      rcases h with h | h <;> simp [dragSecCount] at h <;> simp [h]
    simp only [moveSection, if_neg hft]
    rw [if_pos hc]

theorem moveSection_neg (pin content : Str) (f t : Int) (h : f < 0 ∨ t < 0) :
    outText (moveSection pin content f t) content = content := by
  by_cases hft : f = t
  · subst hft
    simp [moveSection, outText]
  · by_cases hg : (decide ((((parseSections pin content).filter (fun s => !s.pinned)).length : Int) ≤ f) ||
        decide ((((parseSections pin content).filter (fun s => !s.pinned)).length : Int) ≤ t)) = true
    · simp only [moveSection, if_neg hft]
      rw [if_pos hg]
      rfl
    · simp only [moveSection, if_neg hft]
      rw [if_neg hg]
      rcases h with hf | ht
      · simp [getI?_neg _ f hf, outText]
      · cases hgf : getI? ((parseSections pin content).filter (fun s => !s.pinned)) f with
        | none => simp [hgf, outText]
        | some sec =>
          simp only [hgf]
          rw [if_neg (by simp only [decide_eq_true_eq]; omega)]
          simp [getI?_neg _ t ht, outText]

theorem moveBlock_self (pin content : Str) (i : Int) :
    moveBlock pin content i i = OpResult.noop := by
  simp [moveBlock]

theorem moveBlock_oob (pin content : Str) (f t : Int)
    (h : ((parseBlocks pin content).length : Int) ≤ f ∨
      ((parseBlocks pin content).length : Int) ≤ t) :
    moveBlock pin content f t = OpResult.noop := by
  by_cases hft : f = t
  · subst hft
    simp [moveBlock]
  · have hc : (decide (((parseBlocks pin content).length : Int) ≤ f) ||
        decide (((parseBlocks pin content).length : Int) ≤ t)) = true := by
      rcases h with h | h <;> simp [h]
    simp only [moveBlock, if_neg hft]
    rw [if_pos hc]

theorem moveBlock_neg (pin content : Str) (f t : Int) (h : f < 0 ∨ t < 0) :
    outText (moveBlock pin content f t) content = content := by
  by_cases hft : f = t
  · subst hft
    simp [moveBlock, outText]
  · by_cases hg : (decide (((parseBlocks pin content).length : Int) ≤ f) ||
        decide (((parseBlocks pin content).length : Int) ≤ t)) = true
    · simp only [moveBlock, if_neg hft]
      rw [if_pos hg]
      rfl
    · simp only [moveBlock, if_neg hft]
      rw [if_neg hg]
      rcases h with hf | ht
      · simp [getI?_neg _ f hf, outText]
      · cases hgf : getI? (parseBlocks pin content) f with
        | none => simp [hgf, outText]
        | some block =>
          simp only [hgf]
          rw [if_neg (by simp only [decide_eq_true_eq]; omega)]
          simp [getI?_neg _ t ht, outText]

theorem removeSection_oob (pin content : Str) (i : Int)
    (h : (dragSecCount pin content : Int) ≤ i) :
    removeSection pin content i = OpResult.noop := by
  simp only [removeSection]
  rw [if_pos (by simp only [dragSecCount] at h; simpa using h)]

theorem removeSection_neg (pin content : Str) (i : Int) (h : i < 0) :
    removeSection pin content i = OpResult.crash := by
  simp only [removeSection]
  rw [if_neg (by simp only [decide_eq_true_eq]; omega)]
  simp [getI?_neg _ i h]

theorem removeBlock_oob (pin content : Str) (i : Int)
    (h : ((parseBlocks pin content).length : Int) ≤ i) :
    removeBlock pin content i = OpResult.noop := by
  simp only [removeBlock]
  rw [if_pos (by simpa using h)]

theorem removeBlock_neg (pin content : Str) (i : Int) (h : i < 0) :
    removeBlock pin content i = OpResult.crash := by
  simp only [removeBlock]
  rw [if_neg (by simp only [decide_eq_true_eq]; omega)]
  simp [getI?_neg _ i h]

theorem moveBlockGroup_empty (pin content : Str) (t : Int) :
    moveBlockGroup pin content [] t = OpResult.noop := by
  simp [moveBlockGroup]

theorem moveBlockGroup_self (pin content : Str) (fis : List Int) (t : Int) (ht : t ∈ fis) :
    moveBlockGroup pin content fis t = OpResult.noop := by
  have hne : fis ≠ [] := by
    intro hc
    subst hc
    simp at ht
  simp only [moveBlockGroup, if_neg hne]
  rw [if_pos (List.elem_eq_true_of_mem ht)]

/-- C4, amended: self-moves, out-of-range indices for `moveSection`,
`moveBlock`, `removeSection` and `removeBlock`, and group moves whose source
contains the target are silent no-ops; negative indices abort with a thrown
error before any mutation, leaving the text unchanged.  (`moveBlockGroup`
with an out-of-range `toIndex` is *not* a no-op: it moves the group to the
end; see the counterexample.) -/
theorem index_validation (pin content : Str) :
    (∀ i : Int, moveSection pin content i i = OpResult.noop) ∧
    (∀ f t : Int,
      (dragSecCount pin content : Int) ≤ f ∨ (dragSecCount pin content : Int) ≤ t →
      moveSection pin content f t = OpResult.noop) ∧
    (∀ i : Int, moveBlock pin content i i = OpResult.noop) ∧
    (∀ f t : Int,
      ((parseBlocks pin content).length : Int) ≤ f ∨
        ((parseBlocks pin content).length : Int) ≤ t →
      moveBlock pin content f t = OpResult.noop) ∧
    (∀ i : Int, (dragSecCount pin content : Int) ≤ i →
      removeSection pin content i = OpResult.noop) ∧
    (∀ i : Int, ((parseBlocks pin content).length : Int) ≤ i →
      removeBlock pin content i = OpResult.noop) ∧
    (∀ t : Int, moveBlockGroup pin content [] t = OpResult.noop) ∧
    (∀ fis (t : Int), t ∈ fis → moveBlockGroup pin content fis t = OpResult.noop) ∧
    (∀ f t : Int, f < 0 ∨ t < 0 → outText (moveSection pin content f t) content = content) ∧
    (∀ f t : Int, f < 0 ∨ t < 0 → outText (moveBlock pin content f t) content = content) ∧
    (∀ i : Int, i < 0 → removeSection pin content i = OpResult.crash) ∧
    (∀ i : Int, i < 0 → removeBlock pin content i = OpResult.crash) :=
  ⟨moveSection_self pin content, moveSection_oob pin content,
    moveBlock_self pin content, moveBlock_oob pin content,
    removeSection_oob pin content, removeBlock_oob pin content,
    moveBlockGroup_empty pin content, moveBlockGroup_self pin content,
    moveSection_neg pin content, moveBlock_neg pin content,
    removeSection_neg pin content, removeBlock_neg pin content⟩

/-- C4 counterexample: `moveBlockGroup` with an out-of-range `toIndex`
(10, with only 4 blocks) is not a silent no-op — it commits a changed text
(the group is moved to the end). -/
theorem group_oob_target_mutates :
    outText (moveBlockGroup "Sources".data "## A\na\n\n## B\nb".data [0, 1] 10)
        "## A\na\n\n## B\nb".data ≠ "## A\na\n\n## B\nb".data := by decide

/-- C4 witness: the validation conjunction evaluated on a concrete document
and concrete indices. -/
theorem index_validation_witness :
    moveSection "Sources".data "## A\na\n## B\nb".data 1 1 = OpResult.noop ∧
    moveBlock "Sources".data "## A\na\n## B\nb".data 7 0 = OpResult.noop ∧
    removeSection "Sources".data "## A\na\n## B\nb".data (-1) = OpResult.crash ∧
    moveBlockGroup "Sources".data "## A\na\n## B\nb".data [0, 1] 1 = OpResult.noop := by
  obtain ⟨h1, h2, h3, h4, h5, h6, h7, h8, h9, h10, h11, h12⟩ :=
    index_validation "Sources".data "## A\na\n## B\nb".data
  exact ⟨h1 1, h4 7 0 (Or.inl (by decide)), h11 (-1) (by decide),
    h8 [0, 1] 1 (by decide)⟩

/-! ### Claim C7: empty extraction -/

theorem getI?_bounds {α : Type} (l : List α) (i : Int) (x : α) (h : getI? l i = some x) :
    0 ≤ i ∧ i.toNat < l.length := by
  simp only [getI?] at h
  by_cases hc : 0 ≤ i ∧ i.toNat < l.length
  · exact hc
  · rw [dif_neg hc] at h
    exact Option.noConfusion h

theorem getI?_mem {α : Type} (l : List α) (i : Int) (x : α) (h : getI? l i = some x) :
    x ∈ l := by
  simp only [getI?] at h
  by_cases hc : 0 ≤ i ∧ i.toNat < l.length
  · rw [dif_pos hc] at h
    injection h with h
    rw [← h]
    exact List.get_mem l _ _
  · rw [dif_neg hc] at h
    exact Option.noConfusion h

/-- C7: a valid section whose body, after trimming surrounding blank lines, is
empty makes `extractSection` return the `EmptyExtraction` condition.  In the
model this result carries no artifact and no replacement text: the
`vault.create` and `setFileContent` calls occur only in the `done` branch, so
no external artifact is created and the document is untouched. -/
theorem extract_empty_body (pin content : Str) (i : Int) (dE : Bool) (sec : Section)
    (hget : getI? ((parseSections pin content).filter (fun s => !s.pinned)) i = some sec)
    (hempty : dropTrailingBlanks (dropLeadingBlanks
      (sliceLines (splitLines content) (sec.startLine + 1) sec.endLine)) = []) :
    extractSection pin content i dE = ExtractResult.emptyExtraction := by
  obtain ⟨h0, hlen⟩ := getI?_bounds _ i sec hget
  simp only [extractSection]
  rw [if_neg (by simp only [decide_eq_true_eq]; omega)]
  simp only [hget]
  rw [if_pos hempty]

/-- C7 witness: the spec's own example `## Empty\n\n` (§8.8). -/
theorem extract_empty_body_witness :
    extractSection "Sources".data "## Empty\n\n".data 0 false =
      ExtractResult.emptyExtraction :=
  extract_empty_body "Sources".data "## Empty\n\n".data 0 false
    ⟨"Empty".data, 0, 3, false⟩ (by decide) (by decide)

/-! ### Claim C8: extraction frame -/

theorem headingText?_shape (l h : Str) (he : headingText? l = some h) :
    l = '#' :: '#' :: ' ' :: h := by
  simp only [headingText?] at he
  split at he
  · next rest =>
    by_cases hr : rest = []
    · rw [if_pos hr] at he
      exact Option.noConfusion he
    · rw [if_neg hr] at he
      injection he with he
      rw [he]
  · exact Option.noConfusion he

theorem getD_mem_of_ne (ls : List Str) (k : Nat) (h : ls.getD k [] ≠ []) :
    ls.getD k [] ∈ ls := by
  induction ls generalizing k with
  | nil => simp at h
  | cons a t ih =>
    cases k with
    | zero => simp
    | succ n =>
      simp only [List.getD_cons_succ] at h ⊢
      exact List.mem_cons_of_mem a (ih n h)

theorem mem_dropWhile {α : Type} (p : α → Bool) (l : List α) (c : α)
    (h : c ∈ l.dropWhile p) : c ∈ l := by
  induction l with
  | nil => simpa using h
  | cons a t ih =>
    simp only [List.dropWhile] at h
    split at h
    · exact List.mem_cons_of_mem a (ih h)
    · exact h

theorem mem_jsTrim (c : Char) (s : Str) (h : c ∈ jsTrim s) : c ∈ s := by
  simp only [jsTrim, jsTrimEnd, jsTrimStart] at h
  rw [List.mem_reverse] at h
  have h2 := mem_dropWhile isWs _ c h
  rw [List.mem_reverse] at h2
  exact mem_dropWhile isWs s c h2

theorem noNL_sanitize (s : Str) (h : '\n' ∉ s) : '\n' ∉ sanitizeFilename s := by
  intro hc
  apply h
  have h1 := mem_jsTrim '\n' _ hc
  exact List.mem_of_mem_filter h1

theorem noNL_section_heading (pin content : Str) (sec : Section)
    (hs : sec ∈ parseSections pin content) : '\n' ∉ sec.heading := by
  obtain ⟨hh, _, _, _⟩ := parseSections_ranges pin content sec hs
  intro hc
  have hshape := headingText?_shape _ _ hh
  have hne : (splitLines content).getD sec.startLine [] ≠ [] := by
    rw [hshape]
    simp
  have hmem := getD_mem_of_ne (splitLines content) sec.startLine hne
  apply noNL_splitLines content _ hmem
  rw [hshape]
  simp [hc]

/-- C8 counterexample: extracting from `## A\nbody \n` (the body line carries a
trailing space and no pinned section exists) succeeds, but the committed text
drops the original line `body ` — a line outside any pinned region — because
the whole document is `trimEnd`-ed before the new pinned section is appended.
So not every line outside the pinned region survives unchanged. -/
theorem extract_changes_outside_line :
    extractSection "Sources".data "## A\nbody \n".data 0 false =
      ExtractResult.done "body \n".data
        "## A\nbody\n\n---\n\n## Sources\n\n- [[A]]\n".data ∧
    "body ".data ∈ splitLines "## A\nbody \n".data ∧
    "body ".data ∉ splitLines "## A\nbody\n\n---\n\n## Sources\n\n- [[A]]\n".data := by
  decide

/-- C8, amended: on a successful extraction the essay is changed as follows.
With a pinned section present, either the back-reference already occurs in the
pinned region and the text is returned byte-identical, or exactly the one
back-reference line is inserted at the pinned section's end line, every other
line unchanged in place (the committed text splits back into exactly
`take endLine ++ [backref] ++ drop endLine`).  With no pinned section, the
text is first trimmed of trailing whitespace (which can alter or drop trailing
lines) and a horizontal rule plus a new pinned section holding the
back-reference are appended. -/
theorem extract_frame (pin content : Str) (i : Int) (sec : Section)
    (hget : getI? ((parseSections pin content).filter (fun s => !s.pinned)) i = some sec)
    (hbody : dropTrailingBlanks (dropLeadingBlanks
      (sliceLines (splitLines content) (sec.startLine + 1) sec.endLine)) ≠ []) :
    ((parseSections pin content).find? (fun s => s.pinned) = none →
      extractSection pin content i false = ExtractResult.done
        (joinLines (dropTrailingBlanks (dropLeadingBlanks
          (sliceLines (splitLines content) (sec.startLine + 1) sec.endLine))) ++ "\n".data)
        (jsTrimEnd content ++ "\n\n---\n\n## ".data ++ pin ++ "\n\n".data ++
          "- [[".data ++ sanitizeFilename sec.heading ++ "]]".data ++ "\n".data)) ∧
    (∀ ss, (parseSections pin content).find? (fun s => s.pinned) = some ss →
      (strIncludes ("[[".data ++ sanitizeFilename sec.heading ++ "]]".data)
          (joinLines (sliceLines (splitLines content) ss.startLine ss.endLine)) = true →
        extractSection pin content i false = ExtractResult.done
          (joinLines (dropTrailingBlanks (dropLeadingBlanks
            (sliceLines (splitLines content) (sec.startLine + 1) sec.endLine))) ++ "\n".data)
          content) ∧
      (strIncludes ("[[".data ++ sanitizeFilename sec.heading ++ "]]".data)
          (joinLines (sliceLines (splitLines content) ss.startLine ss.endLine)) = false →
        extractSection pin content i false = ExtractResult.done
          (joinLines (dropTrailingBlanks (dropLeadingBlanks
            (sliceLines (splitLines content) (sec.startLine + 1) sec.endLine))) ++ "\n".data)
          (joinLines ((splitLines content).take ss.endLine ++
            ["- [[".data ++ sanitizeFilename sec.heading ++ "]]".data] ++
            (splitLines content).drop ss.endLine)) ∧
        splitLines (joinLines ((splitLines content).take ss.endLine ++
            ["- [[".data ++ sanitizeFilename sec.heading ++ "]]".data] ++
            (splitLines content).drop ss.endLine)) =
          (splitLines content).take ss.endLine ++
            ["- [[".data ++ sanitizeFilename sec.heading ++ "]]".data] ++
            (splitLines content).drop ss.endLine)) := by
  obtain ⟨h0, hlen⟩ := getI?_bounds _ i sec hget
  have hsecmem : sec ∈ parseSections pin content :=
    List.mem_of_mem_filter (getI?_mem _ i sec hget)
  have hguard : ¬(decide ((((parseSections pin content).filter
      (fun s => !s.pinned)).length : Int) ≤ i) = true) := by
    simp only [decide_eq_true_eq]
    omega
  have hnlb : '\n' ∉ ("- [[".data ++ sanitizeFilename sec.heading ++ "]]".data) := by
    intro hc
    rcases List.mem_append.mp hc with hc1 | hc1
    · rcases List.mem_append.mp hc1 with hc2 | hc2
      · simp [String.data] at hc2
      · exact noNL_sanitize _ (noNL_section_heading pin content sec hsecmem) hc2
    · simp [String.data] at hc1
  refine ⟨?_, ?_⟩
  · intro hfind
    simp only [extractSection]
    rw [if_neg hguard]
    simp only [hget]
    rw [if_neg hbody, if_neg (by simp), hfind]
  · intro ss hfind
    constructor
    · intro hinc
      simp only [extractSection]
      rw [if_neg hguard]
      simp only [hget]
      rw [if_neg hbody, if_neg (by simp), hfind]
      simp only [hinc]
      simp
    · intro hinc
      constructor
      · simp only [extractSection]
        rw [if_neg hguard]
        simp only [hget]
        rw [if_neg hbody, if_neg (by simp), hfind]
        simp only [hinc]
        rw [if_neg (by simp)]
      · apply split_join
        · simp
        · intro l hl
          rcases List.mem_append.mp hl with h1 | h1
          · rcases List.mem_append.mp h1 with h2 | h2
            · exact noNL_splitLines content l ((List.take_sublist _ _).subset h2)
            · rw [List.mem_singleton] at h2
              rw [h2]
              exact hnlb
          · exact noNL_splitLines content l ((List.drop_sublist _ _).subset h1)

/-- C8 witness: the amended frame theorem evaluated on a concrete document
with a pinned section, exercising the back-reference insertion case. -/
theorem extract_frame_witness :
    extractSection "Sources".data "## A\nbody\n\n## Sources\n\n- [[x]]".data 0 false =
      ExtractResult.done "body\n".data
        "## A\nbody\n\n## Sources\n\n- [[x]]\n- [[A]]".data := by
  have h := extract_frame "Sources".data "## A\nbody\n\n## Sources\n\n- [[x]]".data 0
    ⟨"A".data, 0, 3, false⟩ (by decide) (by decide)
  have h2 := (h.2 ⟨"Sources".data, 3, 6, true⟩ (by decide)).2 (by decide)
  rw [h2.1]
  decide

/-! ### collapseNL preserves the non-empty lines -/

theorem splitLines_replicate_nl (k : Nat) :
    splitLines (List.replicate k '\n') = List.replicate k ([] : Str) ++ [[]] := by
  induction k with
  | zero => simp [splitLines]
  | succ n ih => simp [List.replicate_succ, splitLines, ih]

theorem splitLines_replicate_append (k : Nat) (t : Str) :
    splitLines (List.replicate k '\n' ++ t) = List.replicate k ([] : Str) ++ splitLines t := by
  induction k with
  | zero => simp
  | succ n ih => simp [List.replicate_succ, splitLines, ih]

theorem chunksGo_cons_nl (acc : Str) (rest : Str) :
    chunksGo acc ('\n' :: rest) =
      (if acc = [] then [] else [acc.reverse]) ++ chunksGo [] rest := by
  simp [chunksGo]

theorem chunksGo_cons_other (acc : Str) (c : Char) (rest : Str) (hc : ¬c = '\n') :
    chunksGo acc (c :: rest) = chunksGo (c :: acc) rest := by
  simp [chunksGo, hc]

theorem splitLines_cons_nl (rest : Str) : splitLines ('\n' :: rest) = [] :: splitLines rest := by
  simp [splitLines]

theorem splitLines_cons_other (c : Char) (rest : Str) (hc : ¬c = '\n') :
    splitLines (c :: rest) =
      (c :: (splitLines rest).headD []) :: (splitLines rest).tail := by
  simp [splitLines, hc]

theorem chunksGo_spec (s : Str) :
    ∀ acc, chunksGo acc s =
      (if acc.reverse ++ (splitLines s).headD [] = [] then []
       else [acc.reverse ++ (splitLines s).headD []]) ++
        ((splitLines s).tail.filter (fun l => !l.isEmpty)) := by
  induction s with
  | nil =>
    intro acc
    simp only [chunksGo, splitLines]
    by_cases ha : acc = [] <;> simp [ha]
  | cons c rest ih =>
    intro acc
    by_cases hc : c = '\n'
    · subst hc
      rw [chunksGo_cons_nl, splitLines_cons_nl, ih []]
      cases hs : splitLines rest with
      | nil => exact absurd hs (splitLines_ne_nil rest)
      | cons x t =>
        by_cases ha : acc = [] <;> by_cases hx : x = [] <;>
          simp [ha, hx, List.filter_cons]
    · rw [chunksGo_cons_other acc c rest hc, splitLines_cons_other c rest hc, ih (c :: acc)]
      simp

theorem chunksGo_nil_eq_neLines (s : Str) : chunksGo [] s = neLines s := by
  rw [chunksGo_spec s []]
  simp only [List.reverse_nil, List.nil_append, neLines]
  cases hs : splitLines s with
  | nil => exact absurd hs (splitLines_ne_nil s)
  | cons x t =>
    simp only [List.headD_cons, List.tail_cons, List.filter_cons]
    by_cases hx : x = []
    · simp [hx]
    · rw [if_neg (by simpa using hx), if_pos (by simpa using hx)]
      simp

theorem chunksGo_replicate (k : Nat) (acc : Str) :
    chunksGo acc (List.replicate k '\n') = if acc = [] then [] else [acc.reverse] := by
  induction k generalizing acc with
  | zero => simp [List.replicate, chunksGo]
  | succ n ih =>
    rw [List.replicate_succ, chunksGo_cons_nl, ih []]
    simp

theorem chunksGo_replicate_append (k : Nat) (acc : Str) (t : Str) (hk : 1 ≤ k) :
    chunksGo acc (List.replicate k '\n' ++ t) =
      (if acc = [] then [] else [acc.reverse]) ++ chunksGo [] t := by
  induction k generalizing acc with
  | zero => omega
  | succ n ih =>
    rw [List.replicate_succ, List.cons_append, chunksGo_cons_nl]
    by_cases hn : 1 ≤ n
    · rw [ih [] hn]
      simp
    · have hn0 : n = 0 := by omega
      subst hn0
      simp

theorem collapseGo_cons_nl (n : Nat) (rest : Str) :
    collapseGo n ('\n' :: rest) = collapseGo (n + 1) rest := by
  simp [collapseGo]

theorem collapseGo_cons_other (n : Nat) (c : Char) (rest : Str) (hc : ¬c = '\n') :
    collapseGo n (c :: rest) =
      List.replicate (if 3 ≤ n then 2 else n) '\n' ++ c :: collapseGo 0 rest := by
  simp [collapseGo, hc]

theorem chunksGo_collapseGo (s : Str) :
    (∀ acc, chunksGo acc (collapseGo 0 s) = chunksGo acc s) ∧
    (∀ acc n, 1 ≤ n → chunksGo acc (collapseGo n s) =
      (if acc = [] then [] else [acc.reverse]) ++ chunksGo [] s) := by
  induction s with
  | nil =>
    constructor
    · intro acc
      simp [collapseGo]
    · intro acc n hn
      simp only [collapseGo]
      rw [chunksGo_replicate]
      have h2 : chunksGo ([] : Str) ([] : Str) = [] := by simp [chunksGo]
      rw [h2]
      have h3 : (if 3 ≤ n then 2 else n) ≠ 0 := by split <;> omega
      simp
  | cons c rest ih =>
    constructor
    · intro acc
      by_cases hc : c = '\n'
      · subst hc
        rw [collapseGo_cons_nl, ih.2 acc 1 le_rfl, chunksGo_cons_nl]
      · rw [collapseGo_cons_other 0 c rest hc]
        simp only [Nat.le_zero, OfNat.ofNat_ne_zero, if_false, List.replicate_zero,
          List.nil_append]
        rw [chunksGo_cons_other acc c _ hc, chunksGo_cons_other acc c rest hc]
        exact ih.1 (c :: acc)
    · intro acc n hn
      by_cases hc : c = '\n'
      · subst hc
        rw [collapseGo_cons_nl, ih.2 acc (n + 1) (by omega), chunksGo_cons_nl]
        simp
      · rw [collapseGo_cons_other n c rest hc]
        have hk : 1 ≤ (if 3 ≤ n then 2 else n) := by split <;> omega
        rw [chunksGo_replicate_append _ acc _ hk]
        rw [chunksGo_cons_other [] c _ hc, chunksGo_cons_other [] c rest hc]
        rw [ih.1 [c]]

/-- `collapseNL` preserves the document's non-empty lines exactly. -/
theorem neLines_collapseNL (s : Str) : neLines (collapseNL s) = neLines s := by
  rw [← chunksGo_nil_eq_neLines, ← chunksGo_nil_eq_neLines, collapseNL]
  exact (chunksGo_collapseGo s).1 []

/-! ### jsTrimEnd at the line level -/

theorem jsTrimEnd_append_char (s : Str) (c : Char) :
    jsTrimEnd (s ++ [c]) = if isWs c then jsTrimEnd s else s ++ [c] := by
  simp only [jsTrimEnd, List.reverse_append, List.reverse_singleton, List.singleton_append,
    List.dropWhile_cons]
  by_cases hc : isWs c
  · simp [hc]
  · simp only [hc, Bool.false_eq_true, if_false]
    simp

theorem jsTrimEnd_cons (c : Char) (rest : Str) :
    jsTrimEnd (c :: rest) =
      if jsTrimEnd rest = [] then (if isWs c then [] else [c]) else c :: jsTrimEnd rest := by
  simp only [jsTrimEnd]
  have hrev : (c :: rest).reverse = rest.reverse ++ [c] := by simp
  rw [hrev, List.dropWhile_append]
  by_cases hnil : rest.reverse.dropWhile isWs = []
  · rw [if_pos (by simp [hnil])]
    rw [if_pos (by simp [hnil])]
    simp only [List.dropWhile_cons, List.dropWhile_nil]
    by_cases hc : isWs c
    · simp [hc]
    · simp [hc]
  · rw [if_neg (by simp [hnil])]
    rw [if_neg (by simp [hnil])]
    simp

theorem jsTrimEnd_idem (s : Str) : jsTrimEnd (jsTrimEnd s) = jsTrimEnd s := by
  simp [jsTrimEnd, List.dropWhile_idempotent]

theorem trim_comm (s : Str) : jsTrimStart (jsTrimEnd s) = jsTrimEnd (jsTrimStart s) := by
  induction s with
  | nil => simp [jsTrimStart, jsTrimEnd]
  | cons c rest ih =>
    by_cases hc : isWs c
    · have hstart : jsTrimStart (c :: rest) = jsTrimStart rest := by
        simp [jsTrimStart, List.dropWhile_cons, hc]
      rw [hstart, ← ih, jsTrimEnd_cons]
      by_cases hnil : jsTrimEnd rest = []
      · rw [if_pos hnil, if_pos hc, hnil]
      · rw [if_neg hnil]
        simp [jsTrimStart, List.dropWhile_cons, hc]
    · have hstart : jsTrimStart (c :: rest) = c :: rest := by
        simp [jsTrimStart, List.dropWhile_cons, hc]
      rw [hstart, jsTrimEnd_cons]
      by_cases hnil : jsTrimEnd rest = []
      · rw [if_pos hnil, if_neg hc]
        simp [jsTrimStart, List.dropWhile_cons, hc]
      · rw [if_neg hnil]
        simp [jsTrimStart, List.dropWhile_cons, hc]

theorem jsTrim_jsTrimEnd (s : Str) : jsTrim (jsTrimEnd s) = jsTrim s := by
  simp only [jsTrim]
  rw [trim_comm, jsTrimEnd_idem]

theorem jsTrimEnd_prefix (s : Str) : jsTrimEnd s <+: s := by
  have h1 : s.reverse.dropWhile isWs <:+ s.reverse := List.dropWhile_suffix isWs
  have h2 := List.reverse_prefix.mpr h1
  simpa [jsTrimEnd] using h2

theorem headingText?_ne_nil (l h : Str) (he : headingText? l = some h) : h ≠ [] := by
  simp only [headingText?] at he
  split at he
  · next rest =>
    by_cases hr : rest = []
    · rw [if_pos hr] at he
      exact Option.noConfusion he
    · rw [if_neg hr] at he
      injection he with he
      rw [← he]
      exact hr
  · exact Option.noConfusion he

/-- Trimming trailing whitespace never turns a non-heading line into a
heading. -/
theorem headingText?_trimEnd_none (l : Str) (h : headingText? l = none) :
    headingText? (jsTrimEnd l) = none := by
  cases hh : headingText? (jsTrimEnd l) with
  | none => rfl
  | some r =>
    exfalso
    have hshape := headingText?_shape _ _ hh
    have hr : r ≠ [] := headingText?_ne_nil _ _ hh
    obtain ⟨rest', hpre⟩ := jsTrimEnd_prefix l
    rw [hshape] at hpre
    rw [← hpre] at h
    simp only [List.cons_append, headingText?] at h
    rw [if_neg (by simp [hr])] at h
    exact Option.noConfusion h

/-- Trimming trailing whitespace on a heading line whose text is not all
whitespace keeps it a heading and preserves the trimmed text. -/
theorem headingText?_trimEnd_some (l h : Str) (hl : headingText? l = some h)
    (hne : jsTrim h ≠ []) :
    headingText? (jsTrimEnd l) = some (jsTrimEnd h) ∧ jsTrim (jsTrimEnd h) = jsTrim h := by
  have hshape := headingText?_shape _ _ hl
  have hnonws : ¬(∀ x ∈ h, isWs x = true) := by
    intro hall
    apply hne
    have hts : jsTrimStart h = [] := by
      simp only [jsTrimStart]
      rw [List.dropWhile_eq_nil_iff]
      exact hall
    simp [jsTrim, hts, jsTrimEnd]
  have hdw : h.reverse.dropWhile isWs ≠ [] := by
    intro hc
    apply hnonws
    intro x hx
    exact List.dropWhile_eq_nil_iff.mp hc x (List.mem_reverse.mpr hx)
  have hteh : jsTrimEnd h ≠ [] := by
    simp only [jsTrimEnd]
    simpa using hdw
  have hsplit : jsTrimEnd l = '#' :: '#' :: ' ' :: jsTrimEnd h := by
    rw [hshape]
    simp only [jsTrimEnd]
    have hrev : ('#' :: '#' :: ' ' :: h).reverse = h.reverse ++ [' ', '#', '#'] := by simp
    rw [hrev, List.dropWhile_append]
    rw [if_neg (by simpa using hdw)]
    simp
  refine ⟨?_, jsTrim_jsTrimEnd h⟩
  rw [hsplit]
  simp [headingText?, hteh]

theorem getLastD_irrel {α : Type} (l : List α) (h : l ≠ []) (d1 d2 : α) :
    l.getLastD d1 = l.getLastD d2 := by
  induction l generalizing d1 d2 with
  | nil => exact absurd rfl h
  | cons a t ih =>
    cases t with
    | nil => simp
    | cons b t2 => simp only [List.getLastD_cons]

theorem dropLast_getLastD (ls : List Str) (h : ls ≠ []) :
    ls.dropLast ++ [ls.getLastD []] = ls := by
  induction ls with
  | nil => exact absurd rfl h
  | cons a t ih =>
    cases t with
    | nil => simp
    | cons b t2 =>
      have hih := ih (by simp)
      rw [List.getLastD_cons] at hih
      simp only [List.dropLast_cons₂, List.getLastD_cons, List.cons_append]
      rw [hih]

theorem reverse_eq_getLastD_cons (ls : List Str) (h : ls ≠ []) :
    ls.reverse = ls.getLastD [] :: ls.dropLast.reverse := by
  conv_lhs => rw [← dropLast_getLastD ls h]
  simp

theorem splitLines_append_char (s : Str) (c : Char) (hc : ¬c = '\n') :
    splitLines (s ++ [c]) =
      (splitLines s).dropLast ++ [(splitLines s).getLastD [] ++ [c]] := by
  induction s with
  | nil => simp [splitLines, hc]
  | cons a rest ih =>
    by_cases ha : a = '\n'
    · subst ha
      rw [List.cons_append, splitLines_cons_nl, splitLines_cons_nl, ih]
      cases hs : splitLines rest with
      | nil => exact absurd hs (splitLines_ne_nil rest)
      | cons x t => simp
    · rw [List.cons_append, splitLines_cons_other a _ ha, ih, splitLines_cons_other a rest ha]
      cases hs : splitLines rest with
      | nil => exact absurd hs (splitLines_ne_nil rest)
      | cons x t =>
        cases t with
        | nil => simp
        | cons y t2 => simp

theorem isBlankLine_append_ws (l : Str) (c : Char) (hw : isWs c = true) :
    isBlankLine (l ++ [c]) = isBlankLine l := by
  simp [isBlankLine, List.all_append, hw]

theorem isBlankLine_append_nonws (l : Str) (c : Char) (hw : isWs c = false) :
    isBlankLine (l ++ [c]) = false := by
  simp [isBlankLine, List.all_append, hw]

theorem splitLines_jsTrimEnd (s : Str) :
    splitLines (jsTrimEnd s) = trimEndLines (splitLines s) := by
  induction s using List.reverseRecOn with
  | nil => simp [jsTrimEnd, splitLines, trimEndLines, isBlankLine]
  | append_singleton s c ih =>
    rw [jsTrimEnd_append_char]
    by_cases hw : isWs c
    · rw [if_pos hw, ih]
      by_cases hc : c = '\n'
      · subst hc
        have hsplit : splitLines (s ++ ['\n']) = splitLines s ++ [[]] := by
          have := splitLines_append s []
          simpa [splitLines] using this
        rw [hsplit]
        simp only [trimEndLines]
        have hdw : List.dropWhile isBlankLine ((splitLines s) ++ [[]]).reverse =
            List.dropWhile isBlankLine (splitLines s).reverse := by
          simp [List.dropWhile_cons, isBlankLine]
        rw [hdw]
      · rw [splitLines_append_char s c hc]
        have hLne := splitLines_ne_nil s
        have hArev : ((splitLines s).dropLast ++
            [(splitLines s).getLastD [] ++ [c]]).reverse =
            ((splitLines s).getLastD [] ++ [c]) :: (splitLines s).dropLast.reverse := by
          simp
        have hLrev := reverse_eq_getLastD_cons (splitLines s) hLne
        simp only [trimEndLines, hArev, hLrev, List.dropWhile_cons]
        rw [isBlankLine_append_ws _ c hw]
        by_cases hbl : isBlankLine ((splitLines s).getLastD []) = true
        · rw [if_pos hbl, if_pos hbl]
        · rw [if_neg hbl, if_neg hbl]
          rw [if_neg (show ¬(((splitLines s).getLastD [] ++ [c]) ::
            (splitLines s).dropLast.reverse = []) by simp)]
          rw [if_neg (show ¬(((splitLines s).getLastD []) ::
            (splitLines s).dropLast.reverse = []) by simp)]
          simp only [List.headD_cons, List.tail_cons]
          rw [jsTrimEnd_append_char, if_pos hw]
    · rw [if_neg hw]
      have hc : ¬c = '\n' := by
        intro hcc
        subst hcc
        simp [isWs] at hw
      rw [splitLines_append_char s c hc]
      have hLne := splitLines_ne_nil s
      have hArev : ((splitLines s).dropLast ++
          [(splitLines s).getLastD [] ++ [c]]).reverse =
          ((splitLines s).getLastD [] ++ [c]) :: (splitLines s).dropLast.reverse := by
        simp
      simp only [trimEndLines, hArev, List.dropWhile_cons]
      rw [isBlankLine_append_nonws _ c (Bool.of_not_eq_true hw)]
      simp only [Bool.false_eq_true, if_false]
      rw [if_neg (by simp)]
      simp only [List.headD_cons, List.tail_cons]
      rw [jsTrimEnd_append_char, if_neg hw]
      simp only [List.reverse_cons, List.reverse_reverse]

theorem heading_not_blank (l : Str) (h : isBlankLine l = true) : headingText? l = none := by
  cases hh : headingText? l with
  | none => rfl
  | some r =>
    exfalso
    have hshape := headingText?_shape _ _ hh
    rw [hshape] at h
    simp [isBlankLine, isWs] at h

theorem filterMap_filter_ne (f : Str → Option Str) (p : Str → Bool)
    (hf : ∀ a, p a = false → f a = none) :
    ∀ l : List Str, (l.filter p).filterMap f = l.filterMap f := by
  intro l
  induction l with
  | nil => simp
  | cons a t ih =>
    by_cases hp : p a
    · simp [List.filter_cons, hp, List.filterMap_cons, ih]
    · have hfa := hf a (Bool.of_not_eq_true hp)
      simp [List.filter_cons, Bool.of_not_eq_true hp, List.filterMap_cons, hfa, ih]

theorem headsOf_collapseNL (s : Str) :
    headsOf (splitLines (collapseNL s)) = headsOf (splitLines s) := by
  have h1 : ∀ t : Str, headsOf (splitLines t) = (neLines t).filterMap headingText? := by
    intro t
    rw [neLines, headsOf]
    rw [filterMap_filter_ne headingText? (fun l => !l.isEmpty)]
    intro a ha
    have : a = [] := by
      cases a with
      | nil => rfl
      | cons x y => simp at ha
    rw [this]
    rfl
  rw [h1, h1, neLines_collapseNL]

theorem trimEndLines_heads (ls : List Str) :
    ((trimEndLines ls).filterMap headingText? = [] ∧ ls.filterMap headingText? = []) ∨
    (∃ l rest, ls.reverse.dropWhile isBlankLine = l :: rest ∧ l ∈ ls ∧
      ls.filterMap headingText? =
        (rest.reverse).filterMap headingText? ++ (headingText? l).toList ∧
      (trimEndLines ls).filterMap headingText? =
        (rest.reverse).filterMap headingText? ++ (headingText? (jsTrimEnd l)).toList) := by
  have hsplit : ls.reverse.takeWhile isBlankLine ++ ls.reverse.dropWhile isBlankLine =
      ls.reverse := List.takeWhile_append_dropWhile isBlankLine ls.reverse
  have hls : ls = (ls.reverse.dropWhile isBlankLine).reverse ++
      (ls.reverse.takeWhile isBlankLine).reverse := by
    have h0 := congrArg List.reverse hsplit
    rw [List.reverse_append, List.reverse_reverse] at h0
    exact h0.symm
  have hTnone : ((ls.reverse.takeWhile isBlankLine).reverse).filterMap headingText? = [] := by
    rw [List.filterMap_eq_nil_iff]
    intro a ha
    apply heading_not_blank
    exact List.mem_takeWhile_imp (List.mem_reverse.mp ha)
  cases hd : ls.reverse.dropWhile isBlankLine with
  | nil =>
    left
    constructor
    · simp [trimEndLines, hd, headingText?]
    · conv_lhs => rw [hls]
      rw [hd, List.filterMap_append, hTnone]
      simp
  | cons l rest =>
    right
    refine ⟨l, rest, rfl, ?_, ?_, ?_⟩
    · have : l ∈ ls.reverse.dropWhile isBlankLine := by rw [hd]; simp
      exact List.mem_reverse.mp (mem_dropWhile isBlankLine _ l this)
    · conv_lhs => rw [hls]
      rw [hd, List.filterMap_append, hTnone, List.append_nil]
      simp only [List.reverse_cons, List.filterMap_append]
      cases hx : headingText? l <;> simp [hx]
    · have htel : trimEndLines ls = rest.reverse ++ [jsTrimEnd l] := by
        simp [trimEndLines, hd]
      rw [htel, List.filterMap_append]
      cases hx : headingText? (jsTrimEnd l) <;> simp [hx]

/-- Under well-formed headings (no heading whose text trims to nothing),
`jsTrimEnd` preserves the list of trimmed heading texts. -/
theorem heads_trim_trimEndLines (ls : List Str)
    (hW : ∀ l ∈ ls, ∀ h, headingText? l = some h → jsTrim h ≠ []) :
    ((trimEndLines ls).filterMap headingText?).map jsTrim =
      (ls.filterMap headingText?).map jsTrim := by
  rcases trimEndLines_heads ls with ⟨h1, h2⟩ | ⟨l, rest, hd, hmem, h1, h2⟩
  · rw [h1, h2]
  · rw [h1, h2]
    cases hht : headingText? l with
    | none =>
      rw [headingText?_trimEnd_none l hht]
    | some h =>
      have hne := hW l hmem h hht
      obtain ⟨hs2, ht2⟩ := headingText?_trimEnd_some l h hht hne
      rw [hs2]
      simp [ht2]

/-- If the last heading of the document trims to the (non-empty) pinned name,
`jsTrimEnd` keeps a last heading that still trims to the pinned name. -/
theorem heads_getLast_trimEndLines (ls : List Str) (pin : Str) (hpin : pin ≠ [])
    (hh : Str) (hsome : (ls.filterMap headingText?).getLast? = some hh)
    (htrim : jsTrim hh = pin) :
    ∃ hh2, ((trimEndLines ls).filterMap headingText?).getLast? = some hh2 ∧
      jsTrim hh2 = pin := by
  rcases trimEndLines_heads ls with ⟨h1, h2⟩ | ⟨l, rest, hd, hmem, h1, h2⟩
  · rw [h2] at hsome
    simp at hsome
  · cases hht : headingText? l with
    | none =>
      rw [h1, hht] at hsome
      rw [h2, headingText?_trimEnd_none l hht]
      exact ⟨hh, by simpa using hsome, htrim⟩
    | some h =>
      rw [h1, hht] at hsome
      have hhh : hh = h := by
        simp only [Option.toList_some] at hsome
        rw [List.getLast?_concat] at hsome
        injection hsome with hsome
        exact hsome.symm
      subst hhh
      have hne : jsTrim hh ≠ [] := by
        rw [htrim]
        exact hpin
      obtain ⟨hs2, ht2⟩ := headingText?_trimEnd_some l hh hht hne
      rw [h2, hs2]
      refine ⟨jsTrimEnd hh, ?_, by rw [ht2, htrim]⟩
      simp only [Option.toList_some]
      exact List.getLast?_concat _

/-! ### Claim C6 -/

theorem headTriples_fst (pin : Str) :
    ∀ (ls : List Str) (i : Nat),
      (headTriples pin ls i).map (fun t => t.1) = ls.filterMap headingText? := by
  intro ls
  induction ls with
  | nil => intro i; simp [headTriples]
  | cons l rest ih =>
    intro i
    simp only [headTriples]
    cases hh : headingText? l with
    | some h => simp [List.filterMap_cons, hh, ih]
    | none => simp [List.filterMap_cons, hh, ih]

theorem parseSections_length (pin content : Str) :
    (parseSections pin content).length = (headsOf (splitLines content)).length := by
  have h1 := congrArg List.length (parseSections_triples pin content)
  simp only [List.length_map] at h1
  have h2 := congrArg List.length (headTriples_fst pin (splitLines content) 0)
  simp only [List.length_map] at h2
  rw [h1, docTriples, h2, headsOf]

theorem lines_decomp (lines : List Str) (a b : Nat) (hab : a ≤ b) :
    lines = lines.take a ++ sliceLines lines a b ++ lines.drop b := by
  have h1 : lines.drop a = sliceLines lines a b ++ lines.drop b := by
    simp only [sliceLines]
    conv_lhs => rw [← List.take_append_drop (b - a) (lines.drop a)]
    congr 1
    rw [List.drop_drop]
    congr 1
    omega
  conv_lhs => rw [← List.take_append_drop a lines]
  rw [h1, List.append_assoc]

theorem heads_slice_single (pin content : Str) (sec : Section)
    (hs : sec ∈ parseSections pin content) :
    (sliceLines (splitLines content) sec.startLine sec.endLine).filterMap headingText? =
      [sec.heading] := by
  obtain ⟨hh, hlt, hle, hint⟩ := parseSections_ranges pin content sec hs
  have hstart_lt : sec.startLine < (splitLines content).length := by
    by_contra hge
    push_neg at hge
    rw [List.getD_eq_default _ _ hge] at hh
    exact Option.noConfusion hh
  rw [sliceLines_cons _ _ _ hlt hstart_lt]
  simp only [List.filterMap_cons, hh]
  have hnone : (sliceLines (splitLines content) (sec.startLine + 1) sec.endLine).filterMap
      headingText? = [] := by
    rw [List.filterMap_eq_nil_iff]
    intro l hl
    have hp := slice_all (splitLines content) (fun x => !isHeadingLine x)
      (sec.endLine - (sec.startLine + 1)) (sec.startLine + 1) sec.endLine le_rfl hle
      (fun k hk1 hk2 => by
        have := hint k (by omega) hk2
        simpa using this) l hl
    simp only [Bool.not_eq_true'] at hp
    simp only [isHeadingLine] at hp
    cases hx : headingText? l with
    | none => rfl
    | some r => rw [hx] at hp; simp at hp
  rw [hnone]

theorem noNL_spliceOut (lines : List Str) (a b : Nat) (hnoNL : ∀ l ∈ lines, '\n' ∉ l) :
    ∀ l ∈ spliceOut lines a b, '\n' ∉ l := by
  intro l hl
  rcases List.mem_append.mp hl with h | h
  · exact hnoNL l ((List.take_sublist _ _).subset h)
  · exact hnoNL l ((List.drop_sublist _ _).subset h)

/-- The heading bookkeeping of the `removeSection`/`removeBlock`
post-processing (`join`, collapse blank runs, trim, final newline): the
trimmed heading texts are exactly those of the spliced line list, provided no
heading's text trims to nothing. -/
theorem heads_postprocess (rem : List Str) (hnoNL : ∀ l ∈ rem, '\n' ∉ l)
    (hW : ∀ l ∈ rem, ∀ h, headingText? l = some h → jsTrim h ≠ []) :
    (headsOf (splitLines (jsTrimEnd (collapseNL (joinLines rem)) ++ ['\n']))).map jsTrim =
      (headsOf rem).map jsTrim := by
  have happ : splitLines (jsTrimEnd (collapseNL (joinLines rem)) ++ ['\n']) =
      splitLines (jsTrimEnd (collapseNL (joinLines rem))) ++ [[]] := by
    have := splitLines_append (jsTrimEnd (collapseNL (joinLines rem))) []
    simpa [splitLines] using this
  rw [happ]
  have hdrop : headsOf (splitLines (jsTrimEnd (collapseNL (joinLines rem))) ++ [[]]) =
      headsOf (splitLines (jsTrimEnd (collapseNL (joinLines rem)))) := by
    simp [headsOf, List.filterMap_append, headingText?]
  rw [hdrop]
  by_cases hrem : rem = []
  · subst hrem
    simp [joinLines, joinSep, collapseNL, collapseGo, jsTrimEnd, splitLines, headsOf,
      headingText?]
  · have hsj : splitLines (joinLines rem) = rem := split_join rem hrem hnoNL
    have hWX : ∀ l ∈ splitLines (collapseNL (joinLines rem)), ∀ h,
        headingText? l = some h → jsTrim h ≠ [] := by
      intro l hl h hlh
      have hlne : l ≠ [] := by
        intro hc
        rw [hc] at hlh
        simp [headingText?] at hlh
      have hlmem : l ∈ neLines (collapseNL (joinLines rem)) := by
        rw [neLines]
        refine List.mem_filter.mpr ⟨hl, ?_⟩
        simpa using hlne
      rw [neLines_collapseNL, neLines, hsj] at hlmem
      exact hW l (List.mem_of_mem_filter hlmem) h hlh
    rw [splitLines_jsTrimEnd]
    have hTE := heads_trim_trimEndLines (splitLines (collapseNL (joinLines rem))) hWX
    rw [headsOf, hTE]
    have hcoll := headsOf_collapseNL (joinLines rem)
    rw [headsOf, headsOf] at hcoll
    rw [hcoll, hsj]
    rfl

/-- C6, amended part (removeSection): with a valid index and well-formed
headings, removal commits a document with exactly one fewer section, and the
multiset of trimmed heading texts loses exactly one occurrence of the removed
section's trimmed heading (in particular re-parsing never reintroduces the
removed heading elsewhere). -/
theorem removeSection_shrinks (pin content : Str) (i : Int) (sec : Section)
    (hget : getI? ((parseSections pin content).filter (fun s => !s.pinned)) i = some sec)
    (hW : ∀ l ∈ splitLines content, ∀ h, headingText? l = some h → jsTrim h ≠ []) :
    ∃ t, removeSection pin content i = OpResult.commit t ∧
      (parseSections pin t).length + 1 = (parseSections pin content).length ∧
      (↑((headsOf (splitLines content)).map jsTrim) : Multiset Str) =
        jsTrim sec.heading ::ₘ ↑((headsOf (splitLines t)).map jsTrim) := by
  obtain ⟨h0, hlen⟩ := getI?_bounds _ i sec hget
  have hsecmem : sec ∈ parseSections pin content :=
    List.mem_of_mem_filter (getI?_mem _ i sec hget)
  obtain ⟨hh, hlt, hle, hint⟩ := parseSections_ranges pin content sec hsecmem
  have hcommit : removeSection pin content i = OpResult.commit
      (jsTrimEnd (collapseNL (joinLines
        (spliceOut (splitLines content) sec.startLine sec.endLine))) ++ "\n".data) := by
    simp only [removeSection]
    rw [if_neg (by simp only [decide_eq_true_eq]; omega)]
    simp only [hget]
  have hpost := heads_postprocess
    (spliceOut (splitLines content) sec.startLine sec.endLine)
    (noNL_spliceOut _ _ _ (noNL_splitLines content))
    (fun l hl h hlh => hW l (by
      rcases List.mem_append.mp hl with h1 | h1
      · exact (List.take_sublist _ _).subset h1
      · exact (List.drop_sublist _ _).subset h1) h hlh)
  have hsplice : spliceOut (splitLines content) sec.startLine sec.endLine =
      (splitLines content).take sec.startLine ++ (splitLines content).drop sec.endLine := by
    simp only [spliceOut]
    have hx : sec.startLine + (sec.endLine - sec.startLine) = sec.endLine := by omega
    rw [hx]
  have hlines : splitLines content =
      (splitLines content).take sec.startLine ++
        sliceLines (splitLines content) sec.startLine sec.endLine ++
        (splitLines content).drop sec.endLine :=
    lines_decomp (splitLines content) sec.startLine sec.endLine (by omega)
  have hheadsrem : headsOf (spliceOut (splitLines content) sec.startLine sec.endLine) =
      ((splitLines content).take sec.startLine).filterMap headingText? ++
        ((splitLines content).drop sec.endLine).filterMap headingText? := by
    rw [hsplice, headsOf, List.filterMap_append]
  have hheadslines : headsOf (splitLines content) =
      ((splitLines content).take sec.startLine).filterMap headingText? ++
        [sec.heading] ++
        ((splitLines content).drop sec.endLine).filterMap headingText? := by
    conv_lhs => rw [headsOf, hlines]
    rw [List.filterMap_append, List.filterMap_append,
      heads_slice_single pin content sec hsecmem]
  have hstr : ("\n".data : Str) = ['\n'] := rfl
  refine ⟨_, hcommit, ?_, ?_⟩
  · rw [parseSections_length, parseSections_length]
    rw [hstr]
    have hlen1 := congrArg List.length hpost
    simp only [List.length_map] at hlen1
    rw [hlen1, hheadsrem, hheadslines]
    simp only [List.length_append, List.length_cons, List.length_nil]
    omega
  · rw [hstr]
    rw [hpost, hheadsrem, hheadslines]
    simp only [List.map_append, List.map_cons, List.map_nil]
    have hperm : List.Perm
        ((((splitLines content).take sec.startLine).filterMap headingText?).map
          jsTrim ++ [jsTrim sec.heading] ++
          (((splitLines content).drop sec.endLine).filterMap headingText?).map jsTrim)
        (jsTrim sec.heading ::
          ((((splitLines content).take sec.startLine).filterMap headingText?).map jsTrim ++
            (((splitLines content).drop sec.endLine).filterMap headingText?).map jsTrim)) := by
      rw [List.append_assoc, List.singleton_append]
      exact List.perm_middle
    rw [Multiset.cons_coe]
    exact Multiset.coe_eq_coe.mpr hperm

theorem wellHeaded_of_all (lines : List Str) (hall : lines.all headOk = true) :
    ∀ l ∈ lines, ∀ h, headingText? l = some h → jsTrim h ≠ [] := by
  intro l hl h hh
  have h2 := List.all_eq_true.mp hall l hl
  unfold headOk at h2
  rw [hh] at h2
  simp only [Option.elim] at h2
  exact of_decide_eq_true h2

/-- C6 counterexample: removing a heading block between two prose lines merges
its neighbours, so re-parsing finds one block where the claim promises two
(three before, one after). -/
theorem removeBlock_merges_neighbors :
    (parseBlocks "Sources".data "x\n## H\ny".data).length = 3 ∧
    removeBlock "Sources".data "x\n## H\ny".data 1 =
      OpResult.commit "x\ny\n".data ∧
    (parseBlocks "Sources".data "x\ny\n".data).length = 1 := by
  refine ⟨by decide, by decide, by decide⟩

theorem removeSection_shrinks_witness :
    getI? ((parseSections "Sources".data
        "## A\na\n\n## Sources\ns".data).filter (fun s => !s.pinned)) 0 =
      some ⟨"A".data, 0, 3, false⟩ ∧
    (∀ l ∈ splitLines "## A\na\n\n## Sources\ns".data, ∀ h,
        headingText? l = some h → jsTrim h ≠ []) ∧
    ∃ t, removeSection "Sources".data "## A\na\n\n## Sources\ns".data 0 =
        OpResult.commit t ∧
      (parseSections "Sources".data t).length + 1 =
        (parseSections "Sources".data "## A\na\n\n## Sources\ns".data).length ∧
      (↑((headsOf (splitLines "## A\na\n\n## Sources\ns".data)).map jsTrim) :
          Multiset Str) =
        jsTrim "A".data ::ₘ ↑((headsOf (splitLines t)).map jsTrim) :=
  ⟨by decide, wellHeaded_of_all _ (by decide),
    removeSection_shrinks "Sources".data "## A\na\n\n## Sources\ns".data 0
      ⟨"A".data, 0, 3, false⟩ (by decide) (wellHeaded_of_all _ (by decide))⟩

/-! ### Claim C3: move conservation -/

theorem takeWhile_all_append (p : Str → Bool) (A B : List Str)
    (h : ∀ a ∈ A, p a = true) : (A ++ B).takeWhile p = A ++ B.takeWhile p := by
  induction A with
  | nil => simp
  | cons a A ih =>
    simp only [List.cons_append, List.takeWhile_cons, h a (List.mem_cons_self a A),
      if_true]
    rw [ih (fun x hx => h x (List.mem_cons_of_mem a hx))]

theorem takeWhile_take_drop (p : Str → Bool) (ls : List Str) (i : Nat)
    (h : ∀ l ∈ ls.take i, p l = true) :
    ls.takeWhile p = ls.take i ++ (ls.drop i).takeWhile p := by
  conv_lhs => rw [← List.take_append_drop i ls]
  rw [takeWhile_all_append p _ _ h]

theorem take_le_firstIdxP_all (p : Str → Bool) (ls : List Str) (i : Nat)
    (h : i ≤ firstIdxP p ls) : ∀ l ∈ ls.take i, p l = false := by
  intro l hl
  have h2 : ls.take i = (ls.take (firstIdxP p ls)).take i := by
    rw [List.take_take]
    congr 1
    omega
  rw [h2, take_firstIdxP] at hl
  have h3 := List.mem_takeWhile_imp ((List.take_sublist _ _).subset hl)
  simpa using h3

theorem mem_dropTrailingBlanks (ls : List Str) (l : Str) (h : l ∈ dropTrailingBlanks ls) :
    l ∈ ls := by
  unfold dropTrailingBlanks at h
  rw [List.mem_reverse] at h
  have h2 := (List.dropWhile_sublist _).subset h
  rw [List.mem_reverse] at h2
  exact h2

theorem filter_dropTrailingBlanks (q : Str → Bool)
    (hq : ∀ l, isBlankLine l = true → q l = false) (ls : List Str) :
    (dropTrailingBlanks ls).filter q = ls.filter q := by
  have hdecomp : dropTrailingBlanks ls ++ (ls.reverse.takeWhile isBlankLine).reverse = ls := by
    unfold dropTrailingBlanks
    rw [← List.reverse_append, List.takeWhile_append_dropWhile, List.reverse_reverse]
  conv_rhs => rw [← hdecomp]
  rw [List.filter_append]
  have hnil : ((ls.reverse.takeWhile isBlankLine).reverse).filter q = [] := by
    rw [List.filter_eq_nil_iff]
    intro a ha
    rw [List.mem_reverse] at ha
    simp [hq a (List.mem_takeWhile_imp ha)]
  rw [hnil, List.append_nil]

theorem filter_dropLeadingBlanks (q : Str → Bool)
    (hq : ∀ l, isBlankLine l = true → q l = false) (ls : List Str) :
    (dropLeadingBlanks ls).filter q = ls.filter q := by
  unfold dropLeadingBlanks
  conv_rhs => rw [← List.takeWhile_append_dropWhile isBlankLine ls]
  rw [List.filter_append]
  have hnil : (ls.takeWhile isBlankLine).filter q = [] := by
    rw [List.filter_eq_nil_iff]
    intro a ha
    simp [hq a (List.mem_takeWhile_imp ha)]
  rw [hnil, List.nil_append]

theorem isPinnedHead_blank (pin l : Str) (h : isBlankLine l = true) :
    isPinnedHead pin l = false := by
  unfold isPinnedHead
  rw [heading_not_blank l h]

theorem isPinnedHead_nil (pin : Str) : isPinnedHead pin [] = false :=
  isPinnedHead_blank pin [] (by decide)

theorem keepLine_blank (l : Str) (h : isBlankLine l = true) : keepLine l = false := by
  simp [keepLine, h]

theorem filter_takeWhile_append_nil (p q : Str → Bool) (hp : p [] = true)
    (hq : q [] = false) (Y : List Str) :
    ((Y ++ [[]]).takeWhile p).filter q = (Y.takeWhile p).filter q := by
  induction Y with
  | nil =>
    simp [List.takeWhile_cons, hp, List.filter_cons, hq]
  | cons y Y ih =>
    by_cases hy : p y = true
    · simp only [List.cons_append, List.takeWhile_cons, hy, if_true, List.filter_cons]
      rw [ih]
    · simp [List.takeWhile_cons, hy]

theorem filter_takeWhile_dropLeading (p q : Str → Bool)
    (hpb : ∀ l, isBlankLine l = true → p l = true)
    (hqb : ∀ l, isBlankLine l = true → q l = false) (ls : List Str) :
    ((dropLeadingBlanks ls).takeWhile p).filter q = (ls.takeWhile p).filter q := by
  conv_rhs => rw [← List.takeWhile_append_dropWhile isBlankLine ls]
  rw [takeWhile_all_append p _ _ (fun a ha => hpb a (List.mem_takeWhile_imp ha))]
  rw [List.filter_append]
  have hnil : (ls.takeWhile isBlankLine).filter q = [] := by
    rw [List.filter_eq_nil_iff]
    intro a ha
    simp [hqb a (List.mem_takeWhile_imp ha)]
  rw [hnil, List.nil_append]
  rfl

/-- Every line in the gap between `effectiveEnd` and the pinned heading is a
blank line or a horizontal rule. -/
theorem gap_not_keep (pin : Str) (lines : List Str) (k : Nat)
    (h1 : effectiveEnd pin lines ≤ k) (h2 : k < findPinnedStart pin lines) :
    keepLine (lines.getD k []) = false := by
  rw [keep_false_iff]
  unfold effectiveEnd at h1
  simp only [Bool.and_eq_true, decide_eq_true_eq] at h1
  split_ifs at h1 with c1 c2 c3 c4 c5 c6
  · obtain ⟨c1a, c1b⟩ := c1
    obtain ⟨c2a, c2b⟩ := c2
    obtain ⟨c3a, c3b⟩ := c3
    have hk : k = findPinnedStart pin lines - 1 ∨ k = findPinnedStart pin lines - 1 - 1 ∨
        k = findPinnedStart pin lines - 1 - 1 - 1 := by omega
    rcases hk with hk | hk | hk
    · subst hk; exact Or.inl c1b
    · subst hk; exact Or.inr c2b
    · subst hk; exact Or.inl c3b
  · obtain ⟨c1a, c1b⟩ := c1
    obtain ⟨c2a, c2b⟩ := c2
    have hk : k = findPinnedStart pin lines - 1 ∨ k = findPinnedStart pin lines - 1 - 1 := by
      omega
    rcases hk with hk | hk
    · subst hk; exact Or.inl c1b
    · subst hk; exact Or.inr c2b
  · obtain ⟨c1a, c1b⟩ := c1
    obtain ⟨c4a, c4b⟩ := c4
    have hk : k = findPinnedStart pin lines - 1 ∨ k = findPinnedStart pin lines - 1 - 1 := by
      omega
    rcases hk with hk | hk
    · subst hk; exact Or.inl c1b
    · subst hk; exact Or.inl c4b
  · obtain ⟨c1a, c1b⟩ := c1
    have hk : k = findPinnedStart pin lines - 1 := by omega
    subst hk; exact Or.inl c1b
  · obtain ⟨c5a, c5b⟩ := c5
    obtain ⟨c6a, c6b⟩ := c6
    have hk : k = findPinnedStart pin lines - 1 ∨ k = findPinnedStart pin lines - 1 - 1 := by
      omega
    rcases hk with hk | hk
    · subst hk; exact Or.inr c5b
    · subst hk; exact Or.inl c6b
  · obtain ⟨c5a, c5b⟩ := c5
    have hk : k = findPinnedStart pin lines - 1 := by omega
    subst hk; exact Or.inr c5b
  · omega

theorem sliceLines_zero (lines : List Str) (j : Nat) :
    sliceLines lines 0 j = lines.take j := by
  simp [sliceLines]

/-- The lines belonging to blocks are exactly the kept lines of the region
before the pinned heading. -/
theorem blockLines_eq (pin content : Str) :
    blockLines pin content =
      ((splitLines content).takeWhile (fun l => !isPinnedHead pin l)).filter keepLine := by
  obtain ⟨h1, h2, h3, h4, h5⟩ := parseBlocks_spec pin content
  unfold blockLines
  rw [h3, sliceLines_zero]
  have hEP : effectiveEnd pin (splitLines content) ≤ findPinnedStart pin (splitLines content) :=
    effectiveEnd_le_pinned pin (splitLines content)
  have htw : (splitLines content).takeWhile (fun l => !isPinnedHead pin l) =
      (splitLines content).take (findPinnedStart pin (splitLines content)) := by
    unfold findPinnedStart
    rw [take_firstIdxP]
  rw [htw]
  have hPE : findPinnedStart pin (splitLines content) =
      effectiveEnd pin (splitLines content) +
        (findPinnedStart pin (splitLines content) - effectiveEnd pin (splitLines content)) := by
    omega
  have hdecomp : (splitLines content).take (findPinnedStart pin (splitLines content)) =
      (splitLines content).take (effectiveEnd pin (splitLines content)) ++
        sliceLines (splitLines content) (effectiveEnd pin (splitLines content))
          (findPinnedStart pin (splitLines content)) := by
    conv_lhs => rw [hPE]
    rw [List.take_add]
    rfl
  rw [hdecomp, List.filter_append]
  have hnil : (sliceLines (splitLines content) (effectiveEnd pin (splitLines content))
      (findPinnedStart pin (splitLines content))).filter keepLine = [] := by
    have hall := slice_all (splitLines content) (fun x => !keepLine x)
      (findPinnedStart pin (splitLines content))
      (effectiveEnd pin (splitLines content)) (findPinnedStart pin (splitLines content))
      (by omega) (findPinnedStart_le pin (splitLines content))
      (fun k hk1 hk2 => by
        show (!keepLine ((splitLines content).getD k [])) = true
        rw [Bool.not_eq_true']
        exact gap_not_keep pin (splitLines content) k hk1 hk2)
    rw [List.filter_eq_nil_iff]
    intro l hl
    have h6 := hall l hl
    simp only [Bool.not_eq_true'] at h6
    simp [h6]
  rw [hnil, List.append_nil]

theorem skipBlanksBack_le (lines : List Str) (k : Nat) : skipBlanksBack lines k ≤ k := by
  induction k with
  | zero => simp [skipBlanksBack]
  | succ k ih =>
    simp only [skipBlanksBack]
    split_ifs
    · omega
    · omega

theorem insertAtEndPos_le (pin : Str) (ls : List Str) :
    insertAtEndPos pin ls ≤ findPinnedStart pin ls := by
  unfold insertAtEndPos
  simp only
  split_ifs with hj hb
  · omega
  · have ha1 := skipBlanksBack_le ls (findPinnedStart pin ls)
    have ha2 := skipBlanksBack_le ls (skipBlanksBack ls (findPinnedStart pin ls) - 1)
    omega
  · have ha1 := skipBlanksBack_le ls (findPinnedStart pin ls)
    have ha2 := skipBlanksBack_le ls (skipBlanksBack ls (findPinnedStart pin ls))
    omega

theorem splitLines_joinSep_nl (xs : List Str) (hne : xs ≠ []) :
    splitLines (joinSep ['\n', '\n'] xs ++ ['\n']) =
      (xs.map (fun x => splitLines x ++ [[]])).flatten := by
  induction xs with
  | nil => exact absurd rfl hne
  | cons a rest ih =>
    cases rest with
    | nil =>
      simp only [joinSep, List.map_cons, List.map_nil, List.flatten_cons, List.flatten_nil,
        List.append_nil]
      exact splitLines_append a []
    | cons m t =>
      simp only [joinSep]
      have hre : a ++ ['\n', '\n'] ++ joinSep ['\n', '\n'] (m :: t) ++ ['\n'] =
          a ++ '\n' :: ('\n' :: (joinSep ['\n', '\n'] (m :: t) ++ ['\n'])) := by
        simp
      rw [hre, splitLines_append, splitLines_cons_nl, ih (by simp)]
      simp

theorem fk_tw_concat (p q : Str → Bool) (A B : List Str) (hA : ∀ a ∈ A, p a = true) :
    ((A ++ B).takeWhile p).filter q = A.filter q ++ (B.takeWhile p).filter q := by
  rw [takeWhile_all_append p A B hA, List.filter_append]

theorem fk_tw_cons_nil (p q : Str → Bool) (hp : p [] = true) (hq : q [] = false)
    (B : List Str) :
    ((((([] : Str)) :: B)).takeWhile p).filter q = (B.takeWhile p).filter q := by
  simp [List.takeWhile_cons, hp, List.filter_cons, hq]

/-- The multiset of kept pre-pinned lines of a reassembled document is the
payload's kept lines plus the kept pre-pinned lines of the remainder. -/
theorem reassemble_fk (pin : Str) (rem payload : List Str) (i : Nat)
    (hremNL : ∀ l ∈ rem, '\n' ∉ l) (hpayNL : ∀ l ∈ payload, '\n' ∉ l)
    (hpne : payload ≠ [])
    (hpreP : ∀ l ∈ rem.take i, isPinnedHead pin l = false)
    (hpayP : ∀ l ∈ payload, isPinnedHead pin l = false) :
    (↑(((splitLines (reassemble rem i payload)).takeWhile
        (fun l => !isPinnedHead pin l)).filter keepLine) : Multiset Str) =
      ↑(payload.filter keepLine) +
        ↑((rem.takeWhile (fun l => !isPinnedHead pin l)).filter keepLine) := by
  have hpT : (fun l => !isPinnedHead pin l) ([] : Str) = true := by
    simp [isPinnedHead_nil]
  have hkF : keepLine [] = false := by decide
  have hbefP : ∀ l ∈ dropTrailingBlanks (rem.take i),
      (fun l => !isPinnedHead pin l) l = true := by
    intro l hl
    simp [hpreP l (mem_dropTrailingBlanks _ _ hl)]
  have hpayP' : ∀ l ∈ payload, (fun l => !isPinnedHead pin l) l = true := by
    intro l hl
    simp [hpayP l hl]
  have hfk_bef : (dropTrailingBlanks (rem.take i)).filter keepLine =
      (rem.take i).filter keepLine :=
    filter_dropTrailingBlanks keepLine keepLine_blank (rem.take i)
  have hfk_aft : (((dropLeadingBlanks (rem.drop i)).takeWhile
        (fun l => !isPinnedHead pin l))).filter keepLine =
      ((rem.drop i).takeWhile (fun l => !isPinnedHead pin l)).filter keepLine :=
    filter_takeWhile_dropLeading _ keepLine
      (fun l h => by simp [isPinnedHead_blank pin l h]) keepLine_blank (rem.drop i)
  have hRHS : (rem.takeWhile (fun l => !isPinnedHead pin l)).filter keepLine =
      (rem.take i).filter keepLine ++
        ((rem.drop i).takeWhile (fun l => !isPinnedHead pin l)).filter keepLine := by
    rw [takeWhile_take_drop _ rem i (fun l hl => by simp [hpreP l hl]), List.filter_append]
  have htwpay : payload.takeWhile (fun l => !isPinnedHead pin l) = payload := by
    have h0 := takeWhile_all_append _ payload [] hpayP'
    simpa using h0
  have hbefNL : ∀ l ∈ dropTrailingBlanks (rem.take i), '\n' ∉ l := fun l hl =>
    hremNL l ((List.take_sublist i rem).subset (mem_dropTrailingBlanks _ _ hl))
  have haftNL : ∀ l ∈ dropLeadingBlanks (rem.drop i), '\n' ∉ l := fun l hl =>
    hremNL l ((List.drop_sublist i rem).subset ((List.dropWhile_sublist _).subset hl))
  have hsep : ("\n\n".data : Str) = ['\n', '\n'] := rfl
  have hnl : ("\n".data : Str) = ['\n'] := rfl
  have hout0 : reassemble rem i payload =
      joinSep "\n\n".data
        ((if dropTrailingBlanks (rem.take i) = [] then []
            else [joinLines (dropTrailingBlanks (rem.take i))]) ++
          [joinLines payload] ++
          (if dropLeadingBlanks (rem.drop i) = [] then []
            else [joinLines (dropLeadingBlanks (rem.drop i))])) ++ "\n".data := rfl
  by_cases hB : dropTrailingBlanks (rem.take i) = []
  · have hnilB : (rem.take i).filter keepLine = [] := by
      rw [← hfk_bef, hB]
      rfl
    by_cases hA : dropLeadingBlanks (rem.drop i) = []
    · have hnilA : ((rem.drop i).takeWhile
          (fun l => !isPinnedHead pin l)).filter keepLine = [] := by
        rw [← hfk_aft, hA]
        rfl
      rw [hout0, if_pos hB, if_pos hA, hsep, hnl]
      simp only [List.nil_append, List.append_nil]
      rw [splitLines_joinSep_nl _ (by simp)]
      simp only [List.map_cons, List.map_nil, List.flatten_cons, List.flatten_nil,
        List.append_nil, List.append_assoc, List.singleton_append, List.cons_append,
        List.nil_append]
      rw [split_join payload hpne hpayNL]
      rw [filter_takeWhile_append_nil _ keepLine hpT hkF, htwpay]
      rw [hRHS, hnilB, hnilA]
      simp
    · have hnilA2 := hA
      rw [hout0, if_pos hB, if_neg hA, hsep, hnl]
      simp only [List.nil_append]
      rw [splitLines_joinSep_nl _ (by simp)]
      simp only [List.map_cons, List.map_nil, List.flatten_cons, List.flatten_nil,
        List.append_nil, List.append_assoc, List.singleton_append, List.cons_append,
        List.nil_append]
      rw [split_join payload hpne hpayNL, split_join _ hA haftNL]
      rw [fk_tw_concat _ keepLine _ _ hpayP', fk_tw_cons_nil _ keepLine hpT hkF,
        filter_takeWhile_append_nil _ keepLine hpT hkF, hfk_aft, hRHS, hnilB,
        List.nil_append]
      simp only [Multiset.coe_add]
  · have hnB : (dropTrailingBlanks (rem.take i)) ≠ [] := hB
    by_cases hA : dropLeadingBlanks (rem.drop i) = []
    · have hnilA : ((rem.drop i).takeWhile
          (fun l => !isPinnedHead pin l)).filter keepLine = [] := by
        rw [← hfk_aft, hA]
        rfl
      rw [hout0, if_neg hB, if_pos hA, hsep, hnl]
      simp only [List.append_nil]
      rw [splitLines_joinSep_nl _ (by simp)]
      simp only [List.map_cons, List.map_nil, List.flatten_cons, List.flatten_nil,
        List.append_nil, List.append_assoc, List.singleton_append, List.cons_append,
        List.nil_append]
      rw [split_join _ hnB hbefNL, split_join payload hpne hpayNL]
      rw [fk_tw_concat _ keepLine _ _ hbefP, fk_tw_cons_nil _ keepLine hpT hkF,
        filter_takeWhile_append_nil _ keepLine hpT hkF, htwpay, hfk_bef, hRHS, hnilA,
        List.append_nil]
      simp only [Multiset.coe_add]
      exact Multiset.coe_eq_coe.mpr List.perm_append_comm
    · rw [hout0, if_neg hB, if_neg hA, hsep, hnl]
      rw [splitLines_joinSep_nl _ (by simp)]
      simp only [List.map_cons, List.map_nil, List.flatten_cons, List.flatten_nil,
        List.append_nil, List.append_assoc, List.singleton_append, List.cons_append,
        List.nil_append]
      rw [split_join _ hnB hbefNL, split_join payload hpne hpayNL,
        split_join _ hA haftNL]
      rw [fk_tw_concat _ keepLine _ _ hbefP, fk_tw_cons_nil _ keepLine hpT hkF,
        fk_tw_concat _ keepLine _ _ hpayP', fk_tw_cons_nil _ keepLine hpT hkF,
        filter_takeWhile_append_nil _ keepLine hpT hkF, hfk_aft, hfk_bef, hRHS]
      simp only [Multiset.coe_add]
      refine Multiset.coe_eq_coe.mpr ?_
      have hperm := (@List.perm_append_comm _
          ((rem.take i).filter keepLine) (payload.filter keepLine)).append_right
        (((rem.drop i).takeWhile (fun l => !isPinnedHead pin l)).filter keepLine)
      simpa [List.append_assoc] using hperm

theorem dropTrailingBlanks_of_no_blank (ls : List Str)
    (h : ∀ l ∈ ls, isBlankLine l = false) : dropTrailingBlanks ls = ls := by
  unfold dropTrailingBlanks
  cases hrev : ls.reverse with
  | nil =>
    rw [List.reverse_eq_nil_iff.mp hrev]
    rfl
  | cons a t =>
    have ha : isBlankLine a = false := by
      refine h a ?_
      rw [← List.mem_reverse, hrev]
      exact List.mem_cons_self a t
    rw [List.dropWhile_cons_of_neg (by simp [ha]), ← hrev, List.reverse_reverse]

theorem moveBlock_commit_eq (pin content : Str) (f t : Int) (out : Str)
    (h : moveBlock pin content f t = OpResult.commit out) :
    (↑(blockLines pin out) : Multiset Str) = ↑(blockLines pin content) := by
  simp only [moveBlock] at h
  split at h
  · exact OpResult.noConfusion h
  split at h
  · exact OpResult.noConfusion h
  split at h
  · exact OpResult.noConfusion h
  next block hgf =>
  split at h
  · exact OpResult.noConfusion h
  next iL hiL =>
  obtain ⟨h1all, hch, h3, h4, h5⟩ := parseBlocks_spec pin content
  have hmem : block ∈ parseBlocks pin content := getI?_mem _ f block hgf
  obtain ⟨hge0, hlt, hle⟩ := h1all block hmem
  have hEP' : effectiveEnd pin (splitLines content) ≤
      firstIdxP (isPinnedHead pin) (splitLines content) :=
    effectiveEnd_le_pinned pin (splitLines content)
  have hPlen : firstIdxP (isPinnedHead pin) (splitLines content) ≤
      (splitLines content).length :=
    findPinnedStart_le pin (splitLines content)
  have hremNL : ∀ l ∈ spliceOut (splitLines content) block.startLine block.endLine,
      '\n' ∉ l :=
    noNL_spliceOut _ _ _ (noNL_splitLines content)
  have hsliceKeep : ∀ l ∈ sliceLines (splitLines content) block.startLine block.endLine,
      keepLine l = true :=
    slice_all _ keepLine block.endLine block.startLine block.endLine (by omega)
      (by omega) (fun k hk1 hk2 => h4 block hmem k hk1 hk2)
  have hsliceNoBlank : ∀ l ∈ sliceLines (splitLines content) block.startLine block.endLine,
      isBlankLine l = false := by
    intro l hl
    have h6 := hsliceKeep l hl
    simp only [keepLine, Bool.and_eq_true, Bool.not_eq_true'] at h6
    exact h6.1
  have hpayEq : dropTrailingBlanks
        (sliceLines (splitLines content) block.startLine block.endLine) =
      sliceLines (splitLines content) block.startLine block.endLine :=
    dropTrailingBlanks_of_no_blank _ hsliceNoBlank
  have hsliceNL : ∀ l ∈ sliceLines (splitLines content) block.startLine block.endLine,
      '\n' ∉ l := by
    intro l hl
    exact noNL_splitLines content l
      ((List.drop_sublist _ _).subset ((List.take_sublist _ _).subset hl))
  have hsliceNe : sliceLines (splitLines content) block.startLine block.endLine ≠ [] := by
    rw [sliceLines_cons _ _ _ hlt (by omega)]
    simp
  have hsliceP : ∀ l ∈ sliceLines (splitLines content) block.startLine block.endLine,
      isPinnedHead pin l = false := by
    have hall := slice_all (splitLines content) (fun x => !isPinnedHead pin x)
      block.endLine block.startLine block.endLine (by omega) (by omega)
      (fun k hk1 hk2 => by
        show (!isPinnedHead pin ((splitLines content).getD k [])) = true
        rw [Bool.not_eq_true']
        exact firstIdxP_lt _ _ k (by omega))
    intro l hl
    have h6 := hall l hl
    simp only [Bool.not_eq_true'] at h6
    exact h6
  have htakeP : ∀ l ∈ (splitLines content).take block.startLine,
      isPinnedHead pin l = false :=
    take_le_firstIdxP_all _ _ _ (by omega)
  have hsplice : spliceOut (splitLines content) block.startLine block.endLine =
      (splitLines content).take block.startLine ++
        (splitLines content).drop block.endLine := by
    simp only [spliceOut]
    have hx : block.startLine + (block.endLine - block.startLine) = block.endLine := by
      omega
    rw [hx]
  have hpreP : ∀ l ∈ (spliceOut (splitLines content) block.startLine
      block.endLine).take iL, isPinnedHead pin l = false := by
    by_cases hrem0 : spliceOut (splitLines content) block.startLine block.endLine = []
    · rw [hrem0]
      intro l hl
      simp at hl
    · have hIL : iL ≤ firstIdxP (isPinnedHead pin)
          (spliceOut (splitLines content) block.startLine block.endLine) := by
        split at hiL
        · have h2 : insertAtEndPos pin (splitLines (joinLines
              (spliceOut (splitLines content) block.startLine block.endLine))) = iL := by
            injection hiL
          rw [← h2, split_join _ hrem0 hremNL]
          exact insertAtEndPos_le pin _
        · rw [Option.map_eq_some'] at hiL
          obtain ⟨b', hb', hbeq⟩ := hiL
          have hmem' : b' ∈ parseBlocks pin (joinLines
              (spliceOut (splitLines content) block.startLine block.endLine)) :=
            getI?_mem _ t b' hb'
          obtain ⟨spec1, spec2, spec3, spec4, spec5⟩ := parseBlocks_spec pin (joinLines
            (spliceOut (splitLines content) block.startLine block.endLine))
          obtain ⟨hge0', hlt', hle'⟩ := spec1 b' hmem'
          have hEP2 : effectiveEnd pin (splitLines (joinLines
                (spliceOut (splitLines content) block.startLine block.endLine))) ≤
              firstIdxP (isPinnedHead pin) (splitLines (joinLines
                (spliceOut (splitLines content) block.startLine block.endLine))) :=
            effectiveEnd_le_pinned pin _
          rw [split_join _ hrem0 hremNL] at hle' hEP2
          omega
      exact take_le_firstIdxP_all _ _ _ hIL
  injection h with hout
  subst hout
  rw [blockLines_eq, blockLines_eq]
  have hmain := reassemble_fk pin
    (spliceOut (splitLines content) block.startLine block.endLine)
    (dropTrailingBlanks (sliceLines (splitLines content) block.startLine block.endLine))
    iL hremNL
    (fun l hl => hsliceNL l (mem_dropTrailingBlanks _ _ hl))
    (by rw [hpayEq]; exact hsliceNe)
    hpreP
    (fun l hl => hsliceP l (mem_dropTrailingBlanks _ _ hl))
  rw [hmain, hpayEq]
  have htwrem : (spliceOut (splitLines content) block.startLine
        block.endLine).takeWhile (fun l => !isPinnedHead pin l) =
      (splitLines content).take block.startLine ++
        ((splitLines content).drop block.endLine).takeWhile
          (fun l => !isPinnedHead pin l) := by
    rw [hsplice]
    exact takeWhile_all_append _ _ _ (fun l hl => by simp [htakeP l hl])
  have htwL : (splitLines content).takeWhile (fun l => !isPinnedHead pin l) =
      (splitLines content).take block.startLine ++
        (sliceLines (splitLines content) block.startLine block.endLine ++
          ((splitLines content).drop block.endLine).takeWhile
            (fun l => !isPinnedHead pin l)) := by
    conv_lhs =>
      rw [lines_decomp (splitLines content) block.startLine block.endLine
        (le_of_lt hlt)]
    rw [List.append_assoc]
    rw [takeWhile_all_append _ _ _ (fun l hl => by simp [htakeP l hl])]
    rw [takeWhile_all_append _ _ _ (fun l hl => by simp [hsliceP l hl])]
  rw [htwrem, htwL, List.filter_append, List.filter_append]
  simp only [Multiset.coe_add]
  refine Multiset.coe_eq_coe.mpr ?_
  have hperm := (@List.perm_append_comm _
      ((sliceLines (splitLines content) block.startLine block.endLine).filter keepLine)
      (((splitLines content).take block.startLine).filter keepLine)).append_right
    ((((splitLines content).drop block.endLine).takeWhile
        (fun l => !isPinnedHead pin l)).filter keepLine)
  simpa [List.append_assoc] using hperm

theorem fnb_splitLines_joinLines (X : List Str) (hNL : ∀ l ∈ X, '\n' ∉ l) :
    (splitLines (joinLines X)).filter (fun l => !isBlankLine l) =
      X.filter (fun l => !isBlankLine l) := by
  by_cases hX : X = []
  · rw [hX]
    decide
  · rw [split_join X hX hNL]

/-- Non-blank-line conservation for the part assembly used by `moveSection`. -/
theorem moveSection_parts_fnb (rem payload : List Str) (iL : Nat)
    (hremNL : ∀ l ∈ rem, '\n' ∉ l) (hpayNL : ∀ l ∈ payload, '\n' ∉ l) :
    (↑((splitLines (joinSep "\n\n".data
        ((if dropTrailingBlanks (rem.take iL) = [] then []
          else [joinLines (dropTrailingBlanks (rem.take iL))]) ++
         [joinLines payload] ++
         (if rem.drop iL = [] then []
          else [joinLines (dropLeadingBlanks (rem.drop iL))])) ++ "\n".data)).filter
        (fun l => !isBlankLine l)) : Multiset Str) =
      ↑(payload.filter (fun l => !isBlankLine l)) +
        ↑(rem.filter (fun l => !isBlankLine l)) := by
  have hnbnil : (!isBlankLine ([] : Str)) = false := by decide
  have hbefNL : ∀ l ∈ dropTrailingBlanks (rem.take iL), '\n' ∉ l := fun l hl =>
    hremNL l ((List.take_sublist iL rem).subset (mem_dropTrailingBlanks _ _ hl))
  have haftNL : ∀ l ∈ dropLeadingBlanks (rem.drop iL), '\n' ∉ l := fun l hl =>
    hremNL l ((List.drop_sublist iL rem).subset ((List.dropWhile_sublist _).subset hl))
  have hfnb_bef : (dropTrailingBlanks (rem.take iL)).filter (fun l => !isBlankLine l) =
      (rem.take iL).filter (fun l => !isBlankLine l) :=
    filter_dropTrailingBlanks _ (fun l h => by simp [h]) (rem.take iL)
  have hfnb_aft : (dropLeadingBlanks (rem.drop iL)).filter (fun l => !isBlankLine l) =
      (rem.drop iL).filter (fun l => !isBlankLine l) :=
    filter_dropLeadingBlanks _ (fun l h => by simp [h]) (rem.drop iL)
  have hrem_split : rem.filter (fun l => !isBlankLine l) =
      (rem.take iL).filter (fun l => !isBlankLine l) ++
        (rem.drop iL).filter (fun l => !isBlankLine l) := by
    conv_lhs => rw [← List.take_append_drop iL rem]
    rw [List.filter_append]
  have hsep : ("\n\n".data : Str) = ['\n', '\n'] := rfl
  have hnl : ("\n".data : Str) = ['\n'] := rfl
  rw [hsep, hnl]
  by_cases hB : dropTrailingBlanks (rem.take iL) = []
  · have hnilB : (rem.take iL).filter (fun l => !isBlankLine l) = [] := by
      rw [← hfnb_bef, hB]
      rfl
    by_cases hA : rem.drop iL = []
    · rw [if_pos hB, if_pos hA]
      simp only [List.nil_append, List.append_nil]
      rw [splitLines_joinSep_nl _ (by simp)]
      simp only [List.map_cons, List.map_nil, List.flatten_cons, List.flatten_nil,
        List.append_nil, List.append_assoc, List.singleton_append, List.cons_append,
        List.nil_append]
      simp only [List.filter_append, List.filter_cons, List.filter_nil, hnbnil,
        Bool.false_eq_true, if_false, List.append_nil, List.nil_append]
      rw [fnb_splitLines_joinLines payload hpayNL]
      rw [hrem_split, hnilB, hA]
      simp
    · rw [if_pos hB, if_neg hA]
      simp only [List.nil_append]
      rw [splitLines_joinSep_nl _ (by simp)]
      simp only [List.map_cons, List.map_nil, List.flatten_cons, List.flatten_nil,
        List.append_nil, List.append_assoc, List.singleton_append, List.cons_append,
        List.nil_append]
      simp only [List.filter_append, List.filter_cons, List.filter_nil, hnbnil,
        Bool.false_eq_true, if_false, List.append_nil, List.nil_append]
      rw [fnb_splitLines_joinLines payload hpayNL,
        fnb_splitLines_joinLines _ haftNL, hfnb_aft]
      rw [hrem_split, hnilB, List.nil_append]
      simp only [Multiset.coe_add]
  · by_cases hA : rem.drop iL = []
    · rw [if_neg hB, if_pos hA]
      simp only [List.append_nil]
      rw [splitLines_joinSep_nl _ (by simp)]
      simp only [List.map_cons, List.map_nil, List.flatten_cons, List.flatten_nil,
        List.append_nil, List.append_assoc, List.singleton_append, List.cons_append,
        List.nil_append]
      simp only [List.filter_append, List.filter_cons, List.filter_nil, hnbnil,
        Bool.false_eq_true, if_false, List.append_nil, List.nil_append]
      rw [fnb_splitLines_joinLines _ hbefNL, hfnb_bef,
        fnb_splitLines_joinLines payload hpayNL]
      rw [hrem_split, hA]
      simp only [List.filter_nil, List.append_nil, Multiset.coe_add]
      exact Multiset.coe_eq_coe.mpr List.perm_append_comm
    · rw [if_neg hB, if_neg hA]
      rw [splitLines_joinSep_nl _ (by simp)]
      simp only [List.map_cons, List.map_nil, List.flatten_cons, List.flatten_nil,
        List.append_nil, List.append_assoc, List.singleton_append, List.cons_append,
        List.nil_append]
      simp only [List.filter_append, List.filter_cons, List.filter_nil, hnbnil,
        Bool.false_eq_true, if_false, List.append_nil, List.nil_append]
      rw [fnb_splitLines_joinLines _ hbefNL, hfnb_bef,
        fnb_splitLines_joinLines payload hpayNL,
        fnb_splitLines_joinLines _ haftNL, hfnb_aft]
      rw [hrem_split]
      simp only [Multiset.coe_add]
      refine Multiset.coe_eq_coe.mpr ?_
      have hperm := (@List.perm_append_comm _
          ((rem.take iL).filter (fun l => !isBlankLine l))
          (payload.filter (fun l => !isBlankLine l))).append_right
        ((rem.drop iL).filter (fun l => !isBlankLine l))
      simpa [List.append_assoc] using hperm

theorem moveSection_commit_eq (pin content : Str) (f t : Int) (out : Str)
    (h : moveSection pin content f t = OpResult.commit out) :
    (↑((splitLines out).filter (fun l => !isBlankLine l)) : Multiset Str) =
      ↑((splitLines content).filter (fun l => !isBlankLine l)) := by
  simp only [moveSection] at h
  split at h
  · exact OpResult.noConfusion h
  split at h
  · exact OpResult.noConfusion h
  split at h
  · exact OpResult.noConfusion h
  next sec hgf =>
  split at h
  · exact OpResult.noConfusion h
  next iL hiL =>
  injection h with hout
  subst hout
  have hmem : sec ∈ parseSections pin content :=
    List.mem_of_mem_filter (getI?_mem _ f sec hgf)
  obtain ⟨hh, hlt, hle, hint⟩ := parseSections_ranges pin content sec hmem
  have hremNL : ∀ l ∈ spliceOut (splitLines content) sec.startLine sec.endLine,
      '\n' ∉ l :=
    noNL_spliceOut _ _ _ (noNL_splitLines content)
  have hsliceNL : ∀ l ∈ sliceLines (splitLines content) sec.startLine sec.endLine,
      '\n' ∉ l := by
    intro l hl
    exact noNL_splitLines content l
      ((List.drop_sublist _ _).subset ((List.take_sublist _ _).subset hl))
  rw [moveSection_parts_fnb _ _ iL hremNL
    (fun l hl => hsliceNL l (mem_dropTrailingBlanks _ _ hl))]
  have hfnb_pay : (dropTrailingBlanks (sliceLines (splitLines content) sec.startLine
        sec.endLine)).filter (fun l => !isBlankLine l) =
      (sliceLines (splitLines content) sec.startLine sec.endLine).filter
        (fun l => !isBlankLine l) :=
    filter_dropTrailingBlanks _ (fun l hb => by simp [hb]) _
  have hsplice : spliceOut (splitLines content) sec.startLine sec.endLine =
      (splitLines content).take sec.startLine ++
        (splitLines content).drop sec.endLine := by
    simp only [spliceOut]
    have hx : sec.startLine + (sec.endLine - sec.startLine) = sec.endLine := by omega
    rw [hx]
  rw [hfnb_pay, hsplice]
  conv_rhs =>
    rw [lines_decomp (splitLines content) sec.startLine sec.endLine (le_of_lt hlt)]
  simp only [List.filter_append, List.append_assoc, Multiset.coe_add]
  refine Multiset.coe_eq_coe.mpr ?_
  have hperm := (@List.perm_append_comm _
      ((sliceLines (splitLines content) sec.startLine sec.endLine).filter
        (fun l => !isBlankLine l))
      (((splitLines content).take sec.startLine).filter
        (fun l => !isBlankLine l))).append_right
    (((splitLines content).drop sec.endLine).filter (fun l => !isBlankLine l))
  simpa [List.append_assoc] using hperm

/-- C3 counterexample: moving the section that lies after the pinned section
changes the multiset of lines belonging to parsed sections — the reassembly
inserts a blank separator line into the moved section's range and another
trailing blank into the now-last pinned section, so lines are gained. -/
theorem moveSection_not_conserving :
    ∃ u, moveSection "Sources".data "## A\n## Sources\n## B".data 1 0 =
        OpResult.commit u ∧
      ¬((↑(sectionLines "Sources".data u) : Multiset Str) =
        ↑(sectionLines "Sources".data "## A\n## Sources\n## B".data)) := by
  refine ⟨"## B\n\n## A\n## Sources\n".data, by decide, by decide⟩

/-- C3, amended: `moveBlock` exactly conserves the multiset of lines belonging
to parsed blocks (no line duplicated or dropped); `moveSection` conserves the
multiset of the document's non-blank lines, but not the multiset of lines
belonging to parsed sections, because blank separator lines at the seams are
created and destroyed. -/
theorem move_conservation (pin content : Str) (f t : Int) :
    (∀ out, moveBlock pin content f t = OpResult.commit out →
      (↑(blockLines pin out) : Multiset Str) = ↑(blockLines pin content)) ∧
    (∀ out, moveSection pin content f t = OpResult.commit out →
      (↑((splitLines out).filter (fun l => !isBlankLine l)) : Multiset Str) =
        ↑((splitLines content).filter (fun l => !isBlankLine l))) :=
  ⟨fun out h => moveBlock_commit_eq pin content f t out h,
   fun out h => moveSection_commit_eq pin content f t out h⟩

/-- C3 witness: both conservation statements applied on concrete documents. -/
theorem move_conservation_witness :
    moveBlock "Sources".data "a\n\nb\n\n## Sources\nx".data 0 1 =
      OpResult.commit "\nb\n\na\n\n## Sources\nx\n".data ∧
    (↑(blockLines "Sources".data "\nb\n\na\n\n## Sources\nx\n".data) : Multiset Str) =
      ↑(blockLines "Sources".data "a\n\nb\n\n## Sources\nx".data) ∧
    moveSection "Sources".data "## A\na\n\n## B\nb\n\n## Sources\nx".data 0 1 =
      OpResult.commit "## B\nb\n\n## A\na\n\n## Sources\nx\n".data ∧
    (↑((splitLines "## B\nb\n\n## A\na\n\n## Sources\nx\n".data).filter
        (fun l => !isBlankLine l)) : Multiset Str) =
      ↑((splitLines "## A\na\n\n## B\nb\n\n## Sources\nx".data).filter
        (fun l => !isBlankLine l)) :=
  ⟨by decide,
   (move_conservation "Sources".data "a\n\nb\n\n## Sources\nx".data 0 1).1 _ (by decide),
   by decide,
   (move_conservation "Sources".data
     "## A\na\n\n## B\nb\n\n## Sources\nx".data 0 1).2 _ (by decide)⟩

/-! ### Claim C1: pinned invariance -/

theorem headsOf_append (A B : List Str) : headsOf (A ++ B) = headsOf A ++ headsOf B := by
  simp [headsOf, List.filterMap_append]

theorem headsOf_of_blank (X : List Str) (h : ∀ l ∈ X, isBlankLine l = true) :
    headsOf X = [] := by
  rw [headsOf, List.filterMap_eq_nil_iff]
  intro l hl
  exact heading_not_blank l (h l hl)

theorem headsOf_dropLeadingBlanks (X : List Str) :
    headsOf (dropLeadingBlanks X) = headsOf X := by
  conv_rhs => rw [← List.takeWhile_append_dropWhile isBlankLine X]
  rw [headsOf_append, headsOf_of_blank (X.takeWhile isBlankLine)
    (fun l hl => List.mem_takeWhile_imp hl), List.nil_append]
  rfl

theorem headsOf_dropTrailingBlanks (X : List Str) :
    headsOf (dropTrailingBlanks X) = headsOf X := by
  have hdecomp : dropTrailingBlanks X ++ (X.reverse.takeWhile isBlankLine).reverse = X := by
    unfold dropTrailingBlanks
    rw [← List.reverse_append, List.takeWhile_append_dropWhile, List.reverse_reverse]
  conv_rhs => rw [← hdecomp]
  rw [headsOf_append, headsOf_of_blank ((X.reverse.takeWhile isBlankLine).reverse)
    (fun l hl => by
      rw [List.mem_reverse] at hl
      exact List.mem_takeWhile_imp hl), List.append_nil]

theorem getLast?_append_right {α : Type} (A B : List α) (h : B ≠ []) :
    (A ++ B).getLast? = B.getLast? := by
  rw [List.getLast?_append]
  cases hB : B.getLast? with
  | none =>
    exact absurd (List.getLast?_eq_none_iff.mp hB) h
  | some b => rfl

theorem headsOf_ne_nil (X : List Str) (l : Str) (hl : l ∈ X) (h : Str)
    (hh : headingText? l = some h) : headsOf X ≠ [] := by
  intro hc
  rw [headsOf, List.filterMap_eq_nil_iff] at hc
  rw [hc l hl] at hh
  exact Option.noConfusion hh

theorem headD_mem {α : Type} (X : List α) (d : α) (h : X ≠ []) : X.headD d ∈ X := by
  cases X with
  | nil => exact absurd rfl h
  | cons a t => exact List.mem_cons_self a t

theorem trimmedHeads_ne_pin (pin : Str) (X : List Str)
    (hX : ∀ l ∈ X, isPinnedHead pin l = false) :
    ∀ m ∈ (headsOf X).map jsTrim, m ≠ pin := by
  intro m hm
  rw [List.mem_map] at hm
  obtain ⟨h, hh, hjt⟩ := hm
  rw [headsOf, List.mem_filterMap] at hh
  obtain ⟨l, hl, hlh⟩ := hh
  have hp := hX l hl
  unfold isPinnedHead at hp
  rw [hlh] at hp
  simp only [beq_eq_false_iff_ne, ne_eq] at hp
  rw [← hjt]
  exact hp

/-- Splicing out a range none of whose headings trims to the pinned name
preserves "the last heading trims to the pinned name". -/
theorem lastPin_splice (pin : Str) (lines : List Str) (a b : Nat)
    (hslice : ∀ m ∈ (headsOf (sliceLines lines a b)).map jsTrim, m ≠ pin)
    (hlast : ((headsOf lines).map jsTrim).getLast? = some pin) :
    ((headsOf (spliceOut lines a b)).map jsTrim).getLast? = some pin := by
  by_cases hab : a ≤ b
  · have hdec := lines_decomp lines a b hab
    have hsp : spliceOut lines a b = lines.take a ++ lines.drop b := by
      simp only [spliceOut]
      by_cases hba : b ≤ a
      · have h1 : b - a = 0 := by omega
        have h2 : a ≤ b := hab
        have h3 : a = b := by omega
        rw [h1, h3]
        simp
      · have hx : a + (b - a) = b := by omega
        rw [hx]
    rw [hsp, headsOf_append, List.map_append]
    by_cases hdropM : (headsOf (lines.drop b)).map jsTrim = []
    · by_cases hsliceM : (headsOf (sliceLines lines a b)).map jsTrim = []
      · conv_lhs at hlast => rw [hdec]
        rw [headsOf_append, headsOf_append, List.map_append, List.map_append,
          hsliceM, hdropM] at hlast
        rw [hdropM]
        simpa using hlast
      · conv_lhs at hlast => rw [hdec]
        rw [headsOf_append, headsOf_append, List.map_append, List.map_append,
          hdropM, List.append_nil, getLast?_append_right _ _ hsliceM] at hlast
        have hpinmem : pin ∈ (headsOf (sliceLines lines a b)).map jsTrim :=
          List.mem_of_getLast?_eq_some hlast
        exact absurd rfl (hslice pin hpinmem)
    · rw [getLast?_append_right _ _ hdropM]
      conv_lhs at hlast => rw [hdec]
      rw [headsOf_append, headsOf_append, List.map_append, List.map_append,
        List.append_assoc, getLast?_append_right _ _ (by
          intro hc
          rw [List.append_eq_nil] at hc
          exact hdropM hc.2),
        getLast?_append_right _ _ hdropM] at hlast
      exact hlast
  · have hsp : spliceOut lines a b = lines := by
      simp only [spliceOut]
      have h1 : b - a = 0 := by omega
      rw [h1, Nat.add_zero, List.take_append_drop]
    rw [hsp]
    exact hlast

/-- If the lines dropped before the insertion point contain a heading, the
last trimmed heading of the tail agrees with that of the whole list. -/
theorem lastPin_of_drop_heads (pin : Str) (X : List Str) (iL : Nat)
    (hne : headsOf (X.drop iL) ≠ [])
    (hlast : ((headsOf X).map jsTrim).getLast? = some pin) :
    ((headsOf (X.drop iL)).map jsTrim).getLast? = some pin := by
  conv_lhs at hlast => rw [← List.take_append_drop iL X]
  rw [headsOf_append, List.map_append,
    getLast?_append_right _ _ (by simpa using hne)] at hlast
  exact hlast

/-- When every line before the insertion point fails the pinned-head test, the
tail still holds a heading (the last one, which trims to the pinned name). -/
theorem drop_heads_ne_nil (pin : Str) (X : List Str) (iL : Nat)
    (hpre : ∀ l ∈ X.take iL, isPinnedHead pin l = false)
    (hlast : ((headsOf X).map jsTrim).getLast? = some pin) :
    headsOf (X.drop iL) ≠ [] := by
  intro hc
  conv_lhs at hlast => rw [← List.take_append_drop iL X]
  rw [headsOf_append, List.map_append, hc, List.map_nil, List.append_nil] at hlast
  have hpinmem : pin ∈ (headsOf (X.take iL)).map jsTrim :=
    List.mem_of_getLast?_eq_some hlast
  exact absurd rfl (trimmedHeads_ne_pin pin _ hpre pin hpinmem)

theorem filterMap_splitLines_joinLines (X : List Str) (hNL : ∀ l ∈ X, '\n' ∉ l) :
    (splitLines (joinLines X)).filterMap headingText? = X.filterMap headingText? := by
  by_cases hX : X = []
  · rw [hX]
    rfl
  · rw [split_join X hX hNL]

/-- Heads of a reassembled document: the parts contribute their heads in
order, and the separator blank lines contribute none. -/
theorem reassemble_heads (rem payload : List Str) (iL : Nat)
    (hremNL : ∀ l ∈ rem, '\n' ∉ l) (hpayNL : ∀ l ∈ payload, '\n' ∉ l) :
    headsOf (splitLines (reassemble rem iL payload)) =
      headsOf (rem.take iL) ++ headsOf payload ++ headsOf (rem.drop iL) := by
  have hfm : List.filterMap headingText? [([] : Str)] = [] := rfl
  have hhnl : headingText? ([] : Str) = none := rfl
  have hbefNL : ∀ l ∈ dropTrailingBlanks (rem.take iL), '\n' ∉ l := fun l hl =>
    hremNL l ((List.take_sublist iL rem).subset (mem_dropTrailingBlanks _ _ hl))
  have haftNL : ∀ l ∈ dropLeadingBlanks (rem.drop iL), '\n' ∉ l := fun l hl =>
    hremNL l ((List.drop_sublist iL rem).subset ((List.dropWhile_sublist _).subset hl))
  have hsep : ("\n\n".data : Str) = ['\n', '\n'] := rfl
  have hnl : ("\n".data : Str) = ['\n'] := rfl
  have hout0 : reassemble rem iL payload =
      joinSep "\n\n".data
        ((if dropTrailingBlanks (rem.take iL) = [] then []
            else [joinLines (dropTrailingBlanks (rem.take iL))]) ++
          [joinLines payload] ++
          (if dropLeadingBlanks (rem.drop iL) = [] then []
            else [joinLines (dropLeadingBlanks (rem.drop iL))])) ++ "\n".data := rfl
  have hbef : (dropTrailingBlanks (rem.take iL)).filterMap headingText? =
      (rem.take iL).filterMap headingText? := headsOf_dropTrailingBlanks (rem.take iL)
  have haft : (dropLeadingBlanks (rem.drop iL)).filterMap headingText? =
      (rem.drop iL).filterMap headingText? := headsOf_dropLeadingBlanks (rem.drop iL)
  rw [hout0, hsep, hnl]
  by_cases hB : dropTrailingBlanks (rem.take iL) = []
  · have hnilB : (rem.take iL).filterMap headingText? = [] := by
      rw [← hbef, hB]
      rfl
    by_cases hA : dropLeadingBlanks (rem.drop iL) = []
    · have hnilA : (rem.drop iL).filterMap headingText? = [] := by
        rw [← haft, hA]
        rfl
      rw [if_pos hB, if_pos hA]
      simp only [List.nil_append, List.append_nil]
      rw [splitLines_joinSep_nl _ (by simp)]
      simp only [List.map_cons, List.map_nil, List.flatten_cons, List.flatten_nil,
        List.append_nil, List.append_assoc, List.singleton_append, List.cons_append,
        List.nil_append]
      simp only [headsOf, List.filterMap_append, List.filterMap_cons, hfm, hhnl,
        List.append_nil, List.nil_append]
      rw [filterMap_splitLines_joinLines payload hpayNL, hnilB, hnilA]
      simp
    · rw [if_pos hB, if_neg hA]
      simp only [List.nil_append]
      rw [splitLines_joinSep_nl _ (by simp)]
      simp only [List.map_cons, List.map_nil, List.flatten_cons, List.flatten_nil,
        List.append_nil, List.append_assoc, List.singleton_append, List.cons_append,
        List.nil_append]
      simp only [headsOf, List.filterMap_append, List.filterMap_cons, hfm, hhnl,
        List.append_nil, List.nil_append]
      rw [filterMap_splitLines_joinLines payload hpayNL,
        filterMap_splitLines_joinLines _ haftNL, haft, hnilB]
      simp
  · by_cases hA : dropLeadingBlanks (rem.drop iL) = []
    · have hnilA : (rem.drop iL).filterMap headingText? = [] := by
        rw [← haft, hA]
        rfl
      rw [if_neg hB, if_pos hA]
      simp only [List.append_nil]
      rw [splitLines_joinSep_nl _ (by simp)]
      simp only [List.map_cons, List.map_nil, List.flatten_cons, List.flatten_nil,
        List.append_nil, List.append_assoc, List.singleton_append, List.cons_append,
        List.nil_append]
      simp only [headsOf, List.filterMap_append, List.filterMap_cons, hfm, hhnl,
        List.append_nil, List.nil_append]
      rw [filterMap_splitLines_joinLines _ hbefNL, hbef,
        filterMap_splitLines_joinLines payload hpayNL, hnilA]
      simp
    · rw [if_neg hB, if_neg hA]
      rw [splitLines_joinSep_nl _ (by simp)]
      simp only [List.map_cons, List.map_nil, List.flatten_cons, List.flatten_nil,
        List.append_nil, List.append_assoc, List.singleton_append, List.cons_append,
        List.nil_append]
      simp only [headsOf, List.filterMap_append, List.filterMap_cons, hfm, hhnl,
        List.append_nil, List.nil_append]
      rw [filterMap_splitLines_joinLines _ hbefNL, hbef,
        filterMap_splitLines_joinLines payload hpayNL,
        filterMap_splitLines_joinLines _ haftNL, haft]

/-- Heads of the part assembly used by `moveSection` (which tests `after`'s
emptiness before dropping its leading blanks). -/
theorem moveSection_parts_heads (rem payload : List Str) (iL : Nat)
    (hremNL : ∀ l ∈ rem, '\n' ∉ l) (hpayNL : ∀ l ∈ payload, '\n' ∉ l) :
    headsOf (splitLines (joinSep "\n\n".data
      ((if dropTrailingBlanks (rem.take iL) = [] then []
        else [joinLines (dropTrailingBlanks (rem.take iL))]) ++
       [joinLines payload] ++
       (if rem.drop iL = [] then []
        else [joinLines (dropLeadingBlanks (rem.drop iL))])) ++ "\n".data)) =
      headsOf (rem.take iL) ++ headsOf payload ++ headsOf (rem.drop iL) := by
  have hfm : List.filterMap headingText? [([] : Str)] = [] := rfl
  have hhnl : headingText? ([] : Str) = none := rfl
  have hbefNL : ∀ l ∈ dropTrailingBlanks (rem.take iL), '\n' ∉ l := fun l hl =>
    hremNL l ((List.take_sublist iL rem).subset (mem_dropTrailingBlanks _ _ hl))
  have haftNL : ∀ l ∈ dropLeadingBlanks (rem.drop iL), '\n' ∉ l := fun l hl =>
    hremNL l ((List.drop_sublist iL rem).subset ((List.dropWhile_sublist _).subset hl))
  have hsep : ("\n\n".data : Str) = ['\n', '\n'] := rfl
  have hnl : ("\n".data : Str) = ['\n'] := rfl
  have hbef : (dropTrailingBlanks (rem.take iL)).filterMap headingText? =
      (rem.take iL).filterMap headingText? := headsOf_dropTrailingBlanks (rem.take iL)
  have haft : (dropLeadingBlanks (rem.drop iL)).filterMap headingText? =
      (rem.drop iL).filterMap headingText? := headsOf_dropLeadingBlanks (rem.drop iL)
  rw [hsep, hnl]
  by_cases hB : dropTrailingBlanks (rem.take iL) = []
  · have hnilB : (rem.take iL).filterMap headingText? = [] := by
      rw [← hbef, hB]
      rfl
    by_cases hA : rem.drop iL = []
    · rw [if_pos hB, if_pos hA]
      simp only [List.nil_append, List.append_nil]
      rw [splitLines_joinSep_nl _ (by simp)]
      simp only [List.map_cons, List.map_nil, List.flatten_cons, List.flatten_nil,
        List.append_nil, List.append_assoc, List.singleton_append, List.cons_append,
        List.nil_append]
      simp only [headsOf, List.filterMap_append, List.filterMap_cons, hfm, hhnl,
        List.append_nil, List.nil_append]
      rw [filterMap_splitLines_joinLines payload hpayNL, hnilB, hA]
      simp
    · rw [if_pos hB, if_neg hA]
      simp only [List.nil_append]
      rw [splitLines_joinSep_nl _ (by simp)]
      simp only [List.map_cons, List.map_nil, List.flatten_cons, List.flatten_nil,
        List.append_nil, List.append_assoc, List.singleton_append, List.cons_append,
        List.nil_append]
      simp only [headsOf, List.filterMap_append, List.filterMap_cons, hfm, hhnl,
        List.append_nil, List.nil_append]
      rw [filterMap_splitLines_joinLines payload hpayNL,
        filterMap_splitLines_joinLines _ haftNL, haft, hnilB]
      simp
  · by_cases hA : rem.drop iL = []
    · rw [if_neg hB, if_pos hA]
      simp only [List.append_nil]
      rw [splitLines_joinSep_nl _ (by simp)]
      simp only [List.map_cons, List.map_nil, List.flatten_cons, List.flatten_nil,
        List.append_nil, List.append_assoc, List.singleton_append, List.cons_append,
        List.nil_append]
      simp only [headsOf, List.filterMap_append, List.filterMap_cons, hfm, hhnl,
        List.append_nil, List.nil_append]
      rw [filterMap_splitLines_joinLines _ hbefNL, hbef,
        filterMap_splitLines_joinLines payload hpayNL, hA]
      simp
    · rw [if_neg hB, if_neg hA]
      rw [splitLines_joinSep_nl _ (by simp)]
      simp only [List.map_cons, List.map_nil, List.flatten_cons, List.flatten_nil,
        List.append_nil, List.append_assoc, List.singleton_append, List.cons_append,
        List.nil_append]
      simp only [headsOf, List.filterMap_append, List.filterMap_cons, hfm, hhnl,
        List.append_nil, List.nil_append]
      rw [filterMap_splitLines_joinLines _ hbefNL, hbef,
        filterMap_splitLines_joinLines payload hpayNL,
        filterMap_splitLines_joinLines _ haftNL, haft]

theorem parseSections_heads (pin c : Str) :
    (parseSections pin c).map (fun s => s.heading) = headsOf (splitLines c) := by
  have h1 := congrArg (List.map (fun t : Str × Nat × Bool => t.1))
    (parseSections_triples pin c)
  rw [List.map_map] at h1
  rw [docTriples, headTriples_fst] at h1
  exact h1

theorem sections_flag (pin c : Str) :
    ∀ s ∈ parseSections pin c, s.pinned = (jsTrim s.heading == pin) := by
  intro s hs
  have hm : (s.heading, s.startLine, s.pinned) ∈ docTriples pin c := by
    rw [← parseSections_triples pin c]
    exact List.mem_map_of_mem _ hs
  simpa using headTriples_flag pin (splitLines c) 0 _ hm

/-- The section-level "last section exists and is pinned" is equivalent to the
heads-level "the last heading trims to the pinned name". -/
theorem sections_last_of_M (pin out : Str)
    (hM : ((headsOf (splitLines out)).map jsTrim).getLast? = some pin) :
    ∃ s, (parseSections pin out).getLast? = some s ∧ s.pinned = true ∧
      jsTrim s.heading = pin := by
  rw [← parseSections_heads, List.map_map, List.getLast?_map] at hM
  cases hs : (parseSections pin out).getLast? with
  | none =>
    rw [hs] at hM
    exact Option.noConfusion hM
  | some s =>
    rw [hs] at hM
    simp only [Option.map_some'] at hM
    injection hM with htrim
    simp only [Function.comp] at htrim
    refine ⟨s, rfl, ?_, htrim⟩
    rw [sections_flag pin out s (List.mem_of_getLast?_eq_some hs)]
    simp [htrim]

theorem M_of_sections_last (pin c : Str) (s0 : Section)
    (hs : (parseSections pin c).getLast? = some s0) (hp : s0.pinned = true) :
    ((headsOf (splitLines c)).map jsTrim).getLast? = some pin := by
  have hflag := sections_flag pin c s0 (List.mem_of_getLast?_eq_some hs)
  rw [hp] at hflag
  have htrim : jsTrim s0.heading = pin := by
    have h2 := hflag.symm
    simpa using h2
  rw [← parseSections_heads, List.map_map, List.getLast?_map, hs]
  simp [htrim]

theorem headTriples_mem_of_head (pin : Str) :
    ∀ (ls : List Str) (i : Nat) (h : Str), h ∈ ls.filterMap headingText? →
      ∃ j, (h, j, (jsTrim h == pin)) ∈ headTriples pin ls i := by
  intro ls
  induction ls with
  | nil =>
    intro i h hh
    simp at hh
  | cons l rest ih =>
    intro i h hh
    rw [List.filterMap_cons] at hh
    cases hl : headingText? l with
    | none =>
      rw [hl] at hh
      obtain ⟨j, hj⟩ := ih (i + 1) h hh
      refine ⟨j, ?_⟩
      simp only [headTriples, hl]
      exact hj
    | some h0 =>
      rw [hl] at hh
      rcases List.mem_cons.mp hh with he | he
      · subst he
        refine ⟨i, ?_⟩
        simp [headTriples, hl]
      · obtain ⟨j, hj⟩ := ih (i + 1) h he
        refine ⟨j, ?_⟩
        simp only [headTriples, hl]
        exact List.mem_cons_of_mem _ hj

theorem exists_pinned_section (pin c : Str)
    (h : Str) (hmem : h ∈ headsOf (splitLines c)) (htrim : jsTrim h = pin) :
    ∃ s ∈ parseSections pin c, s.pinned = true := by
  obtain ⟨j, hj⟩ := headTriples_mem_of_head pin (splitLines c) 0 h hmem
  have hj2 : (h, j, (jsTrim h == pin)) ∈ docTriples pin c := hj
  rw [← parseSections_triples, List.mem_map] at hj2
  obtain ⟨s, hsmem, heq⟩ := hj2
  refine ⟨s, hsmem, ?_⟩
  have h3 := congrArg (fun t : Str × Nat × Bool => t.2.2) heq
  simp only at h3
  rw [h3, htrim]
  simp

theorem lastPin_removeSection (pin content : Str) (i : Int) (out : Str)
    (hW : ∀ l ∈ splitLines content, ∀ h, headingText? l = some h → jsTrim h ≠ [])
    (hM : ((headsOf (splitLines content)).map jsTrim).getLast? = some pin)
    (h : removeSection pin content i = OpResult.commit out) :
    ((headsOf (splitLines out)).map jsTrim).getLast? = some pin := by
  simp only [removeSection] at h
  split at h
  · exact OpResult.noConfusion h
  split at h
  · exact OpResult.noConfusion h
  next sec hgf =>
  injection h with hout
  subst hout
  have hremNL := noNL_spliceOut (splitLines content) sec.startLine sec.endLine
    (noNL_splitLines content)
  have hWrem : ∀ l ∈ spliceOut (splitLines content) sec.startLine sec.endLine,
      ∀ h2, headingText? l = some h2 → jsTrim h2 ≠ [] := fun l hl =>
    hW l (by
      rcases List.mem_append.mp hl with h1 | h1
      · exact (List.take_sublist _ _).subset h1
      · exact (List.drop_sublist _ _).subset h1)
  rw [heads_postprocess _ hremNL hWrem]
  have hsecmem0 := getI?_mem _ i sec hgf
  have hsecmem : sec ∈ parseSections pin content := List.mem_of_mem_filter hsecmem0
  have hnp : sec.pinned = false := by
    have h2 := List.of_mem_filter hsecmem0
    simpa using h2
  have hflag := sections_flag pin content sec hsecmem
  rw [hnp] at hflag
  have htr : jsTrim sec.heading ≠ pin := by
    intro hc
    rw [hc] at hflag
    simp at hflag
  refine lastPin_splice pin (splitLines content) sec.startLine sec.endLine ?_ hM
  intro m hm
  simp only [headsOf] at hm
  rw [heads_slice_single pin content sec hsecmem] at hm
  simp only [List.map_cons, List.map_nil, List.mem_singleton] at hm
  rw [hm]
  exact htr

theorem lastPin_removeBlock (pin content : Str) (i : Int) (out : Str)
    (hW : ∀ l ∈ splitLines content, ∀ h, headingText? l = some h → jsTrim h ≠ [])
    (hM : ((headsOf (splitLines content)).map jsTrim).getLast? = some pin)
    (h : removeBlock pin content i = OpResult.commit out) :
    ((headsOf (splitLines out)).map jsTrim).getLast? = some pin := by
  simp only [removeBlock] at h
  split at h
  · exact OpResult.noConfusion h
  split at h
  · exact OpResult.noConfusion h
  next block hgf =>
  injection h with hout
  subst hout
  have hremNL := noNL_spliceOut (splitLines content) block.startLine block.endLine
    (noNL_splitLines content)
  have hWrem : ∀ l ∈ spliceOut (splitLines content) block.startLine block.endLine,
      ∀ h2, headingText? l = some h2 → jsTrim h2 ≠ [] := fun l hl =>
    hW l (by
      rcases List.mem_append.mp hl with h1 | h1
      · exact (List.take_sublist _ _).subset h1
      · exact (List.drop_sublist _ _).subset h1)
  rw [heads_postprocess _ hremNL hWrem]
  obtain ⟨h1all, hch, h3, h4, h5⟩ := parseBlocks_spec pin content
  have hmem : block ∈ parseBlocks pin content := getI?_mem _ i block hgf
  obtain ⟨hge0, hlt, hle⟩ := h1all block hmem
  have hEP' : effectiveEnd pin (splitLines content) ≤
      firstIdxP (isPinnedHead pin) (splitLines content) :=
    effectiveEnd_le_pinned pin (splitLines content)
  have hPlen : firstIdxP (isPinnedHead pin) (splitLines content) ≤
      (splitLines content).length :=
    findPinnedStart_le pin (splitLines content)
  refine lastPin_splice pin (splitLines content) block.startLine block.endLine ?_ hM
  refine trimmedHeads_ne_pin pin _ ?_
  have hall := slice_all (splitLines content) (fun x => !isPinnedHead pin x)
    block.endLine block.startLine block.endLine (by omega) (by omega)
    (fun k hk1 hk2 => by
      show (!isPinnedHead pin ((splitLines content).getD k [])) = true
      rw [Bool.not_eq_true']
      exact firstIdxP_lt _ _ k (by omega))
  intro l hl
  have h6 := hall l hl
  simp only [Bool.not_eq_true'] at h6
  exact h6

theorem lastPin_moveBlock (pin content : Str) (f t : Int) (out : Str)
    (hM : ((headsOf (splitLines content)).map jsTrim).getLast? = some pin)
    (h : moveBlock pin content f t = OpResult.commit out) :
    ((headsOf (splitLines out)).map jsTrim).getLast? = some pin := by
  simp only [moveBlock] at h
  split at h
  · exact OpResult.noConfusion h
  split at h
  · exact OpResult.noConfusion h
  split at h
  · exact OpResult.noConfusion h
  next block hgf =>
  split at h
  · exact OpResult.noConfusion h
  next iL hiL =>
  injection h with hout
  subst hout
  obtain ⟨h1all, hch, h3, h4, h5⟩ := parseBlocks_spec pin content
  have hmem : block ∈ parseBlocks pin content := getI?_mem _ f block hgf
  obtain ⟨hge0, hlt, hle⟩ := h1all block hmem
  have hEP' : effectiveEnd pin (splitLines content) ≤
      firstIdxP (isPinnedHead pin) (splitLines content) :=
    effectiveEnd_le_pinned pin (splitLines content)
  have hPlen : firstIdxP (isPinnedHead pin) (splitLines content) ≤
      (splitLines content).length :=
    findPinnedStart_le pin (splitLines content)
  have hremNL : ∀ l ∈ spliceOut (splitLines content) block.startLine block.endLine,
      '\n' ∉ l :=
    noNL_spliceOut _ _ _ (noNL_splitLines content)
  have hsliceNL : ∀ l ∈ sliceLines (splitLines content) block.startLine block.endLine,
      '\n' ∉ l := by
    intro l hl
    exact noNL_splitLines content l
      ((List.drop_sublist _ _).subset ((List.take_sublist _ _).subset hl))
  have hpayNL : ∀ l ∈ dropTrailingBlanks
      (sliceLines (splitLines content) block.startLine block.endLine), '\n' ∉ l :=
    fun l hl => hsliceNL l (mem_dropTrailingBlanks _ _ hl)
  rw [reassemble_heads _ _ iL hremNL hpayNL]
  have hMrem : ((headsOf (spliceOut (splitLines content) block.startLine
      block.endLine)).map jsTrim).getLast? = some pin := by
    refine lastPin_splice pin (splitLines content) block.startLine block.endLine ?_ hM
    refine trimmedHeads_ne_pin pin _ ?_
    have hall := slice_all (splitLines content) (fun x => !isPinnedHead pin x)
      block.endLine block.startLine block.endLine (by omega) (by omega)
      (fun k hk1 hk2 => by
        show (!isPinnedHead pin ((splitLines content).getD k [])) = true
        rw [Bool.not_eq_true']
        exact firstIdxP_lt _ _ k (by omega))
    intro l hl
    have h6 := hall l hl
    simp only [Bool.not_eq_true'] at h6
    exact h6
  have hpreP : ∀ l ∈ (spliceOut (splitLines content) block.startLine
      block.endLine).take iL, isPinnedHead pin l = false := by
    by_cases hrem0 : spliceOut (splitLines content) block.startLine block.endLine = []
    · rw [hrem0]
      intro l hl
      simp at hl
    · have hIL : iL ≤ firstIdxP (isPinnedHead pin)
          (spliceOut (splitLines content) block.startLine block.endLine) := by
        split at hiL
        · have h2 : insertAtEndPos pin (splitLines (joinLines
              (spliceOut (splitLines content) block.startLine block.endLine))) = iL := by
            injection hiL
          rw [← h2, split_join _ hrem0 hremNL]
          exact insertAtEndPos_le pin _
        · rw [Option.map_eq_some'] at hiL
          obtain ⟨b', hb', hbeq⟩ := hiL
          have hmem' : b' ∈ parseBlocks pin (joinLines
              (spliceOut (splitLines content) block.startLine block.endLine)) :=
            getI?_mem _ t b' hb'
          obtain ⟨spec1, spec2, spec3, spec4, spec5⟩ := parseBlocks_spec pin (joinLines
            (spliceOut (splitLines content) block.startLine block.endLine))
          obtain ⟨hge0', hlt', hle'⟩ := spec1 b' hmem'
          have hEP2 : effectiveEnd pin (splitLines (joinLines
                (spliceOut (splitLines content) block.startLine block.endLine))) ≤
              firstIdxP (isPinnedHead pin) (splitLines (joinLines
                (spliceOut (splitLines content) block.startLine block.endLine))) :=
            effectiveEnd_le_pinned pin _
          rw [split_join _ hrem0 hremNL] at hle' hEP2
          omega
      exact take_le_firstIdxP_all _ _ _ hIL
  have hne := drop_heads_ne_nil pin _ iL hpreP hMrem
  have hMdrop := lastPin_of_drop_heads pin _ iL hne hMrem
  have hne2 : (headsOf ((spliceOut (splitLines content) block.startLine
      block.endLine).drop iL)).map jsTrim ≠ [] := by
    simpa using hne
  rw [List.map_append, List.map_append, List.append_assoc]
  rw [getLast?_append_right _ _ (by
    intro hc
    rw [List.append_eq_nil] at hc
    exact hne2 hc.2)]
  rw [getLast?_append_right _ _ hne2]
  exact hMdrop

theorem lastPin_moveBlockGroup (pin content : Str) (fis : List Int) (t : Int) (out : Str)
    (hM : ((headsOf (splitLines content)).map jsTrim).getLast? = some pin)
    (h : moveBlockGroup pin content fis t = OpResult.commit out) :
    ((headsOf (splitLines out)).map jsTrim).getLast? = some pin := by
  simp only [moveBlockGroup] at h
  split at h
  · exact OpResult.noConfusion h
  split at h
  · exact OpResult.noConfusion h
  split at h
  case _ firstB lastB hgf hgl =>
    split at h
    · exact OpResult.noConfusion h
    next iL hiL =>
    injection h with hout
    subst hout
    obtain ⟨h1all, hch, h3, h4, h5⟩ := parseBlocks_spec pin content
    have hmem : lastB ∈ parseBlocks pin content := getI?_mem _ _ lastB hgl
    obtain ⟨hge0, hlt, hle⟩ := h1all lastB hmem
    have hEP' : effectiveEnd pin (splitLines content) ≤
        firstIdxP (isPinnedHead pin) (splitLines content) :=
      effectiveEnd_le_pinned pin (splitLines content)
    have hPlen : firstIdxP (isPinnedHead pin) (splitLines content) ≤
        (splitLines content).length :=
      findPinnedStart_le pin (splitLines content)
    have hremNL : ∀ l ∈ spliceOut (splitLines content) firstB.startLine lastB.endLine,
        '\n' ∉ l :=
      noNL_spliceOut _ _ _ (noNL_splitLines content)
    have hsliceNL : ∀ l ∈ sliceLines (splitLines content) firstB.startLine lastB.endLine,
        '\n' ∉ l := by
      intro l hl
      exact noNL_splitLines content l
        ((List.drop_sublist _ _).subset ((List.take_sublist _ _).subset hl))
    have hpayNL : ∀ l ∈ dropTrailingBlanks
        (sliceLines (splitLines content) firstB.startLine lastB.endLine), '\n' ∉ l :=
      fun l hl => hsliceNL l (mem_dropTrailingBlanks _ _ hl)
    rw [reassemble_heads _ _ iL hremNL hpayNL]
    have hMrem : ((headsOf (spliceOut (splitLines content) firstB.startLine
        lastB.endLine)).map jsTrim).getLast? = some pin := by
      refine lastPin_splice pin (splitLines content) firstB.startLine lastB.endLine ?_ hM
      refine trimmedHeads_ne_pin pin _ ?_
      have hall := slice_all (splitLines content) (fun x => !isPinnedHead pin x)
        lastB.endLine firstB.startLine lastB.endLine (by omega) (by omega)
        (fun k hk1 hk2 => by
          show (!isPinnedHead pin ((splitLines content).getD k [])) = true
          rw [Bool.not_eq_true']
          exact firstIdxP_lt _ _ k (by omega))
      intro l hl
      have h6 := hall l hl
      simp only [Bool.not_eq_true'] at h6
      exact h6
    have hpreP : ∀ l ∈ (spliceOut (splitLines content) firstB.startLine
        lastB.endLine).take iL, isPinnedHead pin l = false := by
      by_cases hrem0 : spliceOut (splitLines content) firstB.startLine lastB.endLine = []
      · rw [hrem0]
        intro l hl
        simp at hl
      · have hIL : iL ≤ firstIdxP (isPinnedHead pin)
            (spliceOut (splitLines content) firstB.startLine lastB.endLine) := by
          split at hiL
          · have h2 : insertAtEndPos pin (splitLines (joinLines
                (spliceOut (splitLines content) firstB.startLine lastB.endLine))) = iL := by
              injection hiL
            rw [← h2, split_join _ hrem0 hremNL]
            exact insertAtEndPos_le pin _
          · rw [Option.map_eq_some'] at hiL
            obtain ⟨b', hb', hbeq⟩ := hiL
            have hmem' : b' ∈ parseBlocks pin (joinLines
                (spliceOut (splitLines content) firstB.startLine lastB.endLine)) :=
              getI?_mem _ t b' hb'
            obtain ⟨spec1, spec2, spec3, spec4, spec5⟩ := parseBlocks_spec pin (joinLines
              (spliceOut (splitLines content) firstB.startLine lastB.endLine))
            obtain ⟨hge0', hlt', hle'⟩ := spec1 b' hmem'
            have hEP2 : effectiveEnd pin (splitLines (joinLines
                  (spliceOut (splitLines content) firstB.startLine lastB.endLine))) ≤
                firstIdxP (isPinnedHead pin) (splitLines (joinLines
                  (spliceOut (splitLines content) firstB.startLine lastB.endLine))) :=
              effectiveEnd_le_pinned pin _
            rw [split_join _ hrem0 hremNL] at hle' hEP2
            omega
        exact take_le_firstIdxP_all _ _ _ hIL
    have hne := drop_heads_ne_nil pin _ iL hpreP hMrem
    have hMdrop := lastPin_of_drop_heads pin _ iL hne hMrem
    have hne2 : (headsOf ((spliceOut (splitLines content) firstB.startLine
        lastB.endLine).drop iL)).map jsTrim ≠ [] := by
      simpa using hne
    rw [List.map_append, List.map_append, List.append_assoc]
    rw [getLast?_append_right _ _ (by
      intro hc
      rw [List.append_eq_nil] at hc
      exact hne2 hc.2)]
    rw [getLast?_append_right _ _ hne2]
    exact hMdrop
  case _ hno =>
    exact OpResult.noConfusion h

theorem heads_drop_ne_nil_at (X : List Str) (j : Nat) (hj : j < X.length)
    (h : Str) (hh : headingText? (X.getD j []) = some h) :
    headsOf (X.drop j) ≠ [] := by
  have hdne : X.drop j ≠ [] := by
    intro hc
    have h2 := congrArg List.length hc
    simp only [List.length_drop, List.length_nil] at h2
    omega
  have hmem : (X.drop j).headD [] ∈ X.drop j := headD_mem _ _ hdne
  rw [← getD_eq_headD_drop] at hmem
  exact headsOf_ne_nil _ _ hmem h hh

theorem lastPin_moveSection (pin content : Str) (f t : Int) (out : Str)
    (hM : ((headsOf (splitLines content)).map jsTrim).getLast? = some pin)
    (h : moveSection pin content f t = OpResult.commit out) :
    ((headsOf (splitLines out)).map jsTrim).getLast? = some pin := by
  simp only [moveSection] at h
  split at h
  · exact OpResult.noConfusion h
  split at h
  · exact OpResult.noConfusion h
  split at h
  · exact OpResult.noConfusion h
  next sec hgf =>
  split at h
  · exact OpResult.noConfusion h
  next iL hiL =>
  injection h with hout
  subst hout
  have hsecmem0 := getI?_mem _ f sec hgf
  have hsecmem : sec ∈ parseSections pin content := List.mem_of_mem_filter hsecmem0
  have hnp : sec.pinned = false := by
    have h2 := List.of_mem_filter hsecmem0
    simpa using h2
  have hflag := sections_flag pin content sec hsecmem
  rw [hnp] at hflag
  have htr : jsTrim sec.heading ≠ pin := by
    intro hc
    rw [hc] at hflag
    simp at hflag
  have hremNL : ∀ l ∈ spliceOut (splitLines content) sec.startLine sec.endLine,
      '\n' ∉ l :=
    noNL_spliceOut _ _ _ (noNL_splitLines content)
  have hsliceNL : ∀ l ∈ sliceLines (splitLines content) sec.startLine sec.endLine,
      '\n' ∉ l := by
    intro l hl
    exact noNL_splitLines content l
      ((List.drop_sublist _ _).subset ((List.take_sublist _ _).subset hl))
  have hpayNL : ∀ l ∈ dropTrailingBlanks
      (sliceLines (splitLines content) sec.startLine sec.endLine), '\n' ∉ l :=
    fun l hl => hsliceNL l (mem_dropTrailingBlanks _ _ hl)
  rw [moveSection_parts_heads _ _ iL hremNL hpayNL]
  have hMrem : ((headsOf (spliceOut (splitLines content) sec.startLine
      sec.endLine)).map jsTrim).getLast? = some pin := by
    refine lastPin_splice pin (splitLines content) sec.startLine sec.endLine ?_ hM
    intro m hm
    simp only [headsOf] at hm
    rw [heads_slice_single pin content sec hsecmem] at hm
    simp only [List.map_cons, List.map_nil, List.mem_singleton] at hm
    rw [hm]
    exact htr
  have hrem_ne : spliceOut (splitLines content) sec.startLine sec.endLine ≠ [] := by
    intro hc
    rw [hc] at hMrem
    simp [headsOf] at hMrem
  have hne : headsOf ((spliceOut (splitLines content) sec.startLine
      sec.endLine).drop iL) ≠ [] := by
    split at hiL
    · split at hiL
      · next p hfind =>
        have hIL : p.startLine = iL := by
          injection hiL
        have hpmem : p ∈ parseSections pin (joinLines
            (spliceOut (splitLines content) sec.startLine sec.endLine)) :=
          List.mem_of_find?_eq_some hfind
        obtain ⟨hh, hlt2, hle2, hint2⟩ := parseSections_ranges pin _ p hpmem
        rw [split_join _ hrem_ne hremNL] at hh hle2
        rw [← hIL]
        exact heads_drop_ne_nil_at _ p.startLine (by omega) p.heading hh
      · next hfind =>
        exfalso
        have hpinmem : pin ∈ (headsOf (spliceOut (splitLines content) sec.startLine
            sec.endLine)).map jsTrim :=
          List.mem_of_getLast?_eq_some hMrem
        rw [List.mem_map] at hpinmem
        obtain ⟨hh0, hh0mem, htrim0⟩ := hpinmem
        obtain ⟨s, hsmem, hspin⟩ := exists_pinned_section pin
          (joinLines (spliceOut (splitLines content) sec.startLine sec.endLine)) hh0
          (by
            rw [split_join _ hrem_ne hremNL]
            exact hh0mem) htrim0
        have hnofind := List.find?_eq_none.mp hfind s hsmem
        exact hnofind hspin
    · rw [Option.map_eq_some'] at hiL
      obtain ⟨s', hs', hseq⟩ := hiL
      have hs'mem : s' ∈ parseSections pin (joinLines
          (spliceOut (splitLines content) sec.startLine sec.endLine)) :=
        List.mem_of_mem_filter (getI?_mem _ t s' hs')
      obtain ⟨hh, hlt2, hle2, hint2⟩ := parseSections_ranges pin _ s' hs'mem
      rw [split_join _ hrem_ne hremNL] at hh hle2
      rw [← hseq]
      exact heads_drop_ne_nil_at _ s'.startLine (by omega) s'.heading hh
  have hMdrop := lastPin_of_drop_heads pin _ iL hne hMrem
  have hne2 : (headsOf ((spliceOut (splitLines content) sec.startLine
      sec.endLine).drop iL)).map jsTrim ≠ [] := by
    simpa using hne
  rw [List.map_append, List.map_append, List.append_assoc]
  rw [getLast?_append_right _ _ (by
    intro hc
    rw [List.append_eq_nil] at hc
    exact hne2 hc.2)]
  rw [getLast?_append_right _ _ hne2]
  exact hMdrop

theorem headingText?_quote (r : Str) : headingText? ('>' :: r) = none := rfl

theorem headingText?_space (r : Str) : headingText? (' ' :: r) = none := rfl

theorem headingText?_dash (r : Str) : headingText? ('-' :: r) = none := rfl

theorem M_jsTrimEnd_join (X : List Str) (hNL : ∀ l ∈ X, '\n' ∉ l)
    (hW : ∀ l ∈ X, ∀ h, headingText? l = some h → jsTrim h ≠ []) :
    ((splitLines (jsTrimEnd (joinLines X))).filterMap headingText?).map jsTrim =
      (X.filterMap headingText?).map jsTrim := by
  by_cases hX : X = []
  · subst hX
    rfl
  · rw [splitLines_jsTrimEnd]
    rw [heads_trim_trimEndLines _ (by
      rw [split_join X hX hNL]
      exact hW)]
    rw [split_join X hX hNL]

theorem mem_splitLines_join_append (X : List Str) (hNL : ∀ l ∈ X, '\n' ∉ l)
    (S : Str) (hS : '\n' ∉ S) :
    ∀ l ∈ splitLines (joinLines X ++ S), l ∈ X ∨ (∃ x ∈ X, l = x ++ S) ∨ l = S := by
  induction X with
  | nil =>
    intro l hl
    have h1 : joinLines ([] : List Str) = [] := rfl
    rw [h1, List.nil_append, splitLines_noNL S hS] at hl
    simp only [List.mem_singleton] at hl
    exact Or.inr (Or.inr hl)
  | cons x rest ih =>
    intro l hl
    cases rest with
    | nil =>
      have h1 : joinLines [x] = x := rfl
      rw [h1, splitLines_noNL (x ++ S) (by
        intro hc
        rcases List.mem_append.mp hc with hc1 | hc2
        · exact hNL x (List.mem_cons_self x []) hc1
        · exact hS hc2)] at hl
      simp only [List.mem_singleton] at hl
      exact Or.inr (Or.inl ⟨x, List.mem_cons_self x [], hl⟩)
    | cons m tt =>
      rw [joinLines_cons x (m :: tt) (by simp), List.append_assoc, List.cons_append,
        splitLines_append, splitLines_noNL x (hNL x (List.mem_cons_self x (m :: tt)))]
        at hl
      rcases List.mem_append.mp hl with hc1 | hc2
      · simp only [List.mem_singleton] at hc1
        exact Or.inl (by rw [hc1]; exact List.mem_cons_self x (m :: tt))
      · rcases ih (fun y hy => hNL y (List.mem_cons_of_mem x hy)) l hc2 with
          h1 | ⟨y, hy, he⟩ | h1
        · exact Or.inl (List.mem_cons_of_mem x h1)
        · exact Or.inr (Or.inl ⟨y, List.mem_cons_of_mem x hy, he⟩)
        · exact Or.inr (Or.inr h1)

theorem lastPin_addNote (pin content sourceContent basename : Str)
    (hb : '\n' ∉ basename)
    (hW : ∀ l ∈ splitLines content, ∀ h, headingText? l = some h → jsTrim h ≠ [])
    (hM : ((headsOf (splitLines content)).map jsTrim).getLast? = some pin) :
    ((headsOf (splitLines (addNoteToProject pin content sourceContent
      basename))).map jsTrim).getLast? = some pin := by
  have hpinmem : pin ∈ (headsOf (splitLines content)).map jsTrim :=
    List.mem_of_getLast?_eq_some hM
  rw [List.mem_map] at hpinmem
  obtain ⟨hh0, hh0mem, htrim0⟩ := hpinmem
  obtain ⟨s0, hs0mem, hs0pin⟩ := exists_pinned_section pin content hh0 hh0mem htrim0
  cases hfind : (parseSections pin content).find? (fun s => s.pinned) with
  | none =>
    have h2 := List.find?_eq_none.mp hfind s0 hs0mem
    exact absurd hs0pin (by simpa using h2)
  | some ss =>
  have hssmem : ss ∈ parseSections pin content := List.mem_of_find?_eq_some hfind
  obtain ⟨hhss, hltss, hless, hintss⟩ := parseSections_ranges pin content ss hssmem
  simp only [addNoteToProject, hfind]
  have hQLNL : ∀ l ∈ (splitLines sourceContent).map (fun l => "> ".data ++ l),
      '\n' ∉ l := by
    intro l hl
    rw [List.mem_map] at hl
    obtain ⟨y, hy, he⟩ := hl
    subst he
    intro hc
    rcases List.mem_append.mp hc with hc1 | hc2
    · simp at hc1
    · exact noNL_splitLines sourceContent y hy hc2
  have hS1NL : '\n' ∉ ("  [[".data ++ basename ++ "|*]]".data : Str) := by
    intro hc
    rcases List.mem_append.mp hc with hc1 | hc2
    · rcases List.mem_append.mp hc1 with hc3 | hc4
      · exact absurd hc3 (by decide)
      · exact hb hc4
    · exact absurd hc2 (by decide)
  have hLLNL : '\n' ∉ ("- [[".data ++ basename ++ "]]".data : Str) := by
    intro hc
    rcases List.mem_append.mp hc with hc1 | hc2
    · rcases List.mem_append.mp hc1 with hc3 | hc4
      · exact absurd hc3 (by decide)
      · exact hb hc4
    · exact absurd hc2 (by decide)
  have hre : jsTrimEnd (joinLines ((splitLines content).take ss.startLine)) ++
        "\n\n".data ++
        (joinLines ((splitLines sourceContent).map (fun l => "> ".data ++ l)) ++
          "  [[".data ++ basename ++ "|*]]\n".data) ++ "\n".data ++
        (jsTrimEnd (joinLines ((splitLines content).drop ss.startLine)) ++
          "\n- [[".data ++ basename ++ "]]".data) ++ "\n".data =
      jsTrimEnd (joinLines ((splitLines content).take ss.startLine)) ++
        '\n' :: ('\n' ::
          ((joinLines ((splitLines sourceContent).map (fun l => "> ".data ++ l)) ++
            ("  [[".data ++ basename ++ "|*]]".data)) ++
          '\n' :: ('\n' ::
            (jsTrimEnd (joinLines ((splitLines content).drop ss.startLine)) ++
            '\n' :: (("- [[".data ++ basename ++ "]]".data) ++ ['\n']))))) := by
    have e1 : ("\n\n".data : Str) = ['\n', '\n'] := rfl
    have e2 : ("|*]]\n".data : Str) = "|*]]".data ++ ['\n'] := rfl
    have e3 : ("\n- [[".data : Str) = '\n' :: "- [[".data := rfl
    have e4 : ("\n".data : Str) = ['\n'] := rfl
    rw [e1, e2, e3, e4]
    simp [List.append_assoc]
  rw [hre]
  rw [splitLines_append, splitLines_cons_nl, splitLines_append, splitLines_cons_nl,
    splitLines_append, splitLines_append,
    splitLines_noNL ("- [[".data ++ basename ++ "]]".data) hLLNL]
  have hsn : splitLines ([] : Str) = [[]] := rfl
  rw [hsn]
  have hQS : (splitLines
      (joinLines ((splitLines sourceContent).map (fun l => "> ".data ++ l)) ++
        ("  [[".data ++ basename ++ "|*]]".data))).filterMap headingText? = [] := by
    rw [List.filterMap_eq_nil_iff]
    intro l hl
    rcases mem_splitLines_join_append _ hQLNL _ hS1NL l hl with h1 | ⟨y, hy, he⟩ | h1
    · rw [List.mem_map] at h1
      obtain ⟨z, hz, he2⟩ := h1
      rw [← he2]
      exact headingText?_quote _
    · rw [List.mem_map] at hy
      obtain ⟨z, hz, he2⟩ := hy
      rw [he, ← he2]
      exact headingText?_quote _
    · rw [h1]
      exact headingText?_space _
  have hMTB := M_jsTrimEnd_join ((splitLines content).take ss.startLine)
    (fun l hl => noNL_splitLines content l ((List.take_sublist _ _).subset hl))
    (fun l hl => hW l ((List.take_sublist _ _).subset hl))
  have hMTS := M_jsTrimEnd_join ((splitLines content).drop ss.startLine)
    (fun l hl => noNL_splitLines content l ((List.drop_sublist _ _).subset hl))
    (fun l hl => hW l ((List.drop_sublist _ _).subset hl))
  have hhnl2 : headingText? ([] : Str) = none := rfl
  have hLLhead : headingText? ("- [[".data ++ basename ++ "]]".data) = none := by
    have e5 : ("- [[".data ++ basename ++ "]]".data : Str) =
        '-' :: (" [[".data ++ basename ++ "]]".data) := by
      simp
    rw [e5]
    exact headingText?_dash _
  simp only [headsOf, List.filterMap_append, List.filterMap_cons, hhnl2, hLLhead,
    List.filterMap_nil, List.append_nil, List.nil_append, List.map_append]
  rw [hQS, hMTB, hMTS]
  have hne : headsOf ((splitLines content).drop ss.startLine) ≠ [] :=
    heads_drop_ne_nil_at _ ss.startLine (by omega) ss.heading hhss
  have hMdrop := lastPin_of_drop_heads pin _ ss.startLine hne hM
  have hne2 : (((splitLines content).drop ss.startLine).filterMap headingText?).map
      jsTrim ≠ [] := by
    intro hc
    rw [List.map_eq_nil_iff] at hc
    exact hne hc
  simp only [List.map_nil, List.nil_append, List.append_nil]
  rw [getLast?_append_right _ _ hne2]
  exact hMdrop

/-- C1 counterexample: (i) the claim's hypothesis only requires a pinned
section to exist, but when it is not the last section, removing a block keeps
it non-last, refuting "remains the last top-level section"; (ii) when the
pinned heading carries trailing whitespace and ends the document, removal of
another section rewrites the heading via trimEnd, refuting "identical heading
text". -/
theorem pinned_invariance_cx :
    ((parseSections "Sources".data "a\n## Sources\nx\n## B".data).find?
        (fun s => s.pinned) ≠ none ∧
      removeBlock "Sources".data "a\n## Sources\nx\n## B".data 0 =
        OpResult.commit "## Sources\nx\n## B\n".data ∧
      ((parseSections "Sources".data "## Sources\nx\n## B\n".data).getLast?).map
        (fun s => s.pinned) = some false) ∧
    ((parseSections "Sources".data "## A\nx\n## Sources  ".data).map
        (fun s => s.heading) = ["A".data, "Sources  ".data] ∧
      removeSection "Sources".data "## A\nx\n## Sources  ".data 0 =
        OpResult.commit "## Sources\n".data ∧
      (parseSections "Sources".data "## Sources\n".data).map (fun s => s.heading) =
        ["Sources".data]) := by
  exact ⟨⟨by decide, by decide, by decide⟩, by decide, by decide, by decide⟩

/-- C1, amended: when the document's LAST section is pinned and every heading
has non-whitespace text, each committed move/remove result and every
`addNoteToProject` result (for a newline-free basename) again has a pinned
last section whose trimmed heading equals the configured pinned name — the
heading is preserved up to the trailing-whitespace trim that the remove
operations themselves apply, not byte-identically, and a pinned section that
was not last does not become last. -/
theorem pinned_invariance (pin content : Str)
    (hW : ∀ l ∈ splitLines content, ∀ h, headingText? l = some h → jsTrim h ≠ [])
    (s0 : Section)
    (hlast : (parseSections pin content).getLast? = some s0)
    (hpin0 : s0.pinned = true) :
    (∀ f t out, moveSection pin content f t = OpResult.commit out →
      ∃ s, (parseSections pin out).getLast? = some s ∧ s.pinned = true ∧
        jsTrim s.heading = pin) ∧
    (∀ f t out, moveBlock pin content f t = OpResult.commit out →
      ∃ s, (parseSections pin out).getLast? = some s ∧ s.pinned = true ∧
        jsTrim s.heading = pin) ∧
    (∀ fis t out, moveBlockGroup pin content fis t = OpResult.commit out →
      ∃ s, (parseSections pin out).getLast? = some s ∧ s.pinned = true ∧
        jsTrim s.heading = pin) ∧
    (∀ i out, removeSection pin content i = OpResult.commit out →
      ∃ s, (parseSections pin out).getLast? = some s ∧ s.pinned = true ∧
        jsTrim s.heading = pin) ∧
    (∀ i out, removeBlock pin content i = OpResult.commit out →
      ∃ s, (parseSections pin out).getLast? = some s ∧ s.pinned = true ∧
        jsTrim s.heading = pin) ∧
    (∀ src base, '\n' ∉ base →
      ∃ s, (parseSections pin (addNoteToProject pin content src base)).getLast? =
        some s ∧ s.pinned = true ∧ jsTrim s.heading = pin) := by
  have hM := M_of_sections_last pin content s0 hlast hpin0
  refine ⟨?_, ?_, ?_, ?_, ?_, ?_⟩
  · intro f t out h
    exact sections_last_of_M pin out (lastPin_moveSection pin content f t out hM h)
  · intro f t out h
    exact sections_last_of_M pin out (lastPin_moveBlock pin content f t out hM h)
  · intro fis t out h
    exact sections_last_of_M pin out (lastPin_moveBlockGroup pin content fis t out hM h)
  · intro i out h
    exact sections_last_of_M pin out (lastPin_removeSection pin content i out hW hM h)
  · intro i out h
    exact sections_last_of_M pin out (lastPin_removeBlock pin content i out hW hM h)
  · intro src base hbnl
    exact sections_last_of_M pin _ (lastPin_addNote pin content src base hbnl hW hM)

/-- C1 witness: the amended invariance exercised for all six operations on a
concrete document whose last section is the pinned one. -/
theorem pinned_invariance_witness :
    (parseSections "Sources".data "## A\na\n\n## B\nb\n\n## Sources\nx".data).getLast? =
      some ⟨"Sources".data, 6, 8, true⟩ ∧
    (⟨"Sources".data, 6, 8, true⟩ : Section).pinned = true ∧
    moveSection "Sources".data "## A\na\n\n## B\nb\n\n## Sources\nx".data 0 1 =
      OpResult.commit "## B\nb\n\n## A\na\n\n## Sources\nx\n".data ∧
    (∃ s, (parseSections "Sources".data
        "## B\nb\n\n## A\na\n\n## Sources\nx\n".data).getLast? = some s ∧
      s.pinned = true ∧ jsTrim s.heading = "Sources".data) ∧
    moveBlock "Sources".data "## A\na\n\n## B\nb\n\n## Sources\nx".data 0 1 =
      OpResult.commit "a\n\n## A\n\n## B\nb\n\n## Sources\nx\n".data ∧
    (∃ s, (parseSections "Sources".data
        "a\n\n## A\n\n## B\nb\n\n## Sources\nx\n".data).getLast? = some s ∧
      s.pinned = true ∧ jsTrim s.heading = "Sources".data) ∧
    moveBlockGroup "Sources".data "## A\na\n\n## B\nb\n\n## Sources\nx".data [0, 1] 3 =
      OpResult.commit "\n## B\nb\n\n## A\na\n\n## Sources\nx\n".data ∧
    (∃ s, (parseSections "Sources".data
        "\n## B\nb\n\n## A\na\n\n## Sources\nx\n".data).getLast? = some s ∧
      s.pinned = true ∧ jsTrim s.heading = "Sources".data) ∧
    removeSection "Sources".data "## A\na\n\n## B\nb\n\n## Sources\nx".data 0 =
      OpResult.commit "## B\nb\n\n## Sources\nx\n".data ∧
    (∃ s, (parseSections "Sources".data "## B\nb\n\n## Sources\nx\n".data).getLast? =
        some s ∧ s.pinned = true ∧ jsTrim s.heading = "Sources".data) ∧
    removeBlock "Sources".data "## A\na\n\n## B\nb\n\n## Sources\nx".data 0 =
      OpResult.commit "a\n\n## B\nb\n\n## Sources\nx\n".data ∧
    (∃ s, (parseSections "Sources".data "a\n\n## B\nb\n\n## Sources\nx\n".data).getLast? =
        some s ∧ s.pinned = true ∧ jsTrim s.heading = "Sources".data) ∧
    (∃ s, (parseSections "Sources".data (addNoteToProject "Sources".data
        "## A\na\n\n## B\nb\n\n## Sources\nx".data "s1\ns2".data
        "NoteX".data)).getLast? = some s ∧ s.pinned = true ∧
      jsTrim s.heading = "Sources".data) := by
  have H := pinned_invariance "Sources".data "## A\na\n\n## B\nb\n\n## Sources\nx".data
    (wellHeaded_of_all _ (by decide)) ⟨"Sources".data, 6, 8, true⟩ (by decide)
    (by decide)
  exact ⟨by decide, by decide,
    by decide, H.1 0 1 _ (by decide),
    by decide, H.2.1 0 1 _ (by decide),
    by decide, H.2.2.1 [0, 1] 3 _ (by decide),
    by decide, H.2.2.2.1 0 _ (by decide),
    by decide, H.2.2.2.2.1 0 _ (by decide),
    H.2.2.2.2.2 "s1\ns2".data "NoteX".data (by decide)⟩

/-! ### Claim C9: export markup stripping -/

theorem matchAttrRepl_none_head (c : Char) (r : Str) (hc : ¬c = '[') :
    matchAttrRepl (c :: r) = none := by
  unfold matchAttrRepl
  split
  · next rest heq =>
    injection heq with h1 _
    exact absurd h1 hc
  · rfl

theorem matchAttrRepl_none_second (c : Char) (r : Str) (hc : ¬c = '[') :
    matchAttrRepl ('[' :: c :: r) = none := by
  unfold matchAttrRepl
  split
  · next rest heq =>
    injection heq with _ h2
    injection h2 with h3 _
    exact absurd h3 hc
  · rfl

theorem matchPipedRepl_none_head (c : Char) (r : Str) (hc : ¬c = '[') :
    matchPipedRepl (c :: r) = none := by
  unfold matchPipedRepl
  split
  · next rest heq =>
    injection heq with h1 _
    exact absurd h1 hc
  · rfl

theorem matchPipedRepl_none_second (c : Char) (r : Str) (hc : ¬c = '[') :
    matchPipedRepl ('[' :: c :: r) = none := by
  unfold matchPipedRepl
  split
  · next rest heq =>
    injection heq with _ h2
    injection h2 with h3 _
    exact absurd h3 hc
  · rfl

theorem matchBareRepl_none_head (c : Char) (r : Str) (hc : ¬c = '[') :
    matchBareRepl (c :: r) = none := by
  unfold matchBareRepl
  split
  · next rest heq =>
    injection heq with h1 _
    exact absurd h1 hc
  · rfl

theorem matchBareRepl_none_second (c : Char) (r : Str) (hc : ¬c = '[') :
    matchBareRepl ('[' :: c :: r) = none := by
  unfold matchBareRepl
  split
  · next rest heq =>
    injection heq with _ h2
    injection h2 with h3 _
    exact absurd h3 hc
  · rfl

theorem scanRepl_nil (m : Str → Option (Str × Str)) (fuel : Nat) :
    scanRepl m fuel [] = [] := by
  cases fuel <;> rfl

theorem scanRepl_cons_none (m : Str → Option (Str × Str)) (fuel : Nat) (c : Char)
    (rest : Str) (h : m (c :: rest) = none) :
    scanRepl m (fuel + 1) (c :: rest) = c :: scanRepl m fuel rest := by
  simp only [scanRepl, h]

theorem scanRepl_cons_some (m : Str → Option (Str × Str)) (fuel : Nat) (c : Char)
    (rest out r : Str) (h : m (c :: rest) = some (out, r)) :
    scanRepl m (fuel + 1) (c :: rest) = out ++ scanRepl m fuel r := by
  simp only [scanRepl, h]

theorem scanRepl_copy (m : Str → Option (Str × Str))
    (hm : ∀ (c : Char) (r : Str), ¬c = '[' → m (c :: r) = none)
    (A : Str) (hA : '[' ∉ A) (T : Str) (fuel : Nat) :
    scanRepl m (A.length + fuel) (A ++ T) = A ++ scanRepl m fuel T := by
  induction A with
  | nil => simp
  | cons c A' ih =>
    have hc : ¬c = '[' := fun h => hA (h ▸ List.mem_cons_self c A')
    rw [List.cons_append, List.length_cons]
    have harith : A'.length + 1 + fuel = (A'.length + fuel) + 1 := by omega
    rw [harith, scanRepl_cons_none m _ c _ (hm c _ hc),
      ih (fun h => hA (List.mem_cons_of_mem c h))]
    rfl

theorem takeWhile_append_stop (p : Char → Bool) (a : Str) (c : Char) (b : Str)
    (ha : ∀ x ∈ a, p x = true) (hc : p c = false) :
    (a ++ c :: b).takeWhile p = a := by
  induction a with
  | nil =>
    simp [List.takeWhile_cons, hc]
  | cons x a' ih =>
    simp only [List.cons_append, List.takeWhile_cons, ha x (List.mem_cons_self x a'),
      if_true]
    rw [ih (fun y hy => ha y (List.mem_cons_of_mem x hy))]

theorem okChar_spec (c : Char) (h : okChar c = true) :
    ¬c = '[' ∧ ¬c = ']' ∧ ¬c = '|' := by
  simp only [okChar, Bool.not_eq_true', Bool.or_eq_false_iff, decide_eq_false_iff_not]
    at h
  exact ⟨h.1.1, h.1.2, h.2⟩

theorem matchAttr_at_attr (n T : Str) (hne : n ≠ [])
    (hok : ∀ c ∈ n, okChar c = true) :
    matchAttrRepl ('[' :: '[' :: (n ++ '|' :: '*' :: ']' :: ']' :: T)) =
      some ([], T) := by
  have hrun : (n ++ '|' :: '*' :: ']' :: ']' :: T).takeWhile
      (fun c => !(c = ']' || c = '|')) = n :=
    takeWhile_append_stop _ n '|' _
      (fun x hx => by
        obtain ⟨h1, h2, h3⟩ := okChar_spec x (hok x hx)
        simp [h2, h3])
      (by simp)
  simp only [matchAttrRepl]
  rw [hrun, if_neg hne, List.drop_left]
  rfl

theorem matchAttr_at_piped (t d T : Str) (htne : t ≠ [])
    (htok : ∀ c ∈ t, okChar c = true) (hdne : d ≠ [])
    (hdok : ∀ c ∈ d, okChar c = true) (hdstar : d ≠ ['*']) :
    matchAttrRepl ('[' :: '[' :: (t ++ '|' :: (d ++ ']' :: ']' :: T))) = none := by
  have hrun : (t ++ '|' :: (d ++ ']' :: ']' :: T)).takeWhile
      (fun c => !(c = ']' || c = '|')) = t :=
    takeWhile_append_stop _ t '|' _
      (fun x hx => by
        obtain ⟨h1, h2, h3⟩ := okChar_spec x (htok x hx)
        simp [h2, h3])
      (by simp)
  simp only [matchAttrRepl]
  rw [hrun, if_neg htne, List.drop_left]
  split
  · next r heq =>
    injection heq with _ h2
    cases d with
    | nil => exact absurd rfl hdne
    | cons c d' =>
      injection h2 with h3 h4
      cases d' with
      | nil =>
        refine absurd ?_ hdstar
        rw [h3]
      | cons c2 d'' =>
        injection h4 with h5 _
        obtain ⟨g1, g2, g3⟩ := okChar_spec c2
          (hdok c2 (List.mem_cons_of_mem c (List.mem_cons_self c2 d'')))
        exact absurd h5 g2
  · rfl

theorem matchAttr_at_bare (t T : Str) (htne : t ≠ [])
    (htok : ∀ c ∈ t, okChar c = true) :
    matchAttrRepl ('[' :: '[' :: (t ++ ']' :: ']' :: T)) = none := by
  have hrun : (t ++ ']' :: ']' :: T).takeWhile
      (fun c => !(c = ']' || c = '|')) = t :=
    takeWhile_append_stop _ t ']' _
      (fun x hx => by
        obtain ⟨h1, h2, h3⟩ := okChar_spec x (htok x hx)
        simp [h2, h3])
      (by simp)
  simp only [matchAttrRepl]
  rw [hrun, if_neg htne, List.drop_left]
  split
  · next r heq =>
    injection heq with h1 _
    exact absurd h1 (by decide)
  · rfl

theorem matchPiped_at_piped (t d T : Str) (htne : t ≠ [])
    (htok : ∀ c ∈ t, okChar c = true) (hdne : d ≠ [])
    (hdok : ∀ c ∈ d, okChar c = true) :
    matchPipedRepl ('[' :: '[' :: (t ++ '|' :: (d ++ ']' :: ']' :: T))) =
      some (d, T) := by
  have hrun : (t ++ '|' :: (d ++ ']' :: ']' :: T)).takeWhile
      (fun c => !(c = ']' || c = '|')) = t :=
    takeWhile_append_stop _ t '|' _
      (fun x hx => by
        obtain ⟨h1, h2, h3⟩ := okChar_spec x (htok x hx)
        simp [h2, h3])
      (by simp)
  have hrun2 : (d ++ ']' :: ']' :: T).takeWhile (fun c => !(c = ']')) = d :=
    takeWhile_append_stop _ d ']' _
      (fun x hx => by
        obtain ⟨h1, h2, h3⟩ := okChar_spec x (hdok x hx)
        simp [h2])
      (by simp)
  simp only [matchPipedRepl]
  rw [hrun, if_neg htne, List.drop_left]
  simp only
  rw [hrun2, if_neg hdne, List.drop_left]
  rfl

theorem matchPiped_at_bare (t T : Str) (htne : t ≠ [])
    (htok : ∀ c ∈ t, okChar c = true) :
    matchPipedRepl ('[' :: '[' :: (t ++ ']' :: ']' :: T)) = none := by
  have hrun : (t ++ ']' :: ']' :: T).takeWhile
      (fun c => !(c = ']' || c = '|')) = t :=
    takeWhile_append_stop _ t ']' _
      (fun x hx => by
        obtain ⟨h1, h2, h3⟩ := okChar_spec x (htok x hx)
        simp [h2, h3])
      (by simp)
  simp only [matchPipedRepl]
  rw [hrun, if_neg htne, List.drop_left]
  split
  · next rest2 heq =>
    injection heq with h1 _
    exact absurd h1 (by decide)
  · rfl

theorem matchBare_at_bare (t T : Str) (htne : t ≠ [])
    (htok : ∀ c ∈ t, okChar c = true) :
    matchBareRepl ('[' :: '[' :: (t ++ ']' :: ']' :: T)) = some (t, T) := by
  have hrun : (t ++ ']' :: ']' :: T).takeWhile (fun c => !(c = ']')) = t :=
    takeWhile_append_stop _ t ']' _
      (fun x hx => by
        obtain ⟨h1, h2, h3⟩ := okChar_spec x (htok x hx)
        simp [h2])
      (by simp)
  simp only [matchBareRepl]
  rw [hrun, if_neg htne, List.drop_left]
  rfl

theorem scanRepl_append_none (m : Str → Option (Str × Str)) (A T : Str)
    (hA : ∀ B, B ≠ [] → B <:+ A → m (B ++ T) = none) (fuel : Nat) :
    scanRepl m (A.length + fuel) (A ++ T) = A ++ scanRepl m fuel T := by
  induction A with
  | nil => simp
  | cons c A' ih =>
    rw [List.cons_append, List.length_cons]
    have harith : A'.length + 1 + fuel = (A'.length + fuel) + 1 := by omega
    rw [harith, scanRepl_cons_none m _ c _ (by
      have h2 := hA (c :: A') (by simp) (List.suffix_refl _)
      simpa using h2)]
    rw [ih (fun B hB hBs => hA B hB (hBs.trans (List.suffix_cons c A')))]
    rfl

theorem scanRepl_skip_body (m : Str → Option (Str × Str))
    (hm_head : ∀ (c : Char) (r : Str), ¬c = '[' → m (c :: r) = none)
    (body T : Str) (hfull : m ('[' :: '[' :: (body ++ T)) = none)
    (hsecond : m ('[' :: (body ++ T)) = none)
    (hbody : '[' ∉ body) (fuel : Nat) :
    scanRepl m (body.length + 1 + 1 + fuel) ('[' :: '[' :: (body ++ T)) =
      '[' :: '[' :: (body ++ scanRepl m fuel T) := by
  have h1 := scanRepl_append_none m ('[' :: '[' :: body) T (by
    intro B hB hBs
    rcases List.suffix_cons_iff.mp hBs with h1 | h2
    · rw [h1, List.cons_append, List.cons_append]
      exact hfull
    · rcases List.suffix_cons_iff.mp h2 with h3 | h4
      · rw [h3, List.cons_append]
        exact hsecond
      · cases B with
        | nil => exact absurd rfl hB
        | cons c r =>
          have hc : ¬c = '[' := fun h => hbody (h ▸ h4.subset (List.mem_cons_self c r))
          rw [List.cons_append]
          exact hm_head c _ hc) fuel
  simpa [List.length_cons] using h1

theorem ne_nil_of_isEmpty_eq_false {l : Str} (h : l.isEmpty = false) :
    l ≠ [] := by
  intro he
  subst he
  simp at h

theorem plain_no_bracket (s : Str)
    (h : s.all (fun c => !(c = '[' || c = ']')) = true) : '[' ∉ s := by
  intro hc
  have h2 := List.all_eq_true.mp h '[' hc
  simp at h2

theorem passAttr (toks : List ETok) (hwf : ∀ tk ∈ toks, wfTok tk = true) :
    ∀ f, scanRepl matchAttrRepl ((toksText toks).length + f) (toksText toks) =
      toksText (toks.filter (fun tk => !isAttrTok tk)) := by
  induction toks with
  | nil =>
    intro f
    simp [toksText, scanRepl_nil]
  | cons tk rest ih =>
    have hwrest : ∀ x ∈ rest, wfTok x = true := fun x hx =>
      hwf x (List.mem_cons_of_mem tk hx)
    have ih2 := ih hwrest
    intro f
    cases tk with
    | plain s =>
      have hwf0 := hwf (ETok.plain s) (List.mem_cons_self _ _)
      simp only [wfTok] at hwf0
      have hs : '[' ∉ s := plain_no_bracket s hwf0
      have htt : toksText (ETok.plain s :: rest) = s ++ toksText rest := by
        simp [toksText, encTok]
      rw [htt, List.length_append]
      have harith : s.length + (toksText rest).length + f =
          s.length + ((toksText rest).length + f) := by omega
      rw [harith, scanRepl_copy matchAttrRepl matchAttrRepl_none_head s hs
        (toksText rest) ((toksText rest).length + f), ih2 f]
      simp [toksText, encTok, isAttrTok, List.filter_cons]
    | attr n =>
      have hwf0 := hwf (ETok.attr n) (List.mem_cons_self _ _)
      simp only [wfTok, Bool.and_eq_true, Bool.not_eq_true', List.all_eq_true]
        at hwf0
      obtain ⟨hne', hok⟩ := hwf0
      have hne : n ≠ [] := ne_nil_of_isEmpty_eq_false hne'
      have htt : toksText (ETok.attr n :: rest) =
          '[' :: '[' :: (n ++ '|' :: '*' :: ']' :: ']' :: toksText rest) := by
        simp [toksText, encTok, List.append_assoc]
      rw [htt]
      have hlen : ('[' :: '[' :: (n ++ '|' :: '*' :: ']' :: ']' :: toksText rest)).length
          + f = ((toksText rest).length + (n.length + 5 + f)) + 1 := by
        simp [List.length_cons, List.length_append]
        omega
      rw [hlen, scanRepl_cons_some matchAttrRepl _ '[' _ [] (toksText rest)
        (matchAttr_at_attr n (toksText rest) hne hok), ih2 (n.length + 5 + f)]
      simp [toksText, isAttrTok, List.filter_cons]
    | piped t d =>
      have hwf0 := hwf (ETok.piped t d) (List.mem_cons_self _ _)
      simp only [wfTok, Bool.and_eq_true, Bool.not_eq_true', List.all_eq_true,
        decide_eq_false_iff_not] at hwf0
      obtain ⟨⟨⟨⟨htne', htok⟩, hdne'⟩, hdok⟩, hdstar⟩ := hwf0
      have htne : t ≠ [] := ne_nil_of_isEmpty_eq_false htne'
      have hdne : d ≠ [] := ne_nil_of_isEmpty_eq_false hdne'
      have htt : toksText (ETok.piped t d :: rest) =
          '[' :: '[' :: ((t ++ '|' :: (d ++ [']', ']'])) ++ toksText rest) := by
        simp [toksText, encTok, List.append_assoc]
      have hfull : matchAttrRepl
          ('[' :: '[' :: ((t ++ '|' :: (d ++ [']', ']'])) ++ toksText rest)) = none := by
        have h0 := matchAttr_at_piped t d (toksText rest) htne htok hdne hdok hdstar
        simpa [List.append_assoc] using h0
      have hsecond : matchAttrRepl
          ('[' :: ((t ++ '|' :: (d ++ [']', ']'])) ++ toksText rest)) = none := by
        cases t with
        | nil => exact absurd rfl htne
        | cons c t' =>
          have hc : ¬c = '[' := (okChar_spec c (htok c (List.mem_cons_self c t'))).1
          simpa [List.cons_append] using matchAttrRepl_none_second c
            ((t' ++ '|' :: (d ++ [']', ']'])) ++ toksText rest) hc
      have hbody : '[' ∉ (t ++ '|' :: (d ++ [']', ']'])) := by
        intro hmem
        rcases List.mem_append.mp hmem with h | h
        · exact (okChar_spec '[' (htok _ h)).1 rfl
        · rcases List.mem_cons.mp h with h | h
          · exact absurd h (by decide)
          · rcases List.mem_append.mp h with h | h
            · exact (okChar_spec '[' (hdok _ h)).1 rfl
            · simp at h
      rw [htt]
      have hlen : ('[' :: '[' :: ((t ++ '|' :: (d ++ [']', ']'])) ++ toksText rest)).length
          + f = (t ++ '|' :: (d ++ [']', ']'])).length + 1 + 1 +
            ((toksText rest).length + f) := by
        simp [List.length_cons, List.length_append]
        omega
      rw [hlen, scanRepl_skip_body matchAttrRepl matchAttrRepl_none_head _ _
        hfull hsecond hbody ((toksText rest).length + f), ih2 f]
      simp [toksText, encTok, isAttrTok, List.filter_cons, List.append_assoc]
    | bare t =>
      have hwf0 := hwf (ETok.bare t) (List.mem_cons_self _ _)
      simp only [wfTok, Bool.and_eq_true, Bool.not_eq_true', List.all_eq_true]
        at hwf0
      obtain ⟨htne', htok⟩ := hwf0
      have htne : t ≠ [] := ne_nil_of_isEmpty_eq_false htne'
      have htt : toksText (ETok.bare t :: rest) =
          '[' :: '[' :: ((t ++ [']', ']']) ++ toksText rest) := by
        simp [toksText, encTok, List.append_assoc]
      have hfull : matchAttrRepl
          ('[' :: '[' :: ((t ++ [']', ']']) ++ toksText rest)) = none := by
        have h0 := matchAttr_at_bare t (toksText rest) htne htok
        simpa [List.append_assoc] using h0
      have hsecond : matchAttrRepl
          ('[' :: ((t ++ [']', ']']) ++ toksText rest)) = none := by
        cases t with
        | nil => exact absurd rfl htne
        | cons c t' =>
          have hc : ¬c = '[' := (okChar_spec c (htok c (List.mem_cons_self c t'))).1
          simpa [List.cons_append] using matchAttrRepl_none_second c
            ((t' ++ [']', ']']) ++ toksText rest) hc
      have hbody : '[' ∉ (t ++ [']', ']']) := by
        intro hmem
        rcases List.mem_append.mp hmem with h | h
        · exact (okChar_spec '[' (htok _ h)).1 rfl
        · simp at h
      rw [htt]
      have hlen : ('[' :: '[' :: ((t ++ [']', ']']) ++ toksText rest)).length
          + f = (t ++ [']', ']']).length + 1 + 1 + ((toksText rest).length + f) := by
        simp [List.length_cons, List.length_append]
        omega
      rw [hlen, scanRepl_skip_body matchAttrRepl matchAttrRepl_none_head _ _
        hfull hsecond hbody ((toksText rest).length + f), ih2 f]
      simp [toksText, encTok, isAttrTok, List.filter_cons, List.append_assoc]

theorem passPiped (toks : List ETok) (hwf : ∀ tk ∈ toks, wfTok tk = true)
    (hna : ∀ tk ∈ toks, isAttrTok tk = false) :
    ∀ f, scanRepl matchPipedRepl ((toksText toks).length + f) (toksText toks) =
      toksText (toks.map unPipe) := by
  induction toks with
  | nil =>
    intro f
    simp [toksText, scanRepl_nil]
  | cons tk rest ih =>
    have hwrest : ∀ x ∈ rest, wfTok x = true := fun x hx =>
      hwf x (List.mem_cons_of_mem tk hx)
    have hnarest : ∀ x ∈ rest, isAttrTok x = false := fun x hx =>
      hna x (List.mem_cons_of_mem tk hx)
    have ih2 := ih hwrest hnarest
    intro f
    cases tk with
    | plain s =>
      have hwf0 := hwf (ETok.plain s) (List.mem_cons_self _ _)
      simp only [wfTok] at hwf0
      have hs : '[' ∉ s := plain_no_bracket s hwf0
      have htt : toksText (ETok.plain s :: rest) = s ++ toksText rest := by
        simp [toksText, encTok]
      rw [htt, List.length_append]
      have harith : s.length + (toksText rest).length + f =
          s.length + ((toksText rest).length + f) := by omega
      rw [harith, scanRepl_copy matchPipedRepl matchPipedRepl_none_head s hs
        (toksText rest) ((toksText rest).length + f), ih2 f]
      simp [toksText, encTok, unPipe]
    | attr n =>
      have h0 := hna (ETok.attr n) (List.mem_cons_self _ _)
      simp [isAttrTok] at h0
    | piped t d =>
      have hwf0 := hwf (ETok.piped t d) (List.mem_cons_self _ _)
      simp only [wfTok, Bool.and_eq_true, Bool.not_eq_true', List.all_eq_true,
        decide_eq_false_iff_not] at hwf0
      obtain ⟨⟨⟨⟨htne', htok⟩, hdne'⟩, hdok⟩, hdstar⟩ := hwf0
      have htne : t ≠ [] := ne_nil_of_isEmpty_eq_false htne'
      have hdne : d ≠ [] := ne_nil_of_isEmpty_eq_false hdne'
      have htt : toksText (ETok.piped t d :: rest) =
          '[' :: '[' :: (t ++ '|' :: (d ++ ']' :: ']' :: toksText rest)) := by
        simp [toksText, encTok, List.append_assoc]
      rw [htt]
      have hlen : ('[' :: '[' :: (t ++ '|' :: (d ++ ']' :: ']' :: toksText rest))).length
          + f = ((toksText rest).length + (t.length + d.length + 4 + f)) + 1 := by
        simp [List.length_cons, List.length_append]
        omega
      rw [hlen, scanRepl_cons_some matchPipedRepl _ '[' _ d (toksText rest)
        (matchPiped_at_piped t d (toksText rest) htne htok hdne hdok),
        ih2 (t.length + d.length + 4 + f)]
      simp [toksText, encTok, unPipe]
    | bare t =>
      have hwf0 := hwf (ETok.bare t) (List.mem_cons_self _ _)
      simp only [wfTok, Bool.and_eq_true, Bool.not_eq_true', List.all_eq_true]
        at hwf0
      obtain ⟨htne', htok⟩ := hwf0
      have htne : t ≠ [] := ne_nil_of_isEmpty_eq_false htne'
      have htt : toksText (ETok.bare t :: rest) =
          '[' :: '[' :: ((t ++ [']', ']']) ++ toksText rest) := by
        simp [toksText, encTok, List.append_assoc]
      have hfull : matchPipedRepl
          ('[' :: '[' :: ((t ++ [']', ']']) ++ toksText rest)) = none := by
        have h0 := matchPiped_at_bare t (toksText rest) htne htok
        simpa [List.append_assoc] using h0
      have hsecond : matchPipedRepl
          ('[' :: ((t ++ [']', ']']) ++ toksText rest)) = none := by
        cases t with
        | nil => exact absurd rfl htne
        | cons c t' =>
          have hc : ¬c = '[' := (okChar_spec c (htok c (List.mem_cons_self c t'))).1
          simpa [List.cons_append] using matchPipedRepl_none_second c
            ((t' ++ [']', ']']) ++ toksText rest) hc
      have hbody : '[' ∉ (t ++ [']', ']']) := by
        intro hmem
        rcases List.mem_append.mp hmem with h | h
        · exact (okChar_spec '[' (htok _ h)).1 rfl
        · simp at h
      rw [htt]
      have hlen : ('[' :: '[' :: ((t ++ [']', ']']) ++ toksText rest)).length
          + f = (t ++ [']', ']']).length + 1 + 1 + ((toksText rest).length + f) := by
        simp [List.length_cons, List.length_append]
        omega
      rw [hlen, scanRepl_skip_body matchPipedRepl matchPipedRepl_none_head _ _
        hfull hsecond hbody ((toksText rest).length + f), ih2 f]
      simp [toksText, encTok, unPipe, List.append_assoc]

theorem passBare (toks : List ETok) (hwf : ∀ tk ∈ toks, wfTok tk = true)
    (hna : ∀ tk ∈ toks, isAttrTok tk = false)
    (hnp : ∀ tk ∈ toks, isPipedTok tk = false) :
    ∀ f, scanRepl matchBareRepl ((toksText toks).length + f) (toksText toks) =
      toksText (toks.map unBare) := by
  induction toks with
  | nil =>
    intro f
    simp [toksText, scanRepl_nil]
  | cons tk rest ih =>
    have hwrest : ∀ x ∈ rest, wfTok x = true := fun x hx =>
      hwf x (List.mem_cons_of_mem tk hx)
    have hnarest : ∀ x ∈ rest, isAttrTok x = false := fun x hx =>
      hna x (List.mem_cons_of_mem tk hx)
    have hnprest : ∀ x ∈ rest, isPipedTok x = false := fun x hx =>
      hnp x (List.mem_cons_of_mem tk hx)
    have ih2 := ih hwrest hnarest hnprest
    intro f
    cases tk with
    | plain s =>
      have hwf0 := hwf (ETok.plain s) (List.mem_cons_self _ _)
      simp only [wfTok] at hwf0
      have hs : '[' ∉ s := plain_no_bracket s hwf0
      have htt : toksText (ETok.plain s :: rest) = s ++ toksText rest := by
        simp [toksText, encTok]
      rw [htt, List.length_append]
      have harith : s.length + (toksText rest).length + f =
          s.length + ((toksText rest).length + f) := by omega
      rw [harith, scanRepl_copy matchBareRepl matchBareRepl_none_head s hs
        (toksText rest) ((toksText rest).length + f), ih2 f]
      simp [toksText, encTok, unBare]
    | attr n =>
      have h0 := hna (ETok.attr n) (List.mem_cons_self _ _)
      simp [isAttrTok] at h0
    | piped t d =>
      have h0 := hnp (ETok.piped t d) (List.mem_cons_self _ _)
      simp [isPipedTok] at h0
    | bare t =>
      have hwf0 := hwf (ETok.bare t) (List.mem_cons_self _ _)
      simp only [wfTok, Bool.and_eq_true, Bool.not_eq_true', List.all_eq_true]
        at hwf0
      obtain ⟨htne', htok⟩ := hwf0
      have htne : t ≠ [] := ne_nil_of_isEmpty_eq_false htne'
      have htt : toksText (ETok.bare t :: rest) =
          '[' :: '[' :: (t ++ ']' :: ']' :: toksText rest) := by
        simp [toksText, encTok, List.append_assoc]
      rw [htt]
      have hlen : ('[' :: '[' :: (t ++ ']' :: ']' :: toksText rest)).length
          + f = ((toksText rest).length + (t.length + 3 + f)) + 1 := by
        simp [List.length_cons, List.length_append]
        omega
      rw [hlen, scanRepl_cons_some matchBareRepl _ '[' _ t (toksText rest)
        (matchBare_at_bare t (toksText rest) htne htok),
        ih2 (t.length + 3 + f)]
      simp [toksText, encTok, unBare]

theorem okChar_plain (s : Str) (h : ∀ c ∈ s, okChar c = true) :
    s.all (fun c => !(c = '[' || c = ']')) = true := by
  rw [List.all_eq_true]
  intro c hc
  obtain ⟨h1, h2, h3⟩ := okChar_spec c (h c hc)
  simp [h1, h2]

theorem wf_unPipe (tk : ETok) (hwf : wfTok tk = true) :
    wfTok (unPipe tk) = true := by
  cases tk with
  | piped t d =>
    simp only [wfTok, Bool.and_eq_true, List.all_eq_true] at hwf
    exact okChar_plain d hwf.1.2
  | plain s => exact hwf
  | attr n => exact hwf
  | bare t => exact hwf

theorem wf_unBare (tk : ETok) (hwf : wfTok tk = true) :
    wfTok (unBare tk) = true := by
  cases tk with
  | bare t =>
    simp only [wfTok, Bool.and_eq_true, List.all_eq_true] at hwf
    exact okChar_plain t hwf.2
  | plain s => exact hwf
  | attr n => exact hwf
  | piped t d => exact hwf

theorem noattr_unPipe (tk : ETok) (h : isAttrTok tk = false) :
    isAttrTok (unPipe tk) = false := by
  cases tk <;> simp [unPipe, isAttrTok] at h ⊢

theorem nopiped_unPipe (tk : ETok) : isPipedTok (unPipe tk) = false := by
  cases tk <;> simp [unPipe, isPipedTok]

theorem encTok_strip (tk : ETok) (h : isAttrTok tk = false) :
    encTok (unBare (unPipe tk)) = stripTok tk := by
  cases tk <;> simp [unPipe, unBare, encTok, stripTok, isAttrTok] at h ⊢

theorem toksText_strip (ts : List ETok) (hna : ∀ tk ∈ ts, isAttrTok tk = false) :
    toksText ((ts.map unPipe).map unBare) = (ts.map stripTok).flatten := by
  induction ts with
  | nil => simp [toksText]
  | cons tk rest ih =>
    have h0 := encTok_strip tk (hna tk (List.mem_cons_self _ _))
    have ih2 := ih (fun x hx => hna x (List.mem_cons_of_mem tk hx))
    simp only [toksText, List.map_cons, List.flatten_cons] at ih2 ⊢
    rw [h0, ih2]

theorem strip_no_brackets (ts : List ETok) (hwf : ∀ tk ∈ ts, wfTok tk = true) :
    ∀ c ∈ (ts.map stripTok).flatten, ¬c = '[' ∧ ¬c = ']' := by
  induction ts with
  | nil => simp
  | cons tk rest ih =>
    intro c hc
    simp only [List.map_cons, List.flatten_cons] at hc
    rcases List.mem_append.mp hc with h | h
    · have hwf0 := hwf tk (List.mem_cons_self _ _)
      cases tk with
      | plain s =>
        simp only [wfTok, List.all_eq_true] at hwf0
        have h2 := hwf0 c h
        simp only [Bool.not_eq_true', Bool.or_eq_false_iff,
          decide_eq_false_iff_not] at h2
        exact h2
      | attr n => simp [stripTok] at h
      | piped t d =>
        simp only [wfTok, Bool.and_eq_true, List.all_eq_true] at hwf0
        obtain ⟨h1, h2, h3⟩ := okChar_spec c (hwf0.1.2 c h)
        exact ⟨h1, h2⟩
      | bare t =>
        simp only [wfTok, Bool.and_eq_true, List.all_eq_true] at hwf0
        obtain ⟨h1, h2, h3⟩ := okChar_spec c (hwf0.2 c h)
        exact ⟨h1, h2⟩
    · exact ih (fun x hx => hwf x (List.mem_cons_of_mem tk hx)) c h

theorem mem_collapseGo (s : Str) (c : Char) :
    ∀ n, c ∈ collapseGo n s → c ∈ s ∨ c = '\n' := by
  induction s with
  | nil =>
    intro n h
    simp only [collapseGo] at h
    right
    exact List.eq_of_mem_replicate h
  | cons x rest ih =>
    intro n h
    simp only [collapseGo] at h
    split at h
    · next hx =>
      rcases ih (n + 1) h with h1 | h1
      · left
        exact List.mem_cons_of_mem x h1
      · right
        exact h1
    · rcases List.mem_append.mp h with h1 | h1
      · right
        exact List.eq_of_mem_replicate h1
      · rcases List.mem_cons.mp h1 with h2 | h2
        · left
          rw [h2]
          exact List.mem_cons_self x rest
        · rcases ih 0 h2 with h3 | h3
          · left
            exact List.mem_cons_of_mem x h3
          · right
            exact h3

theorem mem_collapseNL (s : Str) (c : Char) (h : c ∈ collapseNL s) :
    c ∈ s ∨ c = '\n' :=
  mem_collapseGo s c 0 h

theorem mem_of_strIncludes (pat s : Str) (c : Char) (hc : c ∈ pat)
    (h : strIncludes pat s = true) : c ∈ s := by
  induction s with
  | nil =>
    simp only [strIncludes] at h
    have hp : pat <+: ([] : Str) := List.isPrefixOf_iff_prefix.mp h
    exact absurd (hp.subset hc) (List.not_mem_nil c)
  | cons x rest ih =>
    simp only [strIncludes, Bool.or_eq_true] at h
    rcases h with h | h
    · exact (List.isPrefixOf_iff_prefix.mp h).subset hc
    · exact List.mem_cons_of_mem x (ih h)

theorem renderExport_eq (pin : Str) (ihb : Bool) (content : Str)
    (hne : ¬(parseSections pin content).filter (fun s => !s.pinned) = []) :
    renderExport pin ihb content =
      some (jsTrim (collapseNL (
        scanRepl matchBareRepl
          (scanRepl matchPipedRepl
            (scanRepl matchAttrRepl (exportParts pin ihb content).length
              (exportParts pin ihb content)).length
            (scanRepl matchAttrRepl (exportParts pin ihb content).length
              (exportParts pin ihb content))).length
          (scanRepl matchPipedRepl
            (scanRepl matchAttrRepl (exportParts pin ihb content).length
              (exportParts pin ihb content)).length
            (scanRepl matchAttrRepl (exportParts pin ihb content).length
              (exportParts pin ihb content)))))) := by
  simp only [renderExport, exportParts]
  rw [if_neg hne]

/-- C9 (amended): when the joined export parts tokenize into the link
grammar (plain bracket-free text, attribution sigils, piped and bare
wikilinks), a successful `renderExport` removes every attribution link,
rewrites piped links to their display text and bare links to their target
text, and the output contains no occurrence of the substrings
produced by markup: no double brackets open or close, and no sigil tail. -/
theorem export_strips_markup (pin content : Str) (ihb : Bool)
    (toks : List ETok) (hwf : ∀ tk ∈ toks, wfTok tk = true)
    (hparts : exportParts pin ihb content = toksText toks)
    (out : Str) (hout : renderExport pin ihb content = some out) :
    out = jsTrim (collapseNL
        (((toks.filter (fun tk => !isAttrTok tk)).map stripTok).flatten)) ∧
      strIncludes "[[".data out = false ∧
      strIncludes "]]".data out = false ∧
      strIncludes "|*]]".data out = false := by
  have hne : ¬(parseSections pin content).filter (fun s => !s.pinned) = [] := by
    intro h
    simp only [renderExport] at hout
    rw [if_pos h] at hout
    exact Option.noConfusion hout
  rw [renderExport_eq pin ihb content hne, hparts] at hout
  have hwf1 : ∀ tk ∈ toks.filter (fun tk => !isAttrTok tk), wfTok tk = true :=
    fun tk htk => hwf tk (List.mem_of_mem_filter htk)
  have hna1 : ∀ tk ∈ toks.filter (fun tk => !isAttrTok tk),
      isAttrTok tk = false := by
    intro tk htk
    have h0 := List.of_mem_filter htk
    simpa using h0
  have hwf2 : ∀ tk ∈ (toks.filter (fun tk => !isAttrTok tk)).map unPipe,
      wfTok tk = true := by
    intro tk htk
    obtain ⟨x, hx, rfl⟩ := List.mem_map.mp htk
    exact wf_unPipe x (hwf1 x hx)
  have hna2 : ∀ tk ∈ (toks.filter (fun tk => !isAttrTok tk)).map unPipe,
      isAttrTok tk = false := by
    intro tk htk
    obtain ⟨x, hx, rfl⟩ := List.mem_map.mp htk
    exact noattr_unPipe x (hna1 x hx)
  have hnp2 : ∀ tk ∈ (toks.filter (fun tk => !isAttrTok tk)).map unPipe,
      isPipedTok tk = false := by
    intro tk htk
    obtain ⟨x, hx, rfl⟩ := List.mem_map.mp htk
    exact nopiped_unPipe x
  have e1 := passAttr toks hwf 0
  simp only [Nat.add_zero] at e1
  rw [e1] at hout
  have e2 := passPiped (toks.filter (fun tk => !isAttrTok tk)) hwf1 hna1 0
  simp only [Nat.add_zero] at e2
  rw [e2] at hout
  have e3 := passBare ((toks.filter (fun tk => !isAttrTok tk)).map unPipe)
    hwf2 hna2 hnp2 0
  simp only [Nat.add_zero] at e3
  rw [e3] at hout
  rw [toksText_strip (toks.filter (fun tk => !isAttrTok tk)) hna1] at hout
  injection hout with hout
  subst hout
  have hnob : ∀ c ∈ jsTrim (collapseNL
      (((toks.filter (fun tk => !isAttrTok tk)).map stripTok).flatten)),
      ¬c = '[' ∧ ¬c = ']' := by
    intro c hc
    have h1 := mem_jsTrim c _ hc
    rcases mem_collapseNL _ c h1 with h2 | h2
    · exact strip_no_brackets _ hwf1 c h2
    · rw [h2]
      exact ⟨by decide, by decide⟩
  refine ⟨rfl, ?_, ?_, ?_⟩
  · cases hb : strIncludes "[[".data (jsTrim (collapseNL
        (((toks.filter (fun tk => !isAttrTok tk)).map stripTok).flatten))) with
    | false => rfl
    | true =>
      have hm := mem_of_strIncludes _ _ '[' (by decide) hb
      exact absurd rfl (hnob '[' hm).1
  · cases hb : strIncludes "]]".data (jsTrim (collapseNL
        (((toks.filter (fun tk => !isAttrTok tk)).map stripTok).flatten))) with
    | false => rfl
    | true =>
      have hm := mem_of_strIncludes _ _ ']' (by decide) hb
      exact absurd rfl (hnob ']' hm).2
  · cases hb : strIncludes "|*]]".data (jsTrim (collapseNL
        (((toks.filter (fun tk => !isAttrTok tk)).map stripTok).flatten))) with
    | false => rfl
    | true =>
      have hm := mem_of_strIncludes _ _ ']' (by decide) hb
      exact absurd rfl (hnob ']' hm).2

/-- C9 counterexample: the original claim quantifies over every input text
containing a piped link, a bare link, and an attribution-sigil quote block;
this document contains all three, yet a stray unmatched close-bracket pair
in its prose survives to the export output, which therefore contains the
forbidden substring of two closing brackets. -/
theorem export_keeps_stray_brackets :
    strIncludes "[[T|D]]".data cxDoc = true ∧
    strIncludes "[[C]]".data cxDoc = true ∧
    strIncludes "> q [[Src|*]]".data cxDoc = true ∧
    (renderExport "Sources".data true cxDoc).isSome = true ∧
    strIncludes "]]".data ((renderExport "Sources".data true cxDoc).getD [])
      = true := by
  decide

/-- Witness for C9: a concrete document whose export parts tokenize as
required, instantiating every hypothesis of the claim theorem. -/
theorem export_strips_markup_witness :
    (∀ tk ∈ wToks, wfTok tk = true) ∧
    exportParts "Sources".data true wDoc = toksText wToks ∧
    renderExport "Sources".data true wDoc = some wOut ∧
    (wOut = jsTrim (collapseNL
        (((wToks.filter (fun tk => !isAttrTok tk)).map stripTok).flatten)) ∧
      strIncludes "[[".data wOut = false ∧
      strIncludes "]]".data wOut = false ∧
      strIncludes "|*]]".data wOut = false) :=
  ⟨by decide, by decide, by decide,
    export_strips_markup "Sources".data wDoc true wToks (by decide) (by decide)
      wOut (by decide)⟩

end NA
